import Mathlib

/-!
Verification of the connected-component labelling core.

This file gives a shallow embedding, in Lean 4, of the labelling engine:
the raster model (`Image`, `LabelImage` from `core/image.py`), the
neighbourhood helpers (`utils/utils.py`), the equivalence table and the
two-pass algorithm (`algorithms/two_pass.py`), the disjoint-set structure
and the union-find algorithm (`algorithms/union_find.py`), the edge-list
Kruskal algorithm (`algorithms/kruskal.py`) and the BFS "Prim" algorithm
(`algorithms/prim.py`), together with theorems about them.

Modelling conventions:
* Python's arbitrary-precision integers are `Int` (labels and pixel values);
  loop counters and coordinates are `Nat` where the source only ever holds
  non-negative values.
* The 2-D Python lists backing a grid are modelled as total functions
  `Nat → Nat → Int`; an `Image` carries a proof that cells outside the
  `height × width` rectangle hold `0`, reflecting that the Python list
  simply has no such cells.
* Bounds-checked access (`at` / `set_at`, which raise `IndexError` in the
  source) is modelled with `Except`; the algorithms' internal accesses are
  all in bounds (the guards in the embedded algorithms mirror the guards of
  the source line by line) and read the underlying function directly.
* The recursive `find` with path compression is modelled with explicit
  fuel; on every state the source can actually build, the fuel (the size of
  the parent array) is shown to be sufficient.
-/

set_option linter.unusedVariables false

namespace Labelling

/-- Row-major list of the coordinates of an `height × width` grid, i.e. the
iteration order `for x in range(height): for y in range(width)` used by
every scan in the source. -/
def coords (height width : Nat) : List (Nat × Nat) :=
  (List.range height).flatMap (fun x => (List.range width).map (fun y => (x, y)))

/-- The error raised by out-of-bounds raster access (`IndexError` with the
message "Coordonnées hors limites" in `core/image.py`). -/
inductive AccessError where
  | outOfBounds
  deriving DecidableEq, Repr

/-- `core/image.py`, class `Image`: a grey-level image.  The Python object
stores `self._data`, a `height`-long list of `width`-long rows of ints; we
model the data as a total function which is `0` outside the rectangle. -/
structure Image where
  height : Nat
  width : Nat
  pix : Nat → Nat → Int
  pix_oob : ∀ x y, height ≤ x ∨ width ≤ y → pix x y = 0

/-- Builds an image from dimensions and a cell function (the cells outside
the rectangle are forced to `0`, as in the Python 2-D list). -/
def mkImage (height width : Nat) (f : Nat → Nat → Int) : Image where
  height := height
  width := width
  pix := fun x y => if x < height ∧ y < width then f x y else 0
  pix_oob := by
    intro x y hxy
    have : ¬ (x < height ∧ y < width) := by
      rintro ⟨h1, h2⟩
      rcases hxy with h | h
      · omega
      · omega
    simp [this]

/-- `Image.is_valid` (`core/image.py` lines 133-144): coordinates are valid
iff `0 <= x < height` and `0 <= y < width`.  Coordinates are `Int` because
Python callers may pass negative indices. -/
def Image.is_valid (a : Image) (x y : Int) : Bool :=
  decide (0 ≤ x ∧ x < (a.height : Int) ∧ 0 ≤ y ∧ y < (a.width : Int))

/-- `Image.at` (`core/image.py` lines 100-113): bounds-checked read; raises
when the coordinates are invalid. -/
def Image.at (a : Image) (x y : Int) : Except AccessError Int :=
  if a.is_valid x y then .ok (a.pix x.toNat y.toNat) else .error .outOfBounds

/-- The clamp applied by `Image.set_at` (`core/image.py` lines 126-130):
values below `0` become `0`, values above `255` become `255`. -/
def clampByte (v : Int) : Int :=
  if v < 0 then 0 else if v > 255 then 255 else v

/-- `Image.set_at` (`core/image.py` lines 115-131): bounds-checked write
that clamps the stored value into `[0, 255]`.  On error the image is not
modified (the Python method raises before any assignment), which the
`Except` result models by producing no new image. -/
def Image.set_at (a : Image) (x y : Int) (v : Int) : Except AccessError Image :=
  if h : a.is_valid x y then
    .ok { a with
          pix := fun i j => if i = x.toNat ∧ j = y.toNat then clampByte v else a.pix i j
          pix_oob := by
            intro i j hij
            have hv : 0 ≤ x ∧ x < (a.height : Int) ∧ 0 ≤ y ∧ y < (a.width : Int) := by
              simpa [Image.is_valid] using h
            have : ¬ (i = x.toNat ∧ j = y.toNat) := by
              rintro ⟨rfl, rfl⟩
              rcases hij with hb | hb
              · omega
              · omega
            simp [this, a.pix_oob i j hij] }
  else .error .outOfBounds

/-- `core/image.py`, class `LabelImage`: same shape as `Image`, but the
cells hold labels (Python ints, unclamped). -/
structure LabelImage where
  height : Nat
  width : Nat
  lab : Nat → Nat → Int

/-- `LabelImage.is_valid` (`core/image.py` lines 287-298). -/
def LabelImage.is_valid (L : LabelImage) (x y : Int) : Bool :=
  decide (0 ≤ x ∧ x < (L.height : Int) ∧ 0 ≤ y ∧ y < (L.width : Int))

/-- `LabelImage.at` (`core/image.py` lines 259-272). -/
def LabelImage.at (L : LabelImage) (x y : Int) : Except AccessError Int :=
  if L.is_valid x y then .ok (L.lab x.toNat y.toNat) else .error .outOfBounds

/-- `LabelImage.set_at` (`core/image.py` lines 274-285): bounds-checked
write of a raw (unclamped) integer label. -/
def LabelImage.set_at (L : LabelImage) (x y : Int) (v : Int) : Except AccessError LabelImage :=
  if L.is_valid x y then
    .ok { L with lab := fun i j => if i = x.toNat ∧ j = y.toNat then v else L.lab i j }
  else .error .outOfBounds

/-- Internal unchecked label write, used to embed the algorithms' in-bounds
`labels.set_at(x, y, v)` calls (every such call in the source passes
coordinates already known to be valid, so the bounds check of
`LabelImage.set_at` never fires there). -/
def LabelImage.setL (L : LabelImage) (x y : Nat) (v : Int) : LabelImage :=
  { L with lab := fun i j => if i = x ∧ j = y then v else L.lab i j }

/-- A fresh all-zero label image: the constructor `LabelImage(width, height)`
followed by `fill(0)`, as every algorithm starts. -/
def zeroLabels (height width : Nat) : LabelImage :=
  { height := height, width := width, lab := fun _ _ => 0 }

/-- `LabelImage.count_labels` (`core/image.py` lines 311-325): the number
of distinct values `> 0` in the grid (the Python code accumulates them in a
set and returns its size). -/
def LabelImage.count_labels (L : LabelImage) : Nat :=
  ((((coords L.height L.width).map (fun c => L.lab c.1 c.2)).filter (fun v => 0 < v)).dedup).length

/-- `utils/utils.py` lines 216-261, `get_neighbors`: the neighbours of
`(x, y)` under the given connectivity, in the order the Python code appends
them (N, S, E, W for connectivity 4; the `dx, dy` double loop for
connectivity 8).  Any connectivity other than `4` or `8` yields the empty
list.  Each candidate keeps exactly the bound checks the Python code
performs (for connectivity 8 both sides of each bound are checked). -/
def get_neighbors (x y : Nat) (width height : Nat) (connectivity : Int) : List (Nat × Nat) :=
  if connectivity = 4 then
    (if 0 < x then [(x - 1, y)] else []) ++
    (if x < height - 1 then [(x + 1, y)] else []) ++
    (if y < width - 1 then [(x, y + 1)] else []) ++
    (if 0 < y then [(x, y - 1)] else [])
  else if connectivity = 8 then
    (if 0 < x ∧ x - 1 < height ∧ 0 < y ∧ y - 1 < width then [(x - 1, y - 1)] else []) ++
    (if 0 < x ∧ x - 1 < height ∧ y < width then [(x - 1, y)] else []) ++
    (if 0 < x ∧ x - 1 < height ∧ y + 1 < width then [(x - 1, y + 1)] else []) ++
    (if x < height ∧ 0 < y ∧ y - 1 < width then [(x, y - 1)] else []) ++
    (if x < height ∧ y + 1 < width then [(x, y + 1)] else []) ++
    (if x + 1 < height ∧ 0 < y ∧ y - 1 < width then [(x + 1, y - 1)] else []) ++
    (if x + 1 < height ∧ y < width then [(x + 1, y)] else []) ++
    (if x + 1 < height ∧ y + 1 < width then [(x + 1, y + 1)] else [])
  else []

namespace TwoPass

/-- `algorithms/two_pass.py` lines 242-296, `TwoPass._get_previous_neighbors`:
the already-scanned ("causal") neighbours of `(x, y)` in a left-to-right,
top-to-bottom scan — north and west for connectivity 4; north-west, north,
north-east and west for connectivity 8; empty for any other value. -/
def get_previous_neighbors (x y : Nat) (width height : Nat) (connectivity : Int) :
    List (Nat × Nat) :=
  if connectivity = 4 then
    (if 0 < x then [(x - 1, y)] else []) ++
    (if 0 < y then [(x, y - 1)] else [])
  else if connectivity = 8 then
    (if 0 < x ∧ 0 < y then [(x - 1, y - 1)] else []) ++
    (if 0 < x then [(x - 1, y)] else []) ++
    (if 0 < x ∧ y < width - 1 then [(x - 1, y + 1)] else []) ++
    (if 0 < y then [(x, y - 1)] else [])
  else []

end TwoPass

/-- `algorithms/two_pass.py` lines 43-113, class `EquivalenceTable`: an
array-backed union-find variant whose parent array starts as `[0]` (label
`0` is reserved for the background). -/
structure EquivalenceTable where
  parent : List Nat
  deriving DecidableEq, Repr

/-- `EquivalenceTable.__init__` (lines 53-56): the parent array starts as
`[0]`. -/
def EquivalenceTable.init : EquivalenceTable := ⟨[0]⟩

/-- `EquivalenceTable.size` (lines 111-113). -/
def EquivalenceTable.size (t : EquivalenceTable) : Nat := t.parent.length

/-- `EquivalenceTable.make_set` (lines 58-67): appends a fresh label that is
its own root and returns it together with the new table. -/
def EquivalenceTable.make_set (t : EquivalenceTable) : EquivalenceTable × Nat :=
  let label := t.parent.length
  (⟨t.parent ++ [label]⟩, label)

/-- Fuelled core of `EquivalenceTable.find` (lines 69-86).  The Python
method is recursive: after the `x <= 0 or x >= len(parent)` guard it
recurses on `parent[x]` and path-compresses (`parent[x] = find(parent[x])`).
The fuel makes the recursion structural; on every table the source can
build, the parent of a positive label is a smaller positive label, so fuel
`parent.length` is never exhausted (proved below). -/
def findAux : Nat → List Nat → Nat → List Nat × Nat
  | 0, p, _ => (p, 0)
  | fuel + 1, p, x =>
    if x = 0 ∨ p.length ≤ x then (p, 0)
    else if p.getD x 0 = x then (p, x)
    else
      let r := findAux fuel p (p.getD x 0)
      (r.1.set x r.2, r.2)

/-- `EquivalenceTable.find` (lines 69-86): follows parent pointers with
path compression; out-of-range labels (including all `x ≤ 0`) yield `0`.
Returns the updated (compressed) table together with the root. -/
def EquivalenceTable.find (t : EquivalenceTable) (x : Int) : EquivalenceTable × Nat :=
  if x ≤ 0 then (t, 0)
  else
    let r := findAux t.parent.length t.parent x.toNat
    (⟨r.1⟩, r.2)

/-- `EquivalenceTable.unite` (lines 88-109): finds both roots (each `find`
may compress the table) and, when they differ, points the larger root at
the smaller one. -/
def EquivalenceTable.unite (t : EquivalenceTable) (x y : Int) : EquivalenceTable :=
  let r1 := t.find x
  let r2 := r1.1.find y
  let root_x := r1.2
  let root_y := r2.2
  let t2 := r2.1
  if root_x = root_y then t2
  else if root_x < root_y then ⟨t2.parent.set root_y root_x⟩
  else ⟨t2.parent.set root_x root_y⟩

/-- `algorithms/union_find.py` lines 49-118, class `DisjointSet` (and its
verbatim copy `DisjointSetKruskal` in `algorithms/kruskal.py` lines 60-117):
union-find with path compression and union by rank over a fixed universe
`{0, ..., size-1}`. -/
structure DisjointSet where
  parent : List Nat
  rank : List Nat
  deriving DecidableEq, Repr

/-- `DisjointSet.__init__` (lines 58-67): each element its own root, all
ranks zero. -/
def DisjointSet.init (size : Nat) : DisjointSet :=
  ⟨List.range size, List.replicate size 0⟩

/-- Fuelled core of `DisjointSet.find` (lines 69-86): follows parent
pointers with path compression.  The source has no bounds guard (all call
sites pass `x < size`); on every reachable state the rank invariant bounds
parent chains by `size`, so fuel `parent.length` is never exhausted
(proved below). -/
def dsFindAux : Nat → List Nat → Nat → List Nat × Nat
  | 0, p, x => (p, x)
  | fuel + 1, p, x =>
    if p.getD x 0 = x then (p, x)
    else
      let r := dsFindAux fuel p (p.getD x 0)
      (r.1.set x r.2, r.2)

/-- `DisjointSet.find` (lines 69-86), threading the compressed state. -/
def DisjointSet.find (d : DisjointSet) (x : Nat) : DisjointSet × Nat :=
  let r := dsFindAux d.parent.length d.parent x
  ({ d with parent := r.1 }, r.2)

/-- `DisjointSet.unite` (lines 88-118): union by rank; ties attach `y`'s
root under `x`'s root and bump the latter's rank.  (The boolean the Python
method returns is ignored by every caller in the algorithms, so it is not
modelled.) -/
def DisjointSet.unite (d : DisjointSet) (x y : Nat) : DisjointSet :=
  let r1 := d.find x
  let root_x := r1.2
  let r2 := r1.1.find y
  let root_y := r2.2
  let d2 := r2.1
  if root_x = root_y then d2
  else if d2.rank.getD root_x 0 < d2.rank.getD root_y 0 then
    { d2 with parent := d2.parent.set root_x root_y }
  else if d2.rank.getD root_y 0 < d2.rank.getD root_x 0 then
    { d2 with parent := d2.parent.set root_y root_x }
  else
    { parent := d2.parent.set root_y root_x,
      rank := d2.rank.set root_x (d2.rank.getD root_x 0 + 1) }

/-- `UnionFind._get_index` (`algorithms/union_find.py` lines 244-257) and
its verbatim copy `Kruskal._get_index` (`algorithms/kruskal.py` lines
271-284): row-major linear index `x * width + y`. -/
def get_index (x y width : Nat) : Nat := x * width + y

/-- The causal foreground neighbours of an object pixel, with exactly the
guards of phase 1 of `UnionFind.label` (`algorithms/union_find.py` lines
174-209) and of `Kruskal._build_edges` (`algorithms/kruskal.py` lines
233-267), in source order: N, W for connectivity 4; NW, N, NE, W for
connectivity 8; empty otherwise.  Both places guard each candidate with its
bound check and `input_image.at(...) != 0`. -/
def causalFgNeighbors (a : Image) (connectivity : Int) (x y : Nat) : List (Nat × Nat) :=
  if connectivity = 4 then
    (if 0 < x ∧ a.pix (x - 1) y ≠ 0 then [(x - 1, y)] else []) ++
    (if 0 < y ∧ a.pix x (y - 1) ≠ 0 then [(x, y - 1)] else [])
  else if connectivity = 8 then
    (if 0 < x ∧ 0 < y ∧ a.pix (x - 1) (y - 1) ≠ 0 then [(x - 1, y - 1)] else []) ++
    (if 0 < x ∧ a.pix (x - 1) y ≠ 0 then [(x - 1, y)] else []) ++
    (if 0 < x ∧ y < a.width - 1 ∧ a.pix (x - 1) (y + 1) ≠ 0 then [(x - 1, y + 1)] else []) ++
    (if 0 < y ∧ a.pix x (y - 1) ≠ 0 then [(x, y - 1)] else [])
  else []

/-- One cell of the label-compaction scan shared by phase 2 of
`UnionFind.label` (`algorithms/union_find.py` lines 221-241) and step 4 of
`Kruskal.label` (`algorithms/kruskal.py` lines 181-198) — the two loops are
textually identical in the source.  State: the disjoint set (mutated by
path compression in `find`), the label image, the `root_to_label` array
(modelled as a function, `0` = not yet assigned) and `next_label`. -/
def compactStep (a : Image) (st : DisjointSet × LabelImage × (Nat → Nat) × Nat)
    (c : Nat × Nat) : DisjointSet × LabelImage × (Nat → Nat) × Nat :=
  let ds := st.1
  let L := st.2.1
  let rtl := st.2.2.1
  let next := st.2.2.2
  if a.pix c.1 c.2 = 0 then (ds, L.setL c.1 c.2 0, rtl, next)
  else
    let fr := ds.find (get_index c.1 c.2 a.width)
    if rtl fr.2 = 0 then
      (fr.1, L.setL c.1 c.2 ((next : Int)), Function.update rtl fr.2 next, next + 1)
    else
      (fr.1, L.setL c.1 c.2 ((rtl fr.2 : Int)), rtl, next)

/-- `UnionFind.label` (`algorithms/union_find.py` lines 131-242): phase 1
unions every object pixel with its causal foreground neighbours; phase 2
compacts the disjoint-set roots into dense labels in raster-scan order. -/
def UnionFind.label (a : Image) (connectivity : Int) : LabelImage :=
  let size := a.width * a.height
  let ds1 := (coords a.height a.width).foldl (fun ds c =>
    if a.pix c.1 c.2 = 0 then ds
    else
      (causalFgNeighbors a connectivity c.1 c.2).foldl
        (fun ds n => ds.unite (get_index c.1 c.2 a.width) (get_index n.1 n.2 a.width)) ds)
    (DisjointSet.init size)
  let st := (coords a.height a.width).foldl (compactStep a)
    (ds1, zeroLabels a.height a.width, fun _ => 0, 1)
  st.2.1

/-- `algorithms/kruskal.py` lines 48-57, dataclass `Edge`: a pair of pixel
linear indices with a weight (always `1` in this program). -/
structure Edge where
  u : Nat
  v : Nat
  weight : Int
  deriving DecidableEq, Repr

/-- `Kruskal._build_edges` (`algorithms/kruskal.py` lines 202-269): one
edge from each object pixel to each of its causal foreground neighbours,
in raster-scan order, each with weight `1`. -/
def Kruskal.build_edges (a : Image) (connectivity : Int) : List Edge :=
  (coords a.height a.width).flatMap (fun c =>
    if a.pix c.1 c.2 = 0 then []
    else
      (causalFgNeighbors a connectivity c.1 c.2).map
        (fun n => ⟨get_index c.1 c.2 a.width, get_index n.1 n.2 a.width, 1⟩))

/-- Auxiliary of `sortEdges`: stable insertion of an edge into a sorted
list, by weight (`Edge.__lt__` compares only weights). -/
def insertEdge (e : Edge) : List Edge → List Edge
  | [] => [e]
  | f :: fs => if f.weight < e.weight then f :: insertEdge e fs else e :: f :: fs

/-- `edges.sort()` in `Kruskal.label` (`algorithms/kruskal.py` line 163):
Python's `list.sort` is a stable sort driven by `Edge.__lt__`, i.e. by the
weight only; it is modelled by a stable insertion sort on weights (any two
stable sorts agree, since the comparison sees nothing but weights). -/
def sortEdges : List Edge → List Edge
  | [] => []
  | e :: es => insertEdge e (sortEdges es)

/-- `Kruskal.label` (`algorithms/kruskal.py` lines 130-200): build the edge
list, sort it by weight, union every edge's endpoints, then compact roots
into dense labels exactly as `UnionFind.label` does. -/
def Kruskal.label (a : Image) (connectivity : Int) : LabelImage :=
  let size := a.width * a.height
  let edges := sortEdges (Kruskal.build_edges a connectivity)
  let ds1 := edges.foldl (fun ds e => ds.unite e.u e.v) (DisjointSet.init size)
  let st := (coords a.height a.width).foldl (compactStep a)
    (ds1, zeroLabels a.height a.width, fun _ => 0, 1)
  st.2.1

/-- `Kruskal.label` with the edge-sorting step removed, as described by the
specification ("an implementer may skip sorting without changing results"):
identical to `Kruskal.label` except that the edge list is used in
construction order. -/
def Kruskal.labelNoSort (a : Image) (connectivity : Int) : LabelImage :=
  let size := a.width * a.height
  let edges := Kruskal.build_edges a connectivity
  let ds1 := edges.foldl (fun ds e => ds.unite e.u e.v) (DisjointSet.init size)
  let st := (coords a.height a.width).foldl (compactStep a)
    (ds1, zeroLabels a.height a.width, fun _ => 0, 1)
  st.2.1

/-- The running-minimum loop of `TwoPass._first_pass` (`algorithms/
two_pass.py` lines 203-207): `min_label = nl[0]; for each later v: if
v < min_label: min_label = v`. -/
def listMinFrom (x : Int) (xs : List Int) : Int :=
  xs.foldl (fun m v => if v < m then v else m) x

/-- One cell of `TwoPass._first_pass` (`algorithms/two_pass.py` lines
154-215): background pixels get label 0; an object pixel with no positive
causal foreground neighbour label gets a fresh label from `make_set`;
otherwise it gets the minimum neighbour label and the table records the
equivalence of that minimum with every other neighbour label. -/
def TwoPass.first_pass_step (a : Image) (connectivity : Int)
    (st : LabelImage × EquivalenceTable) (c : Nat × Nat) :
    LabelImage × EquivalenceTable :=
  let L := st.1
  let t := st.2
  if a.pix c.1 c.2 = 0 then (L.setL c.1 c.2 0, t)
  else
    let ns := TwoPass.get_previous_neighbors c.1 c.2 a.width a.height connectivity
    let nlabels :=
      ((ns.filter (fun n => a.pix n.1 n.2 ≠ 0)).map (fun n => L.lab n.1 n.2)).filter
        (fun v => 0 < v)
    match nlabels with
    | [] =>
      let r := t.make_set
      (L.setL c.1 c.2 ((r.2 : Int)), r.1)
    | v :: vs =>
      let m := listMinFrom v vs
      ((L.setL c.1 c.2 m),
        (v :: vs).foldl (fun t' w => if w ≠ m then t'.unite m w else t') t)

/-- `TwoPass._first_pass` (`algorithms/two_pass.py` lines 154-215): the
raster scan of `first_pass_step` over the whole image. -/
def TwoPass.first_pass (a : Image) (connectivity : Int)
    (st : LabelImage × EquivalenceTable) : LabelImage × EquivalenceTable :=
  (coords a.height a.width).foldl (TwoPass.first_pass_step a connectivity) st

/-- One cell of `TwoPass._second_pass` (`algorithms/two_pass.py` lines
217-240): every positive label is replaced by its root in the equivalence
table (each `find` may path-compress the table). -/
def TwoPass.second_pass_step (st : LabelImage × EquivalenceTable) (c : Nat × Nat) :
    LabelImage × EquivalenceTable :=
  let L := st.1
  let t := st.2
  let l := L.lab c.1 c.2
  if 0 < l then
    let r := t.find l
    (L.setL c.1 c.2 ((r.2 : Int)), r.1)
  else (L, t)

/-- `TwoPass.label` (`algorithms/two_pass.py` lines 124-152): fresh label
image filled with `0`, fresh equivalence table, first pass then second
pass. -/
def TwoPass.label (a : Image) (connectivity : Int) : LabelImage :=
  let st1 := TwoPass.first_pass a connectivity
    (zeroLabels a.height a.width, EquivalenceTable.init)
  let st2 := (coords a.height a.width).foldl TwoPass.second_pass_step st1
  st2.1

/-- Number of cells of the `a.height × a.width` rectangle whose label is
still `0`; the termination measure of the BFS of `Prim`. -/
def countZeroA (a : Image) (L : LabelImage) : Nat :=
  ((coords a.height a.width).filter (fun c => L.lab c.1 c.2 = 0)).length

/-- The body of the neighbour loop of `Prim._bfs` (`algorithms/prim.py`
lines 126-129): an unlabelled foreground neighbour is labelled and pushed
at the back of the FIFO queue. -/
def Prim.bfsVisit (a : Image) (lbl : Int) (st : LabelImage × List (Nat × Nat))
    (n : Nat × Nat) : LabelImage × List (Nat × Nat) :=
  if a.pix n.1 n.2 ≠ 0 ∧ st.1.lab n.1 n.2 = 0 then
    (st.1.setL n.1 n.2 lbl, st.2 ++ [n])
  else st

/-- Fuelled form of the `while queue:` loop of `Prim._bfs`
(`algorithms/prim.py` lines 122-129): pop the front of the FIFO queue, then
label and enqueue every unlabelled foreground neighbour.  The loop
terminates because each iteration pops one entry and every enqueue turns a
zero label into a non-zero one; the fuel used by `Prim.bfsLoop` below is
exactly that measure, so the fuel-exhaustion branch is unreachable
(proved later). -/
def Prim.bfsLoopF (a : Image) (lbl : Int) (connectivity : Int) :
    Nat → LabelImage → List (Nat × Nat) → LabelImage
  | _, L, [] => L
  | 0, L, _ :: _ => L
  | fuel + 1, L, c :: rest =>
    let st := (get_neighbors c.1 c.2 a.width a.height connectivity).foldl
      (Prim.bfsVisit a lbl) (L, rest)
    Prim.bfsLoopF a lbl connectivity fuel st.1 st.2

/-- The `while queue:` loop of `Prim._bfs`, with its termination measure
as the fuel. -/
def Prim.bfsLoop (a : Image) (lbl : Int) (connectivity : Int)
    (L : LabelImage) (q : List (Nat × Nat)) : LabelImage :=
  Prim.bfsLoopF a lbl connectivity (countZeroA a L + q.length) L q

/-- `Prim._bfs` (`algorithms/prim.py` lines 96-129): seed the queue with
the start pixel, label it, and run the loop. -/
def Prim.bfs (a : Image) (L : LabelImage) (sx sy : Nat) (lbl : Int)
    (connectivity : Int) : LabelImage :=
  Prim.bfsLoop a lbl connectivity (L.setL sx sy lbl) [(sx, sy)]

/-- `Prim.label` (`algorithms/prim.py` lines 65-94): raster scan; every
unlabelled foreground pixel starts a fresh label (a plain counter) and a
BFS that paints its whole component. -/
def Prim.label (a : Image) (connectivity : Int) : LabelImage :=
  let st := (coords a.height a.width).foldl (fun (st : LabelImage × Nat) c =>
    if a.pix c.1 c.2 ≠ 0 ∧ st.1.lab c.1 c.2 = 0 then
      (Prim.bfs a st.1 c.1 c.2 ((st.2 + 1 : Nat) : Int) connectivity, st.2 + 1)
    else st) (zeroLabels a.height a.width, 0)
  st.1

/-! ### Specification-level notions -/

/-- A raster built from an explicit list of rows (cells outside the listed
rectangle are `0`); used for concrete instances. -/
def ofRows (rows : List (List Int)) : Image :=
  mkImage rows.length (rows.headD []).length (fun x y => (rows.getD x []).getD y 0)

/-- A cell is foreground ("object") when its pixel value is non-zero — this
is the test every algorithm applies (`input_image.at(x, y) != 0`); such a
cell is automatically inside the rectangle because `pix` vanishes outside. -/
def Image.fg (a : Image) (c : Nat × Nat) : Prop := a.pix c.1 c.2 ≠ 0

/-- Two foreground cells are adjacent when the second is a neighbour of the
first under `get_neighbors` (the full neighbourhood of `utils/utils.py`). -/
def Adjacent (a : Image) (connectivity : Int) (c d : Nat × Nat) : Prop :=
  a.fg c ∧ a.fg d ∧ d ∈ get_neighbors c.1 c.2 a.width a.height connectivity

/-- Connectivity of cells: the reflexive-transitive closure of adjacency
(the adjacency relation is symmetric for connectivities 4 and 8, so this is
the usual "same connected component" equivalence on foreground cells). -/
def Connected (a : Image) (connectivity : Int) : (Nat × Nat) → (Nat × Nat) → Prop :=
  Relation.ReflTransGen (Adjacent a connectivity)

/-- One undirected step along a list of (unordered) pairs. -/
def pairStep {α : Type} (ps : List (α × α)) (u v : α) : Prop :=
  (u, v) ∈ ps ∨ (v, u) ∈ ps

/-- The equivalence generated by a list of pairs (reflexive-transitive
closure of the symmetric step, hence an equivalence relation). -/
def pairEquiv {α : Type} (ps : List (α × α)) : α → α → Prop :=
  Relation.ReflTransGen (pairStep ps)

/-- One step of parent-pointer chasing in a parent array (out-of-range
reads default to `0`, which never happens on the arrays the code builds). -/
def pstep (p : List Nat) (x : Nat) : Nat := p.getD x 0

/-- `x` is a root of the parent array. -/
def IsRootP (p : List Nat) (x : Nat) : Prop := pstep p x = x

/-- `k`-fold parent-pointer chasing. -/
def iterP (p : List Nat) : Nat → Nat → Nat
  | 0, x => x
  | k + 1, x => iterP p k (pstep p x)

/-- The parent chain from `x` reaches the root `r`. -/
def Reaches (p : List Nat) (x r : Nat) : Prop :=
  ∃ k, iterP p k x = r ∧ IsRootP p r

/-- `x` and `y` lie in the same tree of the parent forest. -/
def rootEq (p : List Nat) (x y : Nat) : Prop :=
  ∃ r, Reaches p x r ∧ Reaches p y r

/-- An abstract call against an `EquivalenceTable`: either `make_set()` or
`unite(x, y)`. -/
inductive TableOp where
  | makeSet : TableOp
  | unite (x y : Int) : TableOp
  deriving DecidableEq, Repr

/-- Executes one call. -/
def applyOp (t : EquivalenceTable) : TableOp → EquivalenceTable
  | .makeSet => t.make_set.1
  | .unite x y => t.unite x y

/-- The table obtained from a fresh `EquivalenceTable()` by a sequence of
calls. -/
def applyOps (ops : List TableOp) : EquivalenceTable :=
  ops.foldl applyOp EquivalenceTable.init

/-- A call sequence is well formed (starting from a table of size `n`) when
every `unite` argument is an already-allocated label at the time of the
call. -/
def WellFormedOps : Nat → List TableOp → Prop
  | _, [] => True
  | n, .makeSet :: rest => WellFormedOps (n + 1) rest
  | n, .unite x y :: rest =>
      (1 ≤ x ∧ x < (n : Int)) ∧ (1 ≤ y ∧ y < (n : Int)) ∧ WellFormedOps n rest

/-- The label pairs recorded by the `unite` calls of a sequence. -/
def opsPairs : List TableOp → List (Nat × Nat)
  | [] => []
  | .makeSet :: rest => opsPairs rest
  | .unite x y :: rest => (x.toNat, y.toNat) :: opsPairs rest

/-- The causal adjacency pairs `(current index, neighbour index)` that
phase 1 of `UnionFind.label` unions, in scan order — also exactly the edge
endpoints `Kruskal._build_edges` emits. -/
def causalPairs (a : Image) (connectivity : Int) : List (Nat × Nat) :=
  (coords a.height a.width).flatMap (fun c =>
    if a.pix c.1 c.2 = 0 then []
    else
      (causalFgNeighbors a connectivity c.1 c.2).map
        (fun nb => (get_index c.1 c.2 a.width, get_index nb.1 nb.2 a.width)))

/-- Phase 1 of `UnionFind.label` (`algorithms/union_find.py` lines
166-209) as a named value: the disjoint set after all causal unions. -/
def UnionFind.phase1 (a : Image) (connectivity : Int) : DisjointSet :=
  (coords a.height a.width).foldl (fun ds c =>
    if a.pix c.1 c.2 = 0 then ds
    else
      (causalFgNeighbors a connectivity c.1 c.2).foldl
        (fun ds n => ds.unite (get_index c.1 c.2 a.width) (get_index n.1 n.2 a.width)) ds)
    (DisjointSet.init (a.width * a.height))

/-- The raster is binary: every cell is `0` or `255` (the form the spec
requires of inputs). -/
def Binary (a : Image) : Prop :=
  ∀ c ∈ coords a.height a.width, a.pix c.1 c.2 = 0 ∨ a.pix c.1 c.2 = 255

/-- Number of foreground cells of the raster. -/
def countFg (a : Image) : Nat :=
  ((coords a.height a.width).filter (fun c => a.pix c.1 c.2 ≠ 0)).length

/-- The grid that gives the `k`-th foreground pixel (in raster order) the
label `k` and every background pixel the label `0` — the common output of
all four algorithms when the connectivity is not `4` or `8`. -/
def rankGrid (a : Image) : LabelImage :=
  ((coords a.height a.width).foldl (fun (st : LabelImage × Nat) c =>
    if a.pix c.1 c.2 ≠ 0 then (st.1.setL c.1 c.2 ((st.2 + 1 : Nat) : Int), st.2 + 1)
    else st) (zeroLabels a.height a.width, 0)).1

/-- The set of non-zero labels of the grid is exactly `{1, ..., K}` with
`K = count_labels`. -/
def DenseLabels (L : LabelImage) : Prop :=
  ∀ v : Int, (∃ c ∈ coords L.height L.width, L.lab c.1 c.2 = v ∧ v ≠ 0) ↔
    (1 ≤ v ∧ v ≤ (L.count_labels : Int))

/-- A 4 × 3 raster with two components, one of which absorbs a provisional
label: the first-pass labels are 1, 2 (merged into 1) and 3, so the final
two-pass labels are `{1, 3}` — dense for the other algorithms, gapped for
two-pass. -/
def sampleGap : Image := ofRows [[255, 0, 255], [255, 255, 255], [0, 0, 0], [255, 0, 0]]

/-- A 2 × 2 raster with two diagonally adjacent foreground pixels. -/
def sampleDiag : Image := ofRows [[255, 0], [0, 255]]

/-- A 3 × 3 raster with a plus-shaped foreground component. -/
def samplePlus : Image := ofRows [[0, 255, 0], [255, 255, 255], [0, 255, 0]]

/-- Generic termination invariant for a parent array over the universe
`{0, ..., n-1}`: parent links stay inside the universe and some measure
strictly increases along every non-root link (for the equivalence table
the measure is `n - i`, since parents are strictly smaller; for the ranked
disjoint sets it is the rank). -/
def PInv (p : List Nat) (n : Nat) (m : Nat → Nat) : Prop :=
  p.length = n ∧ ∀ i, i < n → pstep p i < n ∧ (pstep p i ≠ i → m i < m (pstep p i))

/-- Invariant of every reachable `EquivalenceTable`: entry `0` is a root
and every allocated label's parent is a (positive) label no larger than
itself — `make_set` appends self-parents and `unite` always points the
larger root at the smaller one. -/
def TableInv (t : EquivalenceTable) : Prop :=
  1 ≤ t.parent.length ∧ pstep t.parent 0 = 0 ∧
  ∀ i, 1 ≤ i → i < t.parent.length → 1 ≤ pstep t.parent i ∧ pstep t.parent i ≤ i

/-- Invariant of every reachable `DisjointSet` over `{0, ..., n-1}`:
parents stay in range and the rank strictly increases along every non-root
parent link (the standard union-by-rank invariant). -/
def DSInv (d : DisjointSet) (n : Nat) : Prop :=
  d.rank.length = n ∧ PInv d.parent n (fun i => d.rank.getD i 0)

/-- Invariant of the label-compaction scan (`compactStep` folded over the
raster): relates the state after the cells in `done` have been processed
to the phase-1 disjoint set `ds1`. -/
structure CompactInv (a : Image) (ds1 : DisjointSet) (n : Nat)
    (done : List (Nat × Nat))
    (st : DisjointSet × LabelImage × (Nat → Nat) × Nat) : Prop where
  hds : DSInv st.1 n
  hiff : ∀ y s, Reaches st.1.parent y s ↔ Reaches ds1.parent y s
  hh : st.2.1.height = a.height
  hw : st.2.1.width = a.width
  hnext : 1 ≤ st.2.2.2
  hrtl_lt : ∀ r, st.2.2.1 r ≠ 0 → 1 ≤ st.2.2.1 r ∧ st.2.2.1 r < st.2.2.2
  hrtl_inj : ∀ r r', st.2.2.1 r ≠ 0 → st.2.2.1 r' ≠ 0 →
    st.2.2.1 r = st.2.2.1 r' → r = r'
  hsurj : ∀ v, 1 ≤ v → v < st.2.2.2 → ∃ r, st.2.2.1 r = v
  hbg : ∀ c, c ∈ done → a.pix c.1 c.2 = 0 → st.2.1.lab c.1 c.2 = 0
  hfg : ∀ c, c ∈ done → a.pix c.1 c.2 ≠ 0 →
    ∃ r, Reaches ds1.parent (get_index c.1 c.2 a.width) r ∧
      st.2.2.1 r ≠ 0 ∧ st.2.1.lab c.1 c.2 = ((st.2.2.1 r : Nat) : Int)
  hused : ∀ r, st.2.2.1 r ≠ 0 → ∃ c, c ∈ done ∧ a.pix c.1 c.2 ≠ 0 ∧
    Reaches ds1.parent (get_index c.1 c.2 a.width) r
  hun : ∀ i j, (i, j) ∉ done → st.2.1.lab i j = 0


/-- Invariant of the `while queue:` loop of `Prim._bfs`, relative to the
label image `L0` at the start of the BFS and the seed `s`: the grid differs
from `L0` exactly on cells painted `lbl`, every painted cell is a
foreground cell connected to the seed, queued cells are painted, and every
painted cell already popped has no unlabelled foreground neighbour left. -/
structure BFSInv (a : Image) (conn : Int) (lbl : Int) (L0 : LabelImage)
    (s : Nat × Nat) (st : LabelImage × List (Nat × Nat)) : Prop where
  hh : st.1.height = L0.height
  hw : st.1.width = L0.width
  hdiff : ∀ c : Nat × Nat, st.1.lab c.1 c.2 = L0.lab c.1 c.2 ∨
    (L0.lab c.1 c.2 = 0 ∧ st.1.lab c.1 c.2 = lbl ∧ a.pix c.1 c.2 ≠ 0 ∧
      Connected a conn s c)
  hq : ∀ c ∈ st.2, st.1.lab c.1 c.2 = lbl
  hclosed : ∀ c : Nat × Nat, st.1.lab c.1 c.2 = lbl → c ∉ st.2 →
    ∀ n ∈ get_neighbors c.1 c.2 a.width a.height conn,
      a.pix n.1 n.2 ≠ 0 → st.1.lab n.1 n.2 ≠ 0
  hs : st.1.lab s.1 s.2 = lbl

/-- One cell of the raster scan of `Prim.label` (`algorithms/prim.py`
lines 84-94), as a named value: an unlabelled foreground pixel starts a
fresh label and a BFS. -/
def Prim.scanStep (a : Image) (connectivity : Int) (st : LabelImage × Nat)
    (c : Nat × Nat) : LabelImage × Nat :=
  if a.pix c.1 c.2 ≠ 0 ∧ st.1.lab c.1 c.2 = 0 then
    (Prim.bfs a st.1 c.1 c.2 ((st.2 + 1 : Nat) : Int) connectivity, st.2 + 1)
  else st

/-- Invariant of the raster scan of `Prim.label` after the cells in `done`
have been visited: background is `0`, labels lie in `{1, ..., next}`, the
labelled region is closed under adjacency, every used label paints a single
connected component (witnessed by a representative), and every visited
foreground cell is already labelled. -/
structure PrimInv (a : Image) (conn : Int) (done : List (Nat × Nat))
    (st : LabelImage × Nat) : Prop where
  hh : st.1.height = a.height
  hw : st.1.width = a.width
  hbg : ∀ i j, a.pix i j = 0 → st.1.lab i j = 0
  hrange : ∀ i j, st.1.lab i j ≠ 0 →
    ∃ v : Nat, 1 ≤ v ∧ v ≤ st.2 ∧ st.1.lab i j = (v : Int)
  hclosed : ∀ c d : Nat × Nat, st.1.lab c.1 c.2 ≠ 0 → Adjacent a conn c d →
    st.1.lab d.1 d.2 = st.1.lab c.1 c.2
  hrep : ∀ v : Nat, 1 ≤ v → v ≤ st.2 → ∃ s : Nat × Nat, a.pix s.1 s.2 ≠ 0 ∧
    st.1.lab s.1 s.2 = (v : Int) ∧
    ∀ c : Nat × Nat, st.1.lab c.1 c.2 = (v : Int) → Connected a conn s c
  hdone : ∀ c ∈ done, a.pix c.1 c.2 ≠ 0 → st.1.lab c.1 c.2 ≠ 0


/-- Adjacency restricted to the already-scanned cells: both cells lie in
`done`, both are foreground, and one is a previous (causal) neighbour of
the other. -/
def prevAdj (a : Image) (connectivity : Int) (done : List (Nat × Nat))
    (c d : Nat × Nat) : Prop :=
  c ∈ done ∧ d ∈ done ∧ a.pix c.1 c.2 ≠ 0 ∧ a.pix d.1 d.2 ≠ 0 ∧
    (d ∈ TwoPass.get_previous_neighbors c.1 c.2 a.width a.height connectivity ∨
     c ∈ TwoPass.get_previous_neighbors d.1 d.2 a.width a.height connectivity)

/-- Connectivity through already-scanned cells (reflexive-transitive
closure of `prevAdj`). -/
def prevConn (a : Image) (connectivity : Int) (done : List (Nat × Nat)) :
    (Nat × Nat) → (Nat × Nat) → Prop :=
  Relation.ReflTransGen (prevAdj a connectivity done)

/-- Invariant of the first pass of `TwoPass.label` after the cells in
`done` have been scanned: the table is well formed, background cells are
`0`, scanned foreground cells carry a positive allocated provisional
label, unscanned cells are `0`, and two scanned foreground cells have
table-equivalent labels exactly when they are connected through scanned
cells. -/
structure TPInv (a : Image) (connectivity : Int) (done : List (Nat × Nat))
    (st : LabelImage × EquivalenceTable) : Prop where
  ht : TableInv st.2
  hh : st.1.height = a.height
  hw : st.1.width = a.width
  hbg : ∀ c ∈ done, a.pix c.1 c.2 = 0 → st.1.lab c.1 c.2 = 0
  hfg : ∀ c ∈ done, a.pix c.1 c.2 ≠ 0 →
    ∃ v : Nat, 1 ≤ v ∧ v < st.2.size ∧ st.1.lab c.1 c.2 = (v : Int)
  hun : ∀ i j, (i, j) ∉ done → st.1.lab i j = 0
  hcls : ∀ c ∈ done, ∀ d ∈ done, a.pix c.1 c.2 ≠ 0 → a.pix d.1 d.2 ≠ 0 →
    ∀ vc vd : Nat, st.1.lab c.1 c.2 = (vc : Int) →
      st.1.lab d.1 d.2 = (vd : Int) →
      (rootEq st.2.parent vc vd ↔ prevConn a connectivity done c d)

/-! ### General lemmas -/

theorem mem_coords {h w : Nat} {c : Nat × Nat} :
    c ∈ coords h w ↔ c.1 < h ∧ c.2 < w := by
  cases c with
  | mk x y =>
    simp only [coords, List.mem_flatMap, List.mem_map, List.mem_range]
    constructor
    · rintro ⟨a, ha, b, hb, hab⟩
      cases hab
      exact ⟨ha, hb⟩
    · rintro ⟨hx, hy⟩
      exact ⟨x, hx, y, hy, rfl⟩

theorem coords_nodup (h w : Nat) : (coords h w).Nodup := by
  unfold coords
  refine List.nodup_flatMap.2 ⟨?_, ?_⟩
  · intro x _
    exact (List.nodup_range _).map (fun a b hab => by cases hab; rfl)
  · refine List.Pairwise.imp ?_ (List.nodup_range _)
    intro a b hab
    simp only [Function.onFun, List.Disjoint, List.mem_map, List.mem_range]
    rintro c ⟨y, _, rfl⟩ ⟨y', _, h2⟩
    exact hab (by cases h2; rfl)

@[simp] theorem LabelImage.setL_lab_same (L : LabelImage) (x y : Nat) (v : Int) :
    (L.setL x y v).lab x y = v := by
  simp [LabelImage.setL]

theorem LabelImage.setL_lab_other (L : LabelImage) {x y i j : Nat} (v : Int)
    (h : ¬ (i = x ∧ j = y)) : (L.setL x y v).lab i j = L.lab i j := by
  simp [LabelImage.setL, h]

@[simp] theorem LabelImage.setL_height (L : LabelImage) (x y : Nat) (v : Int) :
    (L.setL x y v).height = L.height := rfl

@[simp] theorem LabelImage.setL_width (L : LabelImage) (x y : Nat) (v : Int) :
    (L.setL x y v).width = L.width := rfl

/-- Setting a single cell (present once in a duplicate-free list) from `0`
to a non-zero label removes exactly one element from the zero-label filter. -/
theorem filter_setL_zero {L : LabelImage} {lbl : Int} (hl : lbl ≠ 0) (n : Nat × Nat)
    (h0 : L.lab n.1 n.2 = 0) :
    ∀ l : List (Nat × Nat), l.Nodup → n ∈ l →
      ((l.filter (fun c => (L.setL n.1 n.2 lbl).lab c.1 c.2 = 0)).length) + 1 =
      ((l.filter (fun c => L.lab c.1 c.2 = 0)).length) := by
  intro l
  induction l with
  | nil => intro _ h; cases h
  | cons d l ih =>
    intro hnd hmem
    have hnd' : l.Nodup := (List.nodup_cons.mp hnd).2
    rcases List.mem_cons.mp hmem with hdn | hmem'
    · subst hdn
      have hdn : n ∉ l := (List.nodup_cons.mp hnd).1
      have h2 : ¬ ((L.setL n.1 n.2 lbl).lab n.1 n.2 = 0) := by
        rw [LabelImage.setL_lab_same]; exact hl
      have hfc : l.filter (fun c => (L.setL n.1 n.2 lbl).lab c.1 c.2 = 0) =
          l.filter (fun c => L.lab c.1 c.2 = 0) := by
        apply List.filter_congr
        intro c hcl
        have hne : ¬ (c.1 = n.1 ∧ c.2 = n.2) := by
          rintro ⟨e1, e2⟩
          exact hdn ((Prod.ext e1 e2 : c = n) ▸ hcl)
        rw [decide_eq_decide, LabelImage.setL_lab_other _ _ hne]
      rw [List.filter_cons, List.filter_cons, hfc]
      simp [h2, h0, hl]
    · have hdn2 : ¬ (d.1 = n.1 ∧ d.2 = n.2) := by
        rintro ⟨e1, e2⟩
        have hdn : d = n := Prod.ext e1 e2
        subst hdn
        exact (List.nodup_cons.mp hnd).1 hmem'
      rw [List.filter_cons, List.filter_cons,
        LabelImage.setL_lab_other _ _ hdn2]
      by_cases hd0 : L.lab d.1 d.2 = 0
      · simp only [hd0, decide_true_eq_true]
        have := ih hnd' hmem'
        simp only [decide_eq_true_eq] at *
        simp [hd0]
        omega
      · have := ih hnd' hmem'
        simp [hd0]
        omega

theorem bfsVisit_measure (a : Image) {lbl : Int} (hl : lbl ≠ 0)
    (st : LabelImage × List (Nat × Nat)) (n : Nat × Nat) :
    countZeroA a (Prim.bfsVisit a lbl st n).1 + (Prim.bfsVisit a lbl st n).2.length
      ≤ countZeroA a st.1 + st.2.length := by
  by_cases hc : a.pix n.1 n.2 ≠ 0 ∧ st.1.lab n.1 n.2 = 0
  · have hin : n ∈ coords a.height a.width := by
      rw [mem_coords]
      by_contra hn
      push_neg at hn
      rcases Nat.lt_or_ge n.1 a.height with h1 | h1
      · exact hc.1 (a.pix_oob n.1 n.2 (Or.inr (hn h1)))
      · exact hc.1 (a.pix_oob n.1 n.2 (Or.inl h1))
    have hkey := filter_setL_zero hl n hc.2 (coords a.height a.width)
      (coords_nodup _ _) hin
    simp only [Prim.bfsVisit, if_pos hc, List.length_append, List.length_cons,
      List.length_nil]
    unfold countZeroA
    omega
  · simp only [Prim.bfsVisit, if_neg hc]
    omega

theorem foldl_bfsVisit_measure (a : Image) {lbl : Int} (hl : lbl ≠ 0) :
    ∀ (ns : List (Nat × Nat)) (st : LabelImage × List (Nat × Nat)),
      countZeroA a (ns.foldl (Prim.bfsVisit a lbl) st).1 +
        (ns.foldl (Prim.bfsVisit a lbl) st).2.length
      ≤ countZeroA a st.1 + st.2.length := by
  intro ns
  induction ns with
  | nil => intro st; simp
  | cons n ns ih =>
    intro st
    calc countZeroA a ((n :: ns).foldl (Prim.bfsVisit a lbl) st).1 +
          ((n :: ns).foldl (Prim.bfsVisit a lbl) st).2.length
        = countZeroA a (ns.foldl (Prim.bfsVisit a lbl) (Prim.bfsVisit a lbl st n)).1 +
          (ns.foldl (Prim.bfsVisit a lbl) (Prim.bfsVisit a lbl st n)).2.length := by
          rw [List.foldl_cons]
      _ ≤ countZeroA a (Prim.bfsVisit a lbl st n).1 +
          (Prim.bfsVisit a lbl st n).2.length := ih _
      _ ≤ countZeroA a st.1 + st.2.length := bfsVisit_measure a hl st n

/-! ### Parent-array theory -/

theorem pstep_set_self {p : List Nat} {x v : Nat} (hx : x < p.length) :
    pstep (p.set x v) x = v := by
  simp [pstep, List.getD, List.getElem?_set_self', hx]

theorem pstep_set_other {p : List Nat} (x v z : Nat) (hz : z ≠ x) :
    pstep (p.set x v) z = pstep p z := by
  simp [pstep, List.getD, List.getElem?_set_ne (fun h => hz h.symm)]

theorem iterP_add (p : List Nat) (k1 k2 x : Nat) :
    iterP p (k1 + k2) x = iterP p k2 (iterP p k1 x) := by
  induction k1 generalizing x with
  | zero =>
    rw [Nat.zero_add]
    rfl
  | succ k ih =>
    have : k + 1 + k2 = (k + k2) + 1 := by omega
    rw [this]
    show iterP p (k + k2) (pstep p x) = _
    rw [ih (pstep p x)]
    rfl

theorem isRootP_iterP {p : List Nat} {r : Nat} (hr : IsRootP p r) :
    ∀ k, iterP p k r = r := by
  intro k
  induction k with
  | zero => rfl
  | succ k ih =>
    show iterP p k (pstep p r) = r
    rw [hr]
    exact ih

theorem reaches_unique {p : List Nat} {x r r' : Nat}
    (h1 : Reaches p x r) (h2 : Reaches p x r') : r = r' := by
  obtain ⟨k, hk, hr⟩ := h1
  obtain ⟨k', hk', hr'⟩ := h2
  rcases Nat.le_total k k' with h | h
  · have he : iterP p k' x = iterP p (k + (k' - k)) x := by
      congr 1
      omega
    rw [he, iterP_add, hk, isRootP_iterP hr] at hk'
    exact hk'.symm.trans rfl ▸ hk'.symm
  · have he : iterP p k x = iterP p (k' + (k - k')) x := by
      congr 1
      omega
    rw [he, iterP_add, hk', isRootP_iterP hr'] at hk
    exact hk ▸ rfl

theorem reaches_of_pstep {p : List Nat} {x r : Nat}
    (h : Reaches p (pstep p x) r) : Reaches p x r := by
  obtain ⟨k, hk, hr⟩ := h
  exact ⟨k + 1, hk, hr⟩

theorem reaches_pstep_of_reaches {p : List Nat} {x r : Nat}
    (h : Reaches p x r) : Reaches p (pstep p x) r := by
  obtain ⟨k, hk, hr⟩ := h
  cases k with
  | zero =>
    refine ⟨0, ?_, hr⟩
    show pstep p x = r
    cases hk
    exact hr
  | succ k => exact ⟨k, hk, hr⟩

theorem reaches_root_self {p : List Nat} {r : Nat} (hr : IsRootP p r) :
    Reaches p r r := ⟨0, rfl, hr⟩

theorem iterP_lt {p : List Nat} {n : Nat} {m : Nat → Nat} (hp : PInv p n m)
    {x : Nat} (hx : x < n) : ∀ k, iterP p k x < n := by
  intro k
  induction k generalizing x with
  | zero => exact hx
  | succ k ih =>
    show iterP p k (pstep p x) < n
    exact ih ((hp.2 x hx).1)

theorem chain_measure_lt {p : List Nat} {n : Nat} {m : Nat → Nat} (hp : PInv p n m)
    {x : Nat} (hx : x < n) :
    ∀ j, (∀ t, t < j → ¬ IsRootP p (iterP p t x)) →
      ∀ i, i < j → m (iterP p i x) < m (iterP p j x) := by
  intro j
  induction j with
  | zero => intro _ i hi; omega
  | succ j ih =>
    intro hnr i hi
    have hstep : m (iterP p j x) < m (iterP p (j + 1) x) := by
      have hlt : iterP p j x < n := iterP_lt hp hx j
      have hnroot : ¬ IsRootP p (iterP p j x) := hnr j (Nat.lt_succ_self j)
      have : iterP p (j + 1) x = pstep p (iterP p j x) := by
        have : j + 1 = j + 1 := rfl
        rw [show j + 1 = j + 1 from rfl, show iterP p (j + 1) x = iterP p 1 (iterP p j x) from by
          rw [← iterP_add]]
        rfl
      rw [this]
      exact ((hp.2 _ hlt).2 (fun h => hnroot h))
    rcases Nat.lt_or_ge i j with hij | hij
    · exact lt_trans (ih (fun t ht => hnr t (Nat.lt_succ_of_lt ht)) i hij) hstep
    · have : i = j := by omega
      rw [this]
      exact hstep

theorem chain_root_within {p : List Nat} {n : Nat} {m : Nat → Nat} (hp : PInv p n m)
    {x : Nat} (hx : x < n) : ∃ k, k < n ∧ IsRootP p (iterP p k x) := by
  by_contra hno
  push_neg at hno
  have hinj : Function.Injective (fun i : Fin (n + 1) => (⟨iterP p i x, iterP_lt hp hx i⟩ : Fin n)) := by
    intro i j hij
    simp only [Fin.mk.injEq] at hij
    by_contra hne
    have hne' : (i : Nat) ≠ (j : Nat) := fun h => hne (Fin.ext h)
    rcases Nat.lt_or_ge (i : Nat) (j : Nat) with h | h
    · have := chain_measure_lt hp hx (j : Nat)
        (fun t ht => hno t (lt_of_lt_of_le ht (Nat.lt_succ_iff.mp j.isLt))) i h
      rw [hij] at this
      exact lt_irrefl _ this
    · have hlt : (j : Nat) < (i : Nat) := by omega
      have := chain_measure_lt hp hx (i : Nat)
        (fun t ht => hno t (lt_of_lt_of_le ht (Nat.lt_succ_iff.mp i.isLt))) j hlt
      rw [hij] at this
      exact lt_irrefl _ this
  have := Fintype.card_le_of_injective _ hinj
  simp [Fintype.card_fin] at this

theorem reaches_total {p : List Nat} {n : Nat} {m : Nat → Nat} (hp : PInv p n m)
    {x : Nat} (hx : x < n) : ∃ r, Reaches p x r ∧ r < n := by
  obtain ⟨k, _, hroot⟩ := chain_root_within hp hx
  exact ⟨iterP p k x, ⟨k, rfl, hroot⟩, iterP_lt hp hx k⟩

theorem root_lt {p : List Nat} {n : Nat} {m : Nat → Nat} (hp : PInv p n m)
    {x r : Nat} (hx : x < n) (h : Reaches p x r) : r < n := by
  obtain ⟨k, hk, _⟩ := h
  rw [← hk]
  exact iterP_lt hp hx k

theorem measure_lt_of_reaches {p : List Nat} {n : Nat} {m : Nat → Nat}
    (hp : PInv p n m) :
    ∀ (k : Nat) (x : Nat), x < n → iterP p k x = r → IsRootP p r → x ≠ r →
      m x < m r := by
  intro k
  induction k with
  | zero =>
    intro x _ hk _ hne
    exact absurd hk hne
  | succ k ih =>
    intro x hx hk hr hne
    by_cases hroot : IsRootP p x
    · rw [isRootP_iterP hroot] at hk
      exact absurd hk hne
    · have hz : pstep p x < n := (hp.2 x hx).1
      have hm : m x < m (pstep p x) := (hp.2 x hx).2 (fun h => hroot h)
      have hk' : iterP p k (pstep p x) = r := hk
      by_cases hzr : pstep p x = r
      · rw [hzr] at hm
        exact hm
      · exact lt_trans hm (ih (pstep p x) hz hk' hr hzr)

theorem reaches_set_iff {p : List Nat} {x r : Nat} (hx : x < p.length)
    (hr : Reaches p x r) :
    ∀ y s, Reaches p y s ↔ Reaches (p.set x r) y s := by
  have hrootp : IsRootP p r := hr.choose_spec.2
  have hroot' : IsRootP (p.set x r) r := by
    by_cases hrx : r = x
    · show pstep (p.set x r) r = r
      rw [hrx, pstep_set_self hx]
    · show pstep (p.set x r) r = r
      rw [pstep_set_other x r r hrx]
      exact hrootp
  have fwd : ∀ k y s, iterP p k y = s → IsRootP p s → Reaches (p.set x r) y s := by
    intro k
    induction k with
    | zero =>
      intro y s hk hs
      have hys : y = s := hk
      subst hys
      by_cases hyx : y = x
      · subst hyx
        have hry : r = y := reaches_unique hr (reaches_root_self hs)
        refine reaches_root_self ?_
        show pstep (p.set y r) y = y
        rw [pstep_set_self hx]
        exact hry
      · refine reaches_root_self ?_
        show pstep (p.set x r) y = y
        rw [pstep_set_other x r y hyx]
        exact hs
    | succ k ih =>
      intro y s hk hs
      by_cases hyx : y = x
      · subst hyx
        have h1 : Reaches p y s := ⟨k + 1, hk, hs⟩
        have h2 : s = r := reaches_unique h1 hr
        subst h2
        refine ⟨1, ?_, hroot'⟩
        show pstep (p.set y s) y = s
        exact pstep_set_self hx
      · have hk' : iterP p k (pstep p y) = s := hk
        have := ih (pstep p y) s hk' hs
        refine reaches_of_pstep ?_
        rw [pstep_set_other x r y hyx]
        exact this
  have bwd : ∀ k y s, iterP (p.set x r) k y = s → IsRootP (p.set x r) s →
      Reaches p y s := by
    intro k
    induction k with
    | zero =>
      intro y s hk hs
      have hys : y = s := hk
      subst hys
      by_cases hyx : y = x
      · subst hyx
        have hpy : pstep (p.set y r) y = r := pstep_set_self hx
        have hry : r = y := by
          have := hs
          rw [IsRootP, hpy] at this
          exact this
        exact hry ▸ hr
      · refine reaches_root_self ?_
        show pstep p y = y
        have := hs
        rw [IsRootP, pstep_set_other x r y hyx] at this
        exact this
    | succ k ih =>
      intro y s hk hs
      by_cases hyx : y = x
      · subst hyx
        have hps : pstep (p.set y r) y = r := pstep_set_self hx
        have hk' : iterP (p.set y r) k (pstep (p.set y r) y) = s := hk
        rw [hps, isRootP_iterP hroot'] at hk'
        subst hk'
        exact hr
      · have hk' : iterP (p.set x r) k (pstep (p.set x r) y) = s := hk
        rw [pstep_set_other x r y hyx] at hk'
        exact reaches_of_pstep (ih (pstep p y) s hk' hs)
  intro y s
  constructor
  · rintro ⟨k, hk, hs⟩
    exact fwd k y s hk hs
  · rintro ⟨k, hk, hs⟩
    exact bwd k y s hk hs

theorem PInv_set_root {p : List Nat} {n : Nat} {m : Nat → Nat} (hp : PInv p n m)
    {x r : Nat} (hx : x < n) (hr : Reaches p x r) : PInv (p.set x r) n m := by
  obtain ⟨k, hk, hroot⟩ := hr
  refine ⟨by rw [List.length_set]; exact hp.1, ?_⟩
  intro i hi
  by_cases hix : i = x
  · subst hix
    have hxlen : i < p.length := by rw [hp.1]; exact hx
    rw [pstep_set_self hxlen]
    refine ⟨root_lt hp hx ⟨k, hk, hroot⟩, ?_⟩
    intro hne
    exact measure_lt_of_reaches hp k i hx hk hroot (fun h => hne h.symm)
  · rw [pstep_set_other x r i hix]
    exact hp.2 i hi

theorem reaches_link {p : List Nat} {ra rb : Nat} (hra : IsRootP p ra)
    (hrb : IsRootP p rb) (hab : ra ≠ rb) (hb : rb < p.length) :
    ∀ y s, Reaches p y s → Reaches (p.set rb ra) y (if s = rb then ra else s) := by
  have hra' : IsRootP (p.set rb ra) ra := by
    show pstep (p.set rb ra) ra = ra
    rw [pstep_set_other rb ra ra hab]
    exact hra
  have hreach_b : Reaches (p.set rb ra) rb ra := by
    refine ⟨1, ?_, hra'⟩
    show pstep (p.set rb ra) rb = ra
    exact pstep_set_self hb
  have aux : ∀ k y s, iterP p k y = s → IsRootP p s →
      Reaches (p.set rb ra) y (if s = rb then ra else s) := by
    intro k
    induction k with
    | zero =>
      intro y s hk hs
      have hys : y = s := hk
      subst hys
      by_cases hyb : y = rb
      · subst hyb
        rw [if_pos rfl]
        exact hreach_b
      · rw [if_neg hyb]
        refine reaches_root_self ?_
        show pstep (p.set rb ra) y = y
        rw [pstep_set_other rb ra y hyb]
        exact hs
    | succ k ih =>
      intro y s hk hs
      by_cases hyb : y = rb
      · subst hyb
        have hk' : iterP p k (pstep p y) = s := hk
        rw [hrb, isRootP_iterP hrb] at hk'
        subst hk'
        rw [if_pos rfl]
        exact hreach_b
      · have hk' : iterP p k (pstep p y) = s := hk
        have := ih (pstep p y) s hk' hs
        refine reaches_of_pstep ?_
        rw [pstep_set_other rb ra y hyb]
        exact this
  rintro y s ⟨k, hk, hs⟩
  exact aux k y s hk hs

theorem PInv_link {p : List Nat} {n : Nat} {m : Nat → Nat} (hp : PInv p n m)
    {ra rb : Nat} (hra : ra < n) (hrb : rb < n) (hm : m rb < m ra) :
    PInv (p.set rb ra) n m := by
  refine ⟨by rw [List.length_set]; exact hp.1, ?_⟩
  intro i hi
  by_cases hib : i = rb
  · subst hib
    have hblen : i < p.length := by rw [hp.1]; exact hrb
    rw [pstep_set_self hblen]
    exact ⟨hra, fun _ => hm⟩
  · rw [pstep_set_other rb ra i hib]
    exact hp.2 i hi

theorem rootEq_symm {p : List Nat} {x y : Nat} (h : rootEq p x y) : rootEq p y x := by
  obtain ⟨r, h1, h2⟩ := h
  exact ⟨r, h2, h1⟩

theorem rootEq_trans {p : List Nat} {x y z : Nat} (h1 : rootEq p x y)
    (h2 : rootEq p y z) : rootEq p x z := by
  obtain ⟨r, ha, hb⟩ := h1
  obtain ⟨r', hc, hd⟩ := h2
  rw [reaches_unique hb hc] at ha
  exact ⟨r', ha, hd⟩

/-! ### The equivalence generated by a list of pairs -/

theorem pairEquiv_refl {α : Type} (ps : List (α × α)) (x : α) : pairEquiv ps x x :=
  Relation.ReflTransGen.refl

theorem pairEquiv_trans {α : Type} {ps : List (α × α)} {x y z : α}
    (h1 : pairEquiv ps x y) (h2 : pairEquiv ps y z) : pairEquiv ps x z :=
  Relation.ReflTransGen.trans h1 h2

theorem pairEquiv_symm {α : Type} {ps : List (α × α)} {x y : α}
    (h : pairEquiv ps x y) : pairEquiv ps y x :=
  Relation.ReflTransGen.symmetric (fun _ _ hs => hs.elim Or.inr Or.inl) h

theorem pairEquiv_single {α : Type} {ps : List (α × α)} {u v : α}
    (h : (u, v) ∈ ps) : pairEquiv ps u v :=
  Relation.ReflTransGen.single (Or.inl h)

theorem pairEquiv_mono {α : Type} {ps ps' : List (α × α)}
    (hsub : ∀ q ∈ ps, q ∈ ps') {u v : α} (h : pairEquiv ps u v) :
    pairEquiv ps' u v :=
  Relation.ReflTransGen.mono
    (fun a b hab => hab.elim (fun hx => Or.inl (hsub _ hx)) (fun hx => Or.inr (hsub _ hx))) h

theorem pairEquiv_cons_iff {α : Type} (ps : List (α × α)) (u v y z : α) :
    pairEquiv ((u, v) :: ps) y z ↔
      pairEquiv ps y z ∨ (pairEquiv ps y u ∧ pairEquiv ps v z) ∨
        (pairEquiv ps y v ∧ pairEquiv ps u z) := by
  constructor
  · intro h
    induction h with
    | refl => exact Or.inl (pairEquiv_refl ps y)
    | tail hyb hstep ih =>
      rename_i b c
      rcases hstep with h1 | h1
      · rcases List.mem_cons.mp h1 with heq | hmem
        · obtain ⟨hbu, hcv⟩ := Prod.mk.inj heq
          subst hbu
          subst hcv
          rcases ih with h2 | ⟨h2, h3⟩ | ⟨h2, h3⟩
          · exact Or.inr (Or.inl ⟨h2, pairEquiv_refl ps c⟩)
          · exact Or.inr (Or.inl ⟨h2, pairEquiv_refl ps c⟩)
          · exact Or.inl h2
        · rcases ih with h2 | ⟨h2, h3⟩ | ⟨h2, h3⟩
          · exact Or.inl (pairEquiv_trans h2 (pairEquiv_single hmem))
          · exact Or.inr (Or.inl ⟨h2, pairEquiv_trans h3 (pairEquiv_single hmem)⟩)
          · exact Or.inr (Or.inr ⟨h2, pairEquiv_trans h3 (pairEquiv_single hmem)⟩)
      · rcases List.mem_cons.mp h1 with heq | hmem
        · obtain ⟨hcu, hbv⟩ := Prod.mk.inj heq
          subst hcu
          subst hbv
          rcases ih with h2 | ⟨h2, h3⟩ | ⟨h2, h3⟩
          · exact Or.inr (Or.inr ⟨h2, pairEquiv_refl ps c⟩)
          · exact Or.inl h2
          · exact Or.inr (Or.inr ⟨h2, pairEquiv_refl ps c⟩)
        · have hstep' : pairEquiv ps b c :=
            pairEquiv_symm (pairEquiv_single hmem)
          rcases ih with h2 | ⟨h2, h3⟩ | ⟨h2, h3⟩
          · exact Or.inl (pairEquiv_trans h2 hstep')
          · exact Or.inr (Or.inl ⟨h2, pairEquiv_trans h3 hstep'⟩)
          · exact Or.inr (Or.inr ⟨h2, pairEquiv_trans h3 hstep'⟩)
  · intro h
    have hmono : ∀ {a b : α}, pairEquiv ps a b → pairEquiv ((u, v) :: ps) a b :=
      fun hab => pairEquiv_mono (fun q hq => List.mem_cons_of_mem _ hq) hab
    have huv : pairEquiv ((u, v) :: ps) u v :=
      pairEquiv_single (List.mem_cons_self _ _)
    rcases h with h2 | ⟨h2, h3⟩ | ⟨h2, h3⟩
    · exact hmono h2
    · exact pairEquiv_trans (hmono h2) (pairEquiv_trans huv (hmono h3))
    · exact pairEquiv_trans (hmono h2)
        (pairEquiv_trans (pairEquiv_symm huv) (hmono h3))

/-- An element mentioned in no pair is equivalent only to itself. -/
theorem pairEquiv_eq_of_not_mem {α : Type} {ps : List (α × α)} {y z : α}
    (hy : ∀ q ∈ ps, q.1 ≠ y ∧ q.2 ≠ y) (h : pairEquiv ps y z) : z = y := by
  induction h with
  | refl => rfl
  | tail hyb hstep ih =>
    rename_i b c
    subst ih
    rcases hstep with h1 | h1
    · exact absurd rfl (hy _ h1).1
    · exact absurd rfl (hy _ h1).2

/-! ### The equivalence table -/

theorem TableInv_PInv {t : EquivalenceTable} (ht : TableInv t) :
    PInv t.parent t.parent.length (fun i => t.parent.length - i) := by
  refine ⟨rfl, ?_⟩
  intro i hi
  rcases Nat.eq_zero_or_pos i with rfl | hpos
  · rw [ht.2.1]
    exact ⟨lt_of_lt_of_le Nat.zero_lt_one ht.1, fun h => absurd rfl h⟩
  · obtain ⟨h1, h2⟩ := ht.2.2 i hpos hi
    refine ⟨lt_of_le_of_lt h2 hi, fun hne => ?_⟩
    show t.parent.length - i < t.parent.length - pstep t.parent i
    omega

theorem findAux_spec {p : List Nat} (h0 : pstep p 0 = 0)
    (hmono : ∀ i, 1 ≤ i → i < p.length → 1 ≤ pstep p i ∧ pstep p i ≤ i) :
    ∀ x, 1 ≤ x → x < p.length → ∀ fuel, x ≤ fuel →
      ∃ p' r, findAux fuel p x = (p', r) ∧ Reaches p x r ∧ 1 ≤ r ∧ r ≤ x ∧
        p'.length = p.length ∧ pstep p' 0 = 0 ∧
        (∀ i, 1 ≤ i → i < p'.length → 1 ≤ pstep p' i ∧ pstep p' i ≤ i) ∧
        (∀ y s, Reaches p y s ↔ Reaches p' y s) := by
  intro x
  induction x using Nat.strong_induction_on with
  | _ x ih =>
    intro hx1 hxlen fuel hfuel
    cases fuel with
    | zero => omega
    | succ f =>
      rw [findAux]
      rw [if_neg (by omega)]
      by_cases hroot : p.getD x 0 = x
      · rw [if_pos hroot]
        exact ⟨p, x, rfl, ⟨0, rfl, hroot⟩, hx1, le_rfl, rfl, h0, hmono,
          fun y s => Iff.rfl⟩
      · rw [if_neg hroot]
        have hpx1 : 1 ≤ pstep p x := (hmono x hx1 hxlen).1
        have hpxle : pstep p x ≤ x := (hmono x hx1 hxlen).2
        have hpxlt : pstep p x < x := lt_of_le_of_ne hpxle hroot
        have hpxlen : pstep p x < p.length := lt_trans hpxlt hxlen
        obtain ⟨p₁, r, heq, hreach, hr1, hrx, hlen1, h01, hmono1, hiff⟩ :=
          ih (pstep p x) hpxlt hpx1 hpxlen f (by omega)
        refine ⟨p₁.set x r, r, ?_, ?_, hr1, le_trans hrx (le_of_lt hpxlt), ?_, ?_, ?_, ?_⟩
        · show (let q := findAux f p (p.getD x 0); (q.1.set x q.2, q.2)) = (p₁.set x r, r)
          rw [show p.getD x 0 = pstep p x from rfl, heq]
        · exact reaches_of_pstep hreach
        · rw [List.length_set]
          exact hlen1
        · rw [pstep_set_other x r 0 (by omega)]
          exact h01
        · intro i hi1 hi2
          rw [List.length_set] at hi2
          by_cases hix : i = x
          · subst hix
            rw [pstep_set_self (by rw [hlen1]; exact hxlen)]
            exact ⟨hr1, le_trans hrx (le_of_lt hpxlt)⟩
          · rw [pstep_set_other x r i hix]
            exact hmono1 i hi1 hi2
        · intro y s
          rw [hiff y s]
          exact reaches_set_iff (by rw [hlen1]; exact hxlen)
            ((hiff x r).mp (reaches_of_pstep hreach)) y s

theorem EquivalenceTable.find_spec {t : EquivalenceTable} (ht : TableInv t)
    {x : Nat} (hx1 : 1 ≤ x) (hx2 : x < t.size) :
    ∃ t' r, t.find (x : Int) = (t', r) ∧ Reaches t.parent x r ∧ 1 ≤ r ∧ r ≤ x ∧
      TableInv t' ∧ t'.size = t.size ∧
      (∀ y s, Reaches t.parent y s ↔ Reaches t'.parent y s) := by
  obtain ⟨p', r, heq, hreach, hr1, hrx, hlen, h0', hmono', hiff⟩ :=
    findAux_spec ht.2.1 ht.2.2 x hx1 hx2 t.parent.length (le_of_lt hx2)
  refine ⟨⟨p'⟩, r, ?_, hreach, hr1, hrx, ⟨?_, h0', hmono'⟩, hlen, hiff⟩
  · rw [EquivalenceTable.find, if_neg (by exact_mod_cast Nat.not_succ_le_zero 0 ∘ fun h => absurd h (by omega))]
    · show (let q := findAux t.parent.length t.parent ((x : Int)).toNat;
        ((⟨q.1⟩ : EquivalenceTable), q.2)) = (⟨p'⟩, r)
      rw [Int.toNat_natCast, heq]
  · show 1 ≤ p'.length
    rw [hlen]
    exact ht.1

/-- `unite` on allocated labels: preserves the invariant and the size, and
maps every root as follows: the roots of the two merged classes go to the
smaller of the two, every other root stays. -/
theorem EquivalenceTable.unite_root_map {t : EquivalenceTable} (ht : TableInv t)
    {x y rx ry : Nat} (hx1 : 1 ≤ x) (hx2 : x < t.size) (hy1 : 1 ≤ y) (hy2 : y < t.size)
    (hrx : Reaches t.parent x rx) (hry : Reaches t.parent y ry) :
    TableInv (t.unite (x : Int) (y : Int)) ∧
    (t.unite (x : Int) (y : Int)).size = t.size ∧
    ∀ u su, Reaches t.parent u su →
      Reaches (t.unite (x : Int) (y : Int)).parent u
        (if su = rx ∨ su = ry then min rx ry else su) := by
  obtain ⟨t1, r1, heq1, hreach1, hr11, hr1x, ht1, hsz1, hiff1⟩ :=
    EquivalenceTable.find_spec ht hx1 hx2
  have hr1 : r1 = rx := reaches_unique hreach1 hrx
  subst hr1
  obtain ⟨t2, r2, heq2, hreach2, hr21, hr2y, ht2, hsz2, hiff2⟩ :=
    EquivalenceTable.find_spec ht1 hy1 (by rw [hsz1]; exact hy2)
  have hreach2' : Reaches t.parent y r2 := (hiff1 y r2).mpr hreach2
  have hr2 : r2 = ry := reaches_unique hreach2' hry
  subst hr2
  have hiff12 : ∀ u s, Reaches t.parent u s ↔ Reaches t2.parent u s := by
    intro u s
    rw [hiff1 u s, hiff2 u s]
  have hrootx2 : IsRootP t2.parent r1 := ((hiff12 x r1).mp hrx).choose_spec.2
  have hrooty2 : IsRootP t2.parent r2 := ((hiff12 y r2).mp hry).choose_spec.2
  have hunite : t.unite (x : Int) (y : Int) =
      (if r1 = r2 then t2
       else if r1 < r2 then (⟨t2.parent.set r2 r1⟩ : EquivalenceTable)
       else (⟨t2.parent.set r1 r2⟩ : EquivalenceTable)) := by
    rw [EquivalenceTable.unite]
    show (let q1 := t.find (x : Int); let q2 := q1.1.find (y : Int); _) = _
    rw [heq1]
    show (let q2 := t1.find (y : Int); _) = _
    rw [heq2]
  by_cases hxy : r1 = r2
  · subst hxy
    rw [hunite, if_pos rfl]
    refine ⟨ht2, hsz2.trans hsz1, ?_⟩
    intro u su hsu
    have hite : (if su = r1 ∨ su = r1 then min r1 r1 else su) = su := by
      by_cases h : su = r1
      · simp [h]
      · simp [h]
    rw [hite]
    exact (hiff12 u su).mp hsu
  · rw [hunite, if_neg hxy]
    have hr1len : r1 < t2.parent.length := by
      show r1 < t2.size
      rw [hsz2, hsz1]
      exact lt_of_le_of_lt hr1x hx2
    have hr2len : r2 < t2.parent.length := by
      show r2 < t2.size
      rw [hsz2, hsz1]
      exact lt_of_le_of_lt hr2y hy2
    rcases Nat.lt_or_ge r1 r2 with hlt | hge
    · rw [if_pos hlt]
      have hlink := reaches_link hrootx2 hrooty2 (fun h => hxy h) hr2len
      refine ⟨⟨?_, ?_, ?_⟩, ?_, ?_⟩
      · show 1 ≤ (t2.parent.set r2 r1).length
        rw [List.length_set]
        exact ht2.1
      · show pstep (t2.parent.set r2 r1) 0 = 0
        rw [pstep_set_other r2 r1 0 (by omega)]
        exact ht2.2.1
      · intro i hi1 hi2
        rw [List.length_set] at hi2
        by_cases hiy : i = r2
        · subst hiy
          rw [pstep_set_self hr2len]
          exact ⟨hr11, le_of_lt hlt⟩
        · rw [pstep_set_other r2 r1 i hiy]
          exact ht2.2.2 i hi1 hi2
      · show (t2.parent.set r2 r1).length = t.size
        rw [List.length_set]
        exact hsz2.trans hsz1
      · intro u su hsu
        have h2 := hlink u su ((hiff12 u su).mp hsu)
        have hmin : min r1 r2 = r1 := Nat.min_eq_left (le_of_lt hlt)
        by_cases h : su = r1 ∨ su = r2
        · rcases h with h | h
          · subst h
            rw [if_pos (Or.inl rfl), hmin]
            rw [if_neg (fun hh => hxy hh)] at h2
            exact h2
          · subst h
            rw [if_pos (Or.inr rfl), hmin]
            rw [if_pos rfl] at h2
            exact h2
        · push_neg at h
          rw [if_neg (by push_neg; exact h)]
          rw [if_neg h.2] at h2
          exact h2
    · have hlt : r2 < r1 := lt_of_le_of_ne hge (fun h => hxy h.symm)
      rw [if_neg (by omega)]
      have hlink := reaches_link hrooty2 hrootx2 (fun h => hxy h.symm) hr1len
      refine ⟨⟨?_, ?_, ?_⟩, ?_, ?_⟩
      · show 1 ≤ (t2.parent.set r1 r2).length
        rw [List.length_set]
        exact ht2.1
      · show pstep (t2.parent.set r1 r2) 0 = 0
        rw [pstep_set_other r1 r2 0 (by omega)]
        exact ht2.2.1
      · intro i hi1 hi2
        rw [List.length_set] at hi2
        by_cases hix : i = r1
        · subst hix
          rw [pstep_set_self hr1len]
          exact ⟨hr21, le_of_lt hlt⟩
        · rw [pstep_set_other r1 r2 i hix]
          exact ht2.2.2 i hi1 hi2
      · show (t2.parent.set r1 r2).length = t.size
        rw [List.length_set]
        exact hsz2.trans hsz1
      · intro u su hsu
        have h2 := hlink u su ((hiff12 u su).mp hsu)
        have hmin : min r1 r2 = r2 := Nat.min_eq_right (le_of_lt hlt)
        by_cases h : su = r1 ∨ su = r2
        · rcases h with h | h
          · subst h
            rw [if_pos (Or.inl rfl), hmin]
            rw [if_pos rfl] at h2
            exact h2
          · subst h
            rw [if_pos (Or.inr rfl), hmin]
            rw [if_neg (fun hh => hxy hh.symm)] at h2
            exact h2
        · push_neg at h
          rw [if_neg (by push_neg; exact h)]
          rw [if_neg h.1] at h2
          exact h2

theorem rootEq_iff_roots {p : List Nat} {u w su sw : Nat}
    (hsu : Reaches p u su) (hsw : Reaches p w sw) :
    rootEq p u w ↔ su = sw := by
  constructor
  · rintro ⟨r, h1, h2⟩
    rw [reaches_unique hsu h1, reaches_unique hsw h2]
  · intro h
    exact ⟨su, hsu, h ▸ hsw⟩

/-- `unite` on allocated labels merges exactly the two classes involved. -/
theorem EquivalenceTable.unite_rootEq_iff {t : EquivalenceTable} (ht : TableInv t)
    {x y : Nat} (hx1 : 1 ≤ x) (hx2 : x < t.size) (hy1 : 1 ≤ y) (hy2 : y < t.size)
    (u w : Nat) (hu : u < t.size) (hw : w < t.size) :
    rootEq (t.unite (x : Int) (y : Int)).parent u w ↔
      (rootEq t.parent u w ∨ (rootEq t.parent u x ∧ rootEq t.parent y w) ∨
       (rootEq t.parent u y ∧ rootEq t.parent x w)) := by
  have hp := TableInv_PInv ht
  obtain ⟨rx, hrx, _⟩ := reaches_total hp (show x < t.parent.length from hx2)
  obtain ⟨ry, hry, _⟩ := reaches_total hp (show y < t.parent.length from hy2)
  obtain ⟨htinv', hsz', hmap⟩ := EquivalenceTable.unite_root_map ht hx1 hx2 hy1 hy2 hrx hry
  obtain ⟨su, hsu, _⟩ := reaches_total hp (show u < t.parent.length from hu)
  obtain ⟨sw, hsw, _⟩ := reaches_total hp (show w < t.parent.length from hw)
  have hmin_mem : min rx ry = rx ∨ min rx ry = ry := by
    rcases le_total rx ry with h | h
    · exact Or.inl (Nat.min_eq_left h)
    · exact Or.inr (Nat.min_eq_right h)
  have hf : ∀ s1 s2 : Nat,
      ((if s1 = rx ∨ s1 = ry then min rx ry else s1) =
       (if s2 = rx ∨ s2 = ry then min rx ry else s2)) ↔
      (s1 = s2 ∨ ((s1 = rx ∨ s1 = ry) ∧ (s2 = rx ∨ s2 = ry))) := by
    intro s1 s2
    by_cases h1 : s1 = rx ∨ s1 = ry <;> by_cases h2 : s2 = rx ∨ s2 = ry
    · rw [if_pos h1, if_pos h2]
      constructor
      · intro _; exact Or.inr ⟨h1, h2⟩
      · intro _; rfl
    · rw [if_pos h1, if_neg h2]
      constructor
      · intro hmin
        exfalso
        rcases hmin_mem with hm | hm
        · rw [hm] at hmin; exact h2 (Or.inl hmin.symm)
        · rw [hm] at hmin; exact h2 (Or.inr hmin.symm)
      · rintro (rfl | ⟨_, hc⟩)
        · exact absurd h1 h2
        · exact absurd hc h2
    · rw [if_neg h1, if_pos h2]
      constructor
      · intro hmin
        exfalso
        rcases hmin_mem with hm | hm
        · rw [hm] at hmin; exact h1 (Or.inl hmin)
        · rw [hm] at hmin; exact h1 (Or.inr hmin)
      · rintro (rfl | ⟨hc, _⟩)
        · exact absurd h2 h1
        · exact absurd hc h1
    · rw [if_neg h1, if_neg h2]
      constructor
      · exact Or.inl
      · rintro (rfl | ⟨hc, _⟩)
        · rfl
        · exact absurd hc h1
  have hmapu := hmap u su hsu
  have hmapw := hmap w sw hsw
  have lhs_iff : rootEq (t.unite (x : Int) (y : Int)).parent u w ↔
      ((if su = rx ∨ su = ry then min rx ry else su) =
       (if sw = rx ∨ sw = ry then min rx ry else sw)) :=
    rootEq_iff_roots hmapu hmapw
  rw [lhs_iff, hf su sw, rootEq_iff_roots hsu hsw,
    rootEq_iff_roots hsu hrx, rootEq_iff_roots hry hsw,
    rootEq_iff_roots hsu hry, rootEq_iff_roots hrx hsw]
  constructor
  · rintro (h | ⟨h1 | h1, h2 | h2⟩)
    · exact Or.inl h
    · exact Or.inl (h1.trans h2.symm)
    · exact Or.inr (Or.inl ⟨h1, h2.symm⟩)
    · exact Or.inr (Or.inr ⟨h1, h2.symm⟩)
    · exact Or.inl (h1.trans h2.symm)
  · rintro (h | ⟨h1, h2⟩ | ⟨h1, h2⟩)
    · exact Or.inl h
    · exact Or.inr ⟨Or.inl h1, Or.inr h2.symm⟩
    · exact Or.inr ⟨Or.inr h1, Or.inl h2.symm⟩

theorem pstep_append_lt {p : List Nat} {v i : Nat} (hi : i < p.length) :
    pstep (p ++ [v]) i = pstep p i := by
  unfold pstep
  rw [List.getD, List.getD, List.get?_eq_getElem?, List.get?_eq_getElem?,
    List.getElem?_append_left hi]

theorem pstep_append_self (p : List Nat) (v : Nat) :
    pstep (p ++ [v]) p.length = v := by
  unfold pstep
  rw [List.getD, List.get?_eq_getElem?, List.getElem?_append_right le_rfl]
  simp

theorem reaches_append_iff {p : List Nat} {v : Nat}
    (hinr : ∀ i, i < p.length → pstep p i < p.length) :
    ∀ y s, y < p.length → (Reaches p y s ↔ Reaches (p ++ [v]) y s) := by
  have fwd : ∀ k y s, y < p.length → iterP p k y = s → IsRootP p s →
      Reaches (p ++ [v]) y s := by
    intro k
    induction k with
    | zero =>
      intro y s hy hk hs
      have hys : y = s := hk
      subst hys
      refine reaches_root_self ?_
      show pstep (p ++ [v]) y = y
      rw [pstep_append_lt hy]
      exact hs
    | succ k ih =>
      intro y s hy hk hs
      have hk' : iterP p k (pstep p y) = s := hk
      have := ih (pstep p y) s (hinr y hy) hk' hs
      refine reaches_of_pstep ?_
      rw [pstep_append_lt hy]
      exact this
  have bwd : ∀ k y s, y < p.length → iterP (p ++ [v]) k y = s →
      IsRootP (p ++ [v]) s → Reaches p y s := by
    intro k
    induction k with
    | zero =>
      intro y s hy hk hs
      have hys : y = s := hk
      subst hys
      refine reaches_root_self ?_
      show pstep p y = y
      have := hs
      rw [IsRootP, pstep_append_lt hy] at this
      exact this
    | succ k ih =>
      intro y s hy hk hs
      have hk' : iterP (p ++ [v]) k (pstep (p ++ [v]) y) = s := hk
      rw [pstep_append_lt hy] at hk'
      exact reaches_of_pstep (ih (pstep p y) s (hinr y hy) hk' hs)
  intro y s hy
  constructor
  · rintro ⟨k, hk, hs⟩
    exact fwd k y s hy hk hs
  · rintro ⟨k, hk, hs⟩
    exact bwd k y s hy hk hs

theorem EquivalenceTable.make_set_spec {t : EquivalenceTable} (ht : TableInv t) :
    TableInv t.make_set.1 ∧ t.make_set.1.size = t.size + 1 ∧
    t.make_set.2 = t.size ∧ 1 ≤ t.make_set.2 ∧
    (∀ y s, y < t.size → (Reaches t.parent y s ↔ Reaches t.make_set.1.parent y s)) ∧
    IsRootP t.make_set.1.parent t.size ∧
    (∀ y s, y < t.size → Reaches t.parent y s → s < t.size) := by
  have hinr : ∀ i, i < t.parent.length → pstep t.parent i < t.parent.length := by
    intro i hi
    rcases Nat.eq_zero_or_pos i with rfl | hpos
    · rw [ht.2.1]
      exact lt_of_lt_of_le Nat.zero_lt_one ht.1
    · exact lt_of_le_of_lt (ht.2.2 i hpos hi).2 hi
  have hnew_root : IsRootP (t.parent ++ [t.parent.length]) t.parent.length := by
    show pstep (t.parent ++ [t.parent.length]) t.parent.length = t.parent.length
    exact pstep_append_self t.parent t.parent.length
  refine ⟨⟨?_, ?_, ?_⟩, ?_, rfl, ht.1, ?_, hnew_root, ?_⟩
  · show 1 ≤ (t.parent ++ [t.parent.length]).length
    rw [List.length_append, List.length_cons, List.length_nil]
    omega
  · show pstep (t.parent ++ [t.parent.length]) 0 = 0
    rw [pstep_append_lt (lt_of_lt_of_le Nat.zero_lt_one ht.1)]
    exact ht.2.1
  · intro i hi1 hi2
    show 1 ≤ pstep (t.parent ++ [t.parent.length]) i ∧
      pstep (t.parent ++ [t.parent.length]) i ≤ i
    have hi2' : i < (t.parent ++ [t.parent.length]).length := hi2
    rw [List.length_append, List.length_cons, List.length_nil] at hi2'
    have hi2 := hi2'
    by_cases hilen : i < t.parent.length
    · rw [pstep_append_lt hilen]
      exact ht.2.2 i hi1 hilen
    · have : i = t.parent.length := by omega
      subst this
      rw [pstep_append_self]
      exact ⟨ht.1, le_rfl⟩
  · show (t.parent ++ [t.parent.length]).length = t.parent.length + 1
    rw [List.length_append]
    rfl
  · intro y s hy
    exact reaches_append_iff hinr y s hy
  · intro y s hy hr
    exact root_lt (TableInv_PInv ht) hy hr

theorem pairEquiv_of_mem_iff {α : Type} {ps1 ps2 : List (α × α)}
    (h : ∀ q, q ∈ ps1 ↔ q ∈ ps2) {u v : α} :
    pairEquiv ps1 u v ↔ pairEquiv ps2 u v :=
  ⟨pairEquiv_mono (fun q hq => (h q).mp hq), pairEquiv_mono (fun q hq => (h q).mpr hq)⟩

theorem rootEq_congr {p p' : List Nat}
    (h : ∀ y s, Reaches p y s ↔ Reaches p' y s) (u w : Nat) :
    rootEq p u w ↔ rootEq p' u w := by
  constructor
  · rintro ⟨r, h1, h2⟩
    exact ⟨r, (h u r).mp h1, (h w r).mp h2⟩
  · rintro ⟨r, h1, h2⟩
    exact ⟨r, (h u r).mpr h1, (h w r).mpr h2⟩

/-- The master invariant induction for `EquivalenceTable`: starting from a
table whose same-tree relation matches the equivalence generated by the
accumulated pairs and whose roots are class minima, any well-formed
sequence of calls preserves all of it. -/
theorem applyOps_inv :
    ∀ (ops : List TableOp) (t : EquivalenceTable) (ps : List (Nat × Nat)),
      TableInv t →
      WellFormedOps t.size ops →
      (∀ q, q ∈ ps → 1 ≤ q.1 ∧ q.1 < t.size ∧ 1 ≤ q.2 ∧ q.2 < t.size) →
      (∀ u w, 1 ≤ u → u < t.size → 1 ≤ w → w < t.size →
        (rootEq t.parent u w ↔ pairEquiv ps u w)) →
      (∀ u r, 1 ≤ u → u < t.size → Reaches t.parent u r →
        (pairEquiv ps u r ∧ ∀ m, pairEquiv ps u m → r ≤ m)) →
      TableInv (ops.foldl applyOp t) ∧
      t.size ≤ (ops.foldl applyOp t).size ∧
      (∀ u w, 1 ≤ u → u < (ops.foldl applyOp t).size → 1 ≤ w →
          w < (ops.foldl applyOp t).size →
        (rootEq (ops.foldl applyOp t).parent u w ↔ pairEquiv (ps ++ opsPairs ops) u w)) ∧
      (∀ u r, 1 ≤ u → u < (ops.foldl applyOp t).size →
          Reaches (ops.foldl applyOp t).parent u r →
        (pairEquiv (ps ++ opsPairs ops) u r ∧
         ∀ m, pairEquiv (ps ++ opsPairs ops) u m → r ≤ m)) := by
  intro ops
  induction ops with
  | nil =>
    intro t ps ht hwf hps hclass hmin
    simp only [List.foldl_nil, opsPairs, List.append_nil]
    exact ⟨ht, le_rfl, hclass, hmin⟩
  | cons op rest ih =>
    intro t ps ht hwf hps hclass hmin
    cases op with
    | makeSet =>
      obtain ⟨ht', hsz', hlbl, hlbl1, hpres, hnewroot, hroots⟩ :=
        EquivalenceTable.make_set_spec ht
      set t' := t.make_set.1 with htd
      set n := t.size with hndef
      have hwf' : WellFormedOps t'.size rest := by
        rw [hsz']
        exact hwf
      have hps' : ∀ q, q ∈ ps → 1 ≤ q.1 ∧ q.1 < t'.size ∧ 1 ≤ q.2 ∧ q.2 < t'.size := by
        intro q hq
        obtain ⟨h1, h2, h3, h4⟩ := hps q hq
        rw [hsz']
        exact ⟨h1, by omega, h3, by omega⟩
      have hfresh : ∀ q, q ∈ ps → q.1 ≠ n ∧ q.2 ≠ n := by
        intro q hq
        obtain ⟨_, h2, _, h4⟩ := hps q hq
        exact ⟨by omega, by omega⟩
      have hclass' : ∀ u w, 1 ≤ u → u < t'.size → 1 ≤ w → w < t'.size →
          (rootEq t'.parent u w ↔ pairEquiv ps u w) := by
        intro u w hu1 hu2 hw1 hw2
        rw [hsz'] at hu2 hw2
        by_cases hun : u < n <;> by_cases hwn : w < n
        · constructor
          · rintro ⟨r, h1, h2⟩
            exact (hclass u w hu1 hun hw1 hwn).mp
              ⟨r, (hpres u r hun).mpr h1, (hpres w r hwn).mpr h2⟩
          · intro hpe
            obtain ⟨r, h1, h2⟩ := (hclass u w hu1 hun hw1 hwn).mpr hpe
            exact ⟨r, (hpres u r hun).mp h1, (hpres w r hwn).mp h2⟩
        · have hweq : w = n := by omega
          constructor
          · rintro ⟨r, hur, hwr⟩
            rw [hweq] at hwr
            have hrn : r = n := reaches_unique hwr (reaches_root_self hnewroot)
            rw [hrn] at hur
            have hur' : Reaches t.parent u n := (hpres u n hun).mpr hur
            have := hroots u n hun hur'
            omega
          · intro hpe
            rw [hweq] at hpe
            have := pairEquiv_eq_of_not_mem (fun q hq => hfresh q hq) (pairEquiv_symm hpe)
            omega
        · have hueq : u = n := by omega
          constructor
          · rintro ⟨r, hur, hwr⟩
            rw [hueq] at hur
            have hrn : r = n := reaches_unique hur (reaches_root_self hnewroot)
            rw [hrn] at hwr
            have hwr' : Reaches t.parent w n := (hpres w n hwn).mpr hwr
            have := hroots w n hwn hwr'
            omega
          · intro hpe
            rw [hueq] at hpe
            have := pairEquiv_eq_of_not_mem (fun q hq => hfresh q hq) hpe
            omega
        · have hueq : u = n := by omega
          have hweq : w = n := by omega
          constructor
          · intro _
            rw [hueq, hweq]
            exact pairEquiv_refl ps n
          · intro _
            rw [hueq, hweq]
            exact ⟨n, reaches_root_self hnewroot, reaches_root_self hnewroot⟩
      have hmin' : ∀ u r, 1 ≤ u → u < t'.size → Reaches t'.parent u r →
          (pairEquiv ps u r ∧ ∀ m, pairEquiv ps u m → r ≤ m) := by
        intro u r hu1 hu2 hur
        rw [hsz'] at hu2
        by_cases hun : u < n
        · exact hmin u r hu1 hun ((hpres u r hun).mpr hur)
        · have hueq : u = n := by omega
          rw [hueq] at hur
          have hrn : r = n := reaches_unique hur (reaches_root_self hnewroot)
          rw [hueq, hrn]
          refine ⟨pairEquiv_refl ps n, ?_⟩
          intro mm hm
          have := pairEquiv_eq_of_not_mem (fun q hq => hfresh q hq) hm
          omega
      obtain ⟨hA, hB, hC, hD⟩ := ih t' ps ht' hwf' hps' hclass' hmin'
      refine ⟨hA, ?_, ?_, ?_⟩
      · show t.size ≤ (rest.foldl applyOp t').size
        rw [hsz'] at hB
        omega
      · intro u w hu1 hu2 hw1 hw2
        show rootEq (rest.foldl applyOp t').parent u w ↔
          pairEquiv (ps ++ opsPairs (TableOp.makeSet :: rest)) u w
        rw [show opsPairs (TableOp.makeSet :: rest) = opsPairs rest from rfl]
        exact hC u w hu1 hu2 hw1 hw2
      · intro u r hu1 hu2 hur
        rw [show opsPairs (TableOp.makeSet :: rest) = opsPairs rest from rfl]
        exact hD u r hu1 hu2 hur
    | unite ix iy =>
      obtain ⟨⟨hx1, hx2⟩, ⟨hy1, hy2⟩, hwfr⟩ := hwf
      set x := ix.toNat with hxdef
      set y := iy.toNat with hydef
      have hix : (x : Int) = ix := Int.toNat_of_nonneg (by omega)
      have hiy : (y : Int) = iy := Int.toNat_of_nonneg (by omega)
      have hx1' : 1 ≤ x := by omega
      have hx2' : x < t.size := by omega
      have hy1' : 1 ≤ y := by omega
      have hy2' : y < t.size := by omega
      have hp := TableInv_PInv ht
      obtain ⟨rx, hrx, _⟩ := reaches_total hp (show x < t.parent.length from hx2')
      obtain ⟨ry, hry, _⟩ := reaches_total hp (show y < t.parent.length from hy2')
      obtain ⟨ht', hsz', hmap⟩ :=
        EquivalenceTable.unite_root_map ht hx1' hx2' hy1' hy2' hrx hry
      have happly : applyOp t (TableOp.unite ix iy) = t.unite (x : Int) (y : Int) := by
        show t.unite ix iy = t.unite (x : Int) (y : Int)
        rw [hix, hiy]
      set t' := t.unite (x : Int) (y : Int) with htd
      set ps' := ps ++ [(x, y)] with hpsd
      have hmem : ∀ q, q ∈ ps' ↔ q ∈ ((x, y) :: ps) := by
        intro q
        rw [hpsd]
        simp only [List.mem_append, List.mem_cons, List.mem_singleton]
        tauto
      have hcons : ∀ u w, pairEquiv ps' u w ↔
          (pairEquiv ps u w ∨ (pairEquiv ps u x ∧ pairEquiv ps y w) ∨
           (pairEquiv ps u y ∧ pairEquiv ps x w)) := by
        intro u w
        rw [pairEquiv_of_mem_iff hmem]
        exact pairEquiv_cons_iff ps x y u w
      have hclassxy := hclass
      have hps' : ∀ q, q ∈ ps' → 1 ≤ q.1 ∧ q.1 < t'.size ∧ 1 ≤ q.2 ∧ q.2 < t'.size := by
        intro q hq
        rw [hsz']
        rcases List.mem_cons.mp ((hmem q).mp hq) with h | h
        · subst h
          exact ⟨hx1', hx2', hy1', hy2'⟩
        · obtain ⟨h1, h2, h3, h4⟩ := hps q h
          exact ⟨h1, by omega, h3, by omega⟩
      have hclass' : ∀ u w, 1 ≤ u → u < t'.size → 1 ≤ w → w < t'.size →
          (rootEq t'.parent u w ↔ pairEquiv ps' u w) := by
        intro u w hu1 hu2 hw1 hw2
        rw [hsz'] at hu2 hw2
        rw [EquivalenceTable.unite_rootEq_iff ht hx1' hx2' hy1' hy2' u w hu2 hw2,
          hcons u w, hclass u w hu1 hu2 hw1 hw2,
          hclass u x hu1 hu2 hx1' hx2', hclass y w hy1' hy2' hw1 hw2,
          hclass u y hu1 hu2 hy1' hy2', hclass x w hx1' hx2' hw1 hw2]
      have hxmin := hmin x rx hx1' hx2' hrx
      have hymin := hmin y ry hy1' hy2' hry
      have hmin' : ∀ u r, 1 ≤ u → u < t'.size → Reaches t'.parent u r →
          (pairEquiv ps' u r ∧ ∀ m, pairEquiv ps' u m → r ≤ m) := by
        intro u r hu1 hu2 hur
        rw [hsz'] at hu2
        obtain ⟨su, hsu, _⟩ := reaches_total hp (show u < t.parent.length from hu2)
        have humin := hmin u su hu1 hu2 hsu
        have hmapu := hmap u su hsu
        have hreq : r = if su = rx ∨ su = ry then min rx ry else su :=
          reaches_unique hur hmapu
        have hclsux : pairEquiv ps u x ↔ su = rx := by
          rw [← hclass u x hu1 hu2 hx1' hx2']
          exact rootEq_iff_roots hsu hrx
        have hclsuy : pairEquiv ps u y ↔ su = ry := by
          rw [← hclass u y hu1 hu2 hy1' hy2']
          exact rootEq_iff_roots hsu hry
        by_cases hsuc : su = rx ∨ su = ry
        · rw [if_pos hsuc] at hreq
          subst hreq
          constructor
          · rcases hsuc with hsux | hsuy
            · rcases le_total rx ry with hle | hle
              · rw [Nat.min_eq_left hle]
                exact (hcons u rx).mpr (Or.inl (hsux ▸ humin.1))
              · rw [Nat.min_eq_right hle]
                refine (hcons u ry).mpr (Or.inr (Or.inl ⟨?_, hymin.1⟩))
                exact hclsux.mpr hsux
            · rcases le_total rx ry with hle | hle
              · rw [Nat.min_eq_left hle]
                refine (hcons u rx).mpr (Or.inr (Or.inr ⟨?_, hxmin.1⟩))
                exact hclsuy.mpr hsuy
              · rw [Nat.min_eq_right hle]
                exact (hcons u ry).mpr (Or.inl (hsuy ▸ humin.1))
          · intro mm hm
            rcases (hcons u mm).mp hm with h | ⟨h1, h2⟩ | ⟨h1, h2⟩
            · have := humin.2 mm h
              rcases hsuc with hsux | hsuy
              · subst hsux
                omega
              · subst hsuy
                omega
            · have := hymin.2 mm h2
              omega
            · have := hxmin.2 mm h2
              omega
        · rw [if_neg hsuc] at hreq
          subst hreq
          push_neg at hsuc
          constructor
          · exact (hcons u r).mpr (Or.inl humin.1)
          · intro mm hm
            rcases (hcons u mm).mp hm with h | ⟨h1, h2⟩ | ⟨h1, h2⟩
            · exact humin.2 mm h
            · exact absurd (hclsux.mp h1) hsuc.1
            · exact absurd (hclsuy.mp h1) hsuc.2
      have hwf' : WellFormedOps t'.size rest := by
        rw [hsz']
        exact hwfr
      obtain ⟨hA, hB, hC, hD⟩ := ih t' ps' ht' hwf' hps' hclass' hmin'
      have hshift : ∀ u w, pairEquiv (ps' ++ opsPairs rest) u w ↔
          pairEquiv (ps ++ opsPairs (TableOp.unite ix iy :: rest)) u w := by
        intro u w
        refine pairEquiv_of_mem_iff ?_
        intro q
        rw [hpsd]
        show q ∈ (ps ++ [(x, y)]) ++ opsPairs rest ↔
          q ∈ ps ++ ((ix.toNat, iy.toNat) :: opsPairs rest)
        simp only [List.mem_append, List.mem_cons, List.mem_singleton]
        tauto
      have hfold : (TableOp.unite ix iy :: rest).foldl applyOp t = rest.foldl applyOp t' := by
        rw [List.foldl_cons, happly]
      rw [hfold]
      refine ⟨hA, by rw [hsz'] at hB; exact hB, ?_, ?_⟩
      · intro u w hu1 hu2 hw1 hw2
        rw [← hshift u w]
        exact hC u w hu1 hu2 hw1 hw2
      · intro u r hu1 hu2 hur
        obtain ⟨h1, h2⟩ := hD u r hu1 hu2 hur
        refine ⟨(hshift u r).mp h1, ?_⟩
        intro mm hm
        exact h2 mm ((hshift u mm).mpr hm)

theorem tableInv_init : TableInv EquivalenceTable.init := by
  refine ⟨by decide, by decide, ?_⟩
  intro i hi1 hi2
  have : i < 1 := hi2
  omega

/-- C6 (amended): `make_set` never returns `0` — the first allocated label
is `1`, and in general it returns the current table size, which is at least
`1` — and after any sequence of `make_set` and `unite` calls **whose
`unite` arguments are labels already allocated at the time of the call**,
`find l` of every allocated label `l` returns the minimum label of `l`'s
equivalence class (the class generated by the recorded `unite` pairs).
The allocation restriction is forced by the counterexample below: `unite`
with a not-yet-allocated argument corrupts the table. -/
theorem C6_make_set_positive_and_min_root (ops : List TableOp)
    (hwf : WellFormedOps 1 ops) (l m : Nat)
    (hl1 : 1 ≤ l) (hl2 : l < (applyOps ops).size)
    (hm : pairEquiv (opsPairs ops) l m) :
    EquivalenceTable.init.make_set.2 = 1 ∧
    (applyOps ops).make_set.2 = (applyOps ops).size ∧
    1 ≤ (applyOps ops).make_set.2 ∧
    pairEquiv (opsPairs ops) l ((applyOps ops).find (l : Int)).2 ∧
    ((applyOps ops).find (l : Int)).2 ≤ m := by
  have hone : EquivalenceTable.init.size = 1 := rfl
  obtain ⟨hA, hB, hC, hD⟩ := applyOps_inv ops EquivalenceTable.init [] tableInv_init
    (by rw [hone]; exact hwf)
    (by intro q hq; cases hq)
    (by
      intro u w hu1 hu2 _ _
      rw [hone] at hu2
      omega)
    (by
      intro u r hu1 hu2 _
      rw [hone] at hu2
      omega)
  have happly : applyOps ops = ops.foldl applyOp EquivalenceTable.init := rfl
  rw [happly] at hl2 ⊢
  obtain ⟨t', r, heq, hreach, _, _, _, _, _⟩ :=
    EquivalenceTable.find_spec hA hl1 hl2
  obtain ⟨hpe, hmin⟩ := hD l r hl1 hl2 hreach
  rw [List.nil_append] at hpe hmin
  rw [heq]
  refine ⟨rfl, rfl, ?_, hpe, hmin m hm⟩
  show 1 ≤ (ops.foldl applyOp EquivalenceTable.init).parent.length
  exact hA.1

/-- C6, counterexample to the unrestricted claim: after
`make_set(); unite(1, 2)` — where label `2` was never allocated — `find 1`
returns `0`, which is neither `1` nor `2`, although the equivalence class
of the allocated label `1` is contained in `{1, 2}` and so has minimum at
least `1`. -/
theorem C6_cex_unallocated_unite :
    1 < (applyOps [TableOp.makeSet, TableOp.unite 1 2]).size ∧
    ((applyOps [TableOp.makeSet, TableOp.unite 1 2]).find 1).2 = 0 ∧
    (0 : Nat) ≠ 1 ∧ (0 : Nat) ≠ 2 := by decide

theorem C6_make_set_positive_and_min_root_witness :
    EquivalenceTable.init.make_set.2 = 1 ∧
    (applyOps [TableOp.makeSet, TableOp.makeSet, TableOp.unite 1 2]).make_set.2 =
      (applyOps [TableOp.makeSet, TableOp.makeSet, TableOp.unite 1 2]).size ∧
    1 ≤ (applyOps [TableOp.makeSet, TableOp.makeSet, TableOp.unite 1 2]).make_set.2 ∧
    pairEquiv (opsPairs [TableOp.makeSet, TableOp.makeSet, TableOp.unite 1 2]) 2
      ((applyOps [TableOp.makeSet, TableOp.makeSet, TableOp.unite 1 2]).find (2 : Int)).2 ∧
    ((applyOps [TableOp.makeSet, TableOp.makeSet, TableOp.unite 1 2]).find (2 : Int)).2 ≤ 2 :=
  C6_make_set_positive_and_min_root
    [TableOp.makeSet, TableOp.makeSet, TableOp.unite 1 2]
    ⟨⟨by norm_num, by norm_num⟩, ⟨by norm_num, by norm_num⟩, trivial⟩
    2 2 (by norm_num) (by decide)
    (pairEquiv_refl _ 2)

/-! ### The ranked disjoint set -/

theorem dsFindAux_spec {p : List Nat} {n : Nat} {m : Nat → Nat} (hp : PInv p n m) :
    ∀ (k fuel x r : Nat), x < n → iterP p k x = r → IsRootP p r → k < fuel →
      ∃ p', dsFindAux fuel p x = (p', r) ∧ p'.length = p.length ∧
        PInv p' n m ∧ (∀ y s, Reaches p y s ↔ Reaches p' y s) := by
  intro k
  induction k with
  | zero =>
    intro fuel x r hx hk hr hfuel
    have hxr : x = r := hk
    subst hxr
    cases fuel with
    | zero => omega
    | succ f =>
      rw [dsFindAux, if_pos (show p.getD x 0 = x from hr)]
      exact ⟨p, rfl, rfl, hp, fun y s => Iff.rfl⟩
  | succ k ih =>
    intro fuel x r hx hk hr hfuel
    cases fuel with
    | zero => omega
    | succ f =>
      by_cases hroot : p.getD x 0 = x
      · rw [dsFindAux, if_pos hroot]
        have hxr : r = x := by
          rw [← hk]
          exact isRootP_iterP hroot (k + 1)
        rw [hxr]
        exact ⟨p, rfl, rfl, hp, fun y s => Iff.rfl⟩
      · rw [dsFindAux, if_neg hroot]
        have hk' : iterP p k (pstep p x) = r := hk
        have hz : pstep p x < n := (hp.2 x hx).1
        obtain ⟨p₁, heq, hlen1, hp1, hiff1⟩ := ih f (pstep p x) r hz hk' hr (by omega)
        have hrx : Reaches p x r := reaches_of_pstep ⟨k, hk', hr⟩
        refine ⟨p₁.set x r, ?_, ?_, ?_, ?_⟩
        · show (let q := dsFindAux f p (p.getD x 0); (q.1.set x q.2, q.2)) = _
          rw [show p.getD x 0 = pstep p x from rfl, heq]
        · rw [List.length_set]
          exact hlen1
        · exact PInv_set_root hp1 hx ((hiff1 x r).mp hrx)
        · intro y s
          rw [hiff1 y s]
          exact reaches_set_iff (by rw [hlen1, hp.1]; exact hx)
            ((hiff1 x r).mp hrx) y s

theorem DisjointSet.find_root_spec {d : DisjointSet} {n : Nat} (hd : DSInv d n)
    {x : Nat} (hx : x < n) :
    ∃ d' r, d.find x = (d', r) ∧ Reaches d.parent x r ∧ r < n ∧
      DSInv d' n ∧ d'.rank = d.rank ∧
      (∀ y s, Reaches d.parent y s ↔ Reaches d'.parent y s) := by
  obtain ⟨hrk, hp⟩ := hd
  obtain ⟨k, hk, hroot⟩ := chain_root_within hp hx
  obtain ⟨p', heq, hlen, hp', hiff⟩ :=
    dsFindAux_spec hp k d.parent.length x (iterP d.parent k x) hx rfl hroot
      (by rw [hp.1]; omega)
  refine ⟨{ d with parent := p' }, iterP d.parent k x, ?_, ⟨k, rfl, hroot⟩,
    iterP_lt hp hx k, ⟨hrk, hp'⟩, rfl, hiff⟩
  rw [DisjointSet.find]
  show (let q := dsFindAux d.parent.length d.parent x; ({ d with parent := q.1 }, q.2)) = _
  rw [heq]

/-- The common shape of `unite`: the two merged roots map to the surviving
root, every other root stays; this characterises the same-tree relation of
the result as the merge of the two classes. -/
theorem rootMap_rootEq_iff {p p' : List Nat} {n : Nat} {m : Nat → Nat}
    (hp : PInv p n m) {x y rx ry keep : Nat}
    (hkeep : keep = rx ∨ keep = ry)
    (hrx : Reaches p x rx) (hry : Reaches p y ry)
    (hmap : ∀ u su, Reaches p u su →
      Reaches p' u (if su = rx ∨ su = ry then keep else su)) :
    ∀ u w, u < n → w < n →
      (rootEq p' u w ↔
        (rootEq p u w ∨ (rootEq p u x ∧ rootEq p y w) ∨
         (rootEq p u y ∧ rootEq p x w))) := by
  intro u w hu hw
  obtain ⟨su, hsu, _⟩ := reaches_total hp hu
  obtain ⟨sw, hsw, _⟩ := reaches_total hp hw
  have hf : ∀ s1 s2 : Nat,
      ((if s1 = rx ∨ s1 = ry then keep else s1) =
       (if s2 = rx ∨ s2 = ry then keep else s2)) ↔
      (s1 = s2 ∨ ((s1 = rx ∨ s1 = ry) ∧ (s2 = rx ∨ s2 = ry))) := by
    intro s1 s2
    by_cases h1 : s1 = rx ∨ s1 = ry <;> by_cases h2 : s2 = rx ∨ s2 = ry
    · rw [if_pos h1, if_pos h2]
      constructor
      · intro _; exact Or.inr ⟨h1, h2⟩
      · intro _; rfl
    · rw [if_pos h1, if_neg h2]
      constructor
      · intro hmin
        exfalso
        rcases hkeep with hm | hm
        · rw [hm] at hmin; exact h2 (Or.inl hmin.symm)
        · rw [hm] at hmin; exact h2 (Or.inr hmin.symm)
      · rintro (rfl | ⟨_, hc⟩)
        · exact absurd h1 h2
        · exact absurd hc h2
    · rw [if_neg h1, if_pos h2]
      constructor
      · intro hmin
        exfalso
        rcases hkeep with hm | hm
        · rw [hm] at hmin; exact h1 (Or.inl hmin)
        · rw [hm] at hmin; exact h1 (Or.inr hmin)
      · rintro (rfl | ⟨hc, _⟩)
        · exact absurd h2 h1
        · exact absurd hc h1
    · rw [if_neg h1, if_neg h2]
      constructor
      · exact Or.inl
      · rintro (rfl | ⟨hc, _⟩)
        · rfl
        · exact absurd hc h1
  have lhs_iff : rootEq p' u w ↔
      ((if su = rx ∨ su = ry then keep else su) =
       (if sw = rx ∨ sw = ry then keep else sw)) :=
    rootEq_iff_roots (hmap u su hsu) (hmap w sw hsw)
  rw [lhs_iff, hf su sw, rootEq_iff_roots hsu hsw,
    rootEq_iff_roots hsu hrx, rootEq_iff_roots hry hsw,
    rootEq_iff_roots hsu hry, rootEq_iff_roots hrx hsw]
  constructor
  · rintro (h | ⟨h1 | h1, h2 | h2⟩)
    · exact Or.inl h
    · exact Or.inl (h1.trans h2.symm)
    · exact Or.inr (Or.inl ⟨h1, h2.symm⟩)
    · exact Or.inr (Or.inr ⟨h1, h2.symm⟩)
    · exact Or.inl (h1.trans h2.symm)
  · rintro (h | ⟨h1, h2⟩ | ⟨h1, h2⟩)
    · exact Or.inl h
    · exact Or.inr ⟨Or.inl h1, Or.inr h2.symm⟩
    · exact Or.inr ⟨Or.inr h1, Or.inl h2.symm⟩

theorem DisjointSet.unite_spec {d : DisjointSet} {n : Nat} (hd : DSInv d n)
    {u v : Nat} (hu : u < n) (hv : v < n) :
    DSInv (d.unite u v) n ∧
    ∃ ru rv keep, Reaches d.parent u ru ∧ Reaches d.parent v rv ∧
      (keep = ru ∨ keep = rv) ∧
      ∀ y s, Reaches d.parent y s →
        Reaches (d.unite u v).parent y (if s = ru ∨ s = rv then keep else s) := by
  obtain ⟨d1, ru, heq1, hreach_u, hru_n, hd1, hrk1, hiff1⟩ :=
    DisjointSet.find_root_spec hd hu
  obtain ⟨d2, rv, heq2, hreach2, hrv_n, hd2, hrk2, hiff2⟩ :=
    DisjointSet.find_root_spec hd1 hv
  have hreach_v : Reaches d.parent v rv := (hiff1 v rv).mpr hreach2
  have hiff12 : ∀ y s, Reaches d.parent y s ↔ Reaches d2.parent y s := by
    intro y s
    rw [hiff1 y s, hiff2 y s]
  have hroot_u2 : IsRootP d2.parent ru := ((hiff12 u ru).mp hreach_u).choose_spec.2
  have hroot_v2 : IsRootP d2.parent rv := ((hiff12 v rv).mp hreach_v).choose_spec.2
  have hrklen : d2.rank.length = n := hd2.1
  have hplen : d2.parent.length = n := hd2.2.1
  have hrkeq : d2.rank = d.rank := hrk2.trans hrk1
  have hunite : d.unite u v =
      (if ru = rv then d2
       else if d2.rank.getD ru 0 < d2.rank.getD rv 0 then
         { d2 with parent := d2.parent.set ru rv }
       else if d2.rank.getD rv 0 < d2.rank.getD ru 0 then
         { d2 with parent := d2.parent.set rv ru }
       else
         { parent := d2.parent.set rv ru,
           rank := d2.rank.set ru (d2.rank.getD ru 0 + 1) }) := by
    rw [DisjointSet.unite]
    show (let q1 := d.find u; let q2 := q1.1.find v; _) = _
    rw [heq1]
    show (let q2 := d1.find v; _) = _
    rw [heq2]
  by_cases huv : ru = rv
  · rw [hunite, if_pos huv]
    refine ⟨hd2, ru, rv, ru, hreach_u, hreach_v, Or.inl rfl, ?_⟩
    intro y s hs
    have hite : (if s = ru ∨ s = rv then ru else s) = s := by
      by_cases h : s = ru ∨ s = rv
      · rcases h with h | h
        · rw [if_pos (Or.inl h), h]
        · rw [if_pos (Or.inr h), h, huv]
      · rw [if_neg h]
    rw [hite]
    exact (hiff12 y s).mp hs
  · rw [hunite, if_neg huv]
    by_cases hr1 : d2.rank.getD ru 0 < d2.rank.getD rv 0
    · rw [if_pos hr1]
      have hlink := reaches_link hroot_v2 hroot_u2 (fun h => huv h.symm)
        (by rw [hplen]; exact hru_n)
      refine ⟨⟨hrklen, ?_⟩, ru, rv, rv, hreach_u, hreach_v, Or.inr rfl, ?_⟩
      · exact PInv_link hd2.2 hrv_n hru_n hr1
      · intro y s hs
        have h2 := hlink y s ((hiff12 y s).mp hs)
        by_cases h : s = ru ∨ s = rv
        · rcases h with h | h
          · subst h
            rw [if_pos (Or.inl rfl)]
            rw [if_pos rfl] at h2
            exact h2
          · subst h
            rw [if_pos (Or.inr rfl)]
            rw [if_neg (fun hh => huv hh.symm)] at h2
            exact h2
        · push_neg at h
          rw [if_neg (by push_neg; exact h)]
          rw [if_neg h.1] at h2
          exact h2
    · rw [if_neg hr1]
      by_cases hr2 : d2.rank.getD rv 0 < d2.rank.getD ru 0
      · rw [if_pos hr2]
        have hlink := reaches_link hroot_u2 hroot_v2 (fun h => huv h)
          (by rw [hplen]; exact hrv_n)
        refine ⟨⟨hrklen, ?_⟩, ru, rv, ru, hreach_u, hreach_v, Or.inl rfl, ?_⟩
        · exact PInv_link hd2.2 hru_n hrv_n hr2
        · intro y s hs
          have h2 := hlink y s ((hiff12 y s).mp hs)
          by_cases h : s = ru ∨ s = rv
          · rcases h with h | h
            · subst h
              rw [if_pos (Or.inl rfl)]
              rw [if_neg (fun hh => huv hh)] at h2
              exact h2
            · subst h
              rw [if_pos (Or.inr rfl)]
              rw [if_pos rfl] at h2
              exact h2
          · push_neg at h
            rw [if_neg (by push_neg; exact h)]
            rw [if_neg h.2] at h2
            exact h2
      · rw [if_neg hr2]
        have htie : d2.rank.getD rv 0 = d2.rank.getD ru 0 := by omega
        have hlink := reaches_link hroot_u2 hroot_v2 (fun h => huv h)
          (by rw [hplen]; exact hrv_n)
        refine ⟨⟨?_, ?_, ?_⟩, ru, rv, ru, hreach_u, hreach_v, Or.inl rfl, ?_⟩
        · show (d2.rank.set ru (d2.rank.getD ru 0 + 1)).length = n
          rw [List.length_set]
          exact hrklen
        · show (d2.parent.set rv ru).length = n
          rw [List.length_set]
          exact hplen
        · intro i hi
          have hrulen : ru < d2.rank.length := by rw [hrklen]; exact hru_n
          have hmset : ∀ j : Nat, (d2.rank.set ru (d2.rank.getD ru 0 + 1)).getD j 0 =
              if j = ru then d2.rank.getD ru 0 + 1 else d2.rank.getD j 0 := by
            intro j
            by_cases hj : j = ru
            · subst hj
              rw [if_pos rfl]
              exact pstep_set_self hrulen
            · rw [if_neg hj]
              exact pstep_set_other ru _ j hj
          by_cases hirv : i = rv
          · subst hirv
            rw [pstep_set_self (by rw [hplen]; exact hrv_n)]
            refine ⟨hru_n, fun hne => ?_⟩
            show (d2.rank.set ru _).getD i 0 < (d2.rank.set ru _).getD ru 0
            rw [hmset i, hmset ru, if_neg (fun h => huv h.symm), if_pos rfl]
            omega
          · rw [pstep_set_other rv ru i hirv]
            obtain ⟨hj1, hj2⟩ := hd2.2.2 i hi
            refine ⟨hj1, fun hne => ?_⟩
            have hm : d2.rank.getD i 0 < d2.rank.getD (pstep d2.parent i) 0 := hj2 hne
            have hiru : i ≠ ru := by
              intro h
              subst h
              exact hne hroot_u2
            show (d2.rank.set ru _).getD i 0 < (d2.rank.set ru _).getD (pstep d2.parent i) 0
            rw [hmset i, hmset (pstep d2.parent i), if_neg hiru]
            by_cases hjru : pstep d2.parent i = ru
            · rw [if_pos hjru]
              rw [hjru] at hm
              omega
            · rw [if_neg hjru]
              exact hm
        · intro y s hs
          have h2 := hlink y s ((hiff12 y s).mp hs)
          show Reaches (d2.parent.set rv ru) y (if s = ru ∨ s = rv then ru else s)
          by_cases h : s = ru ∨ s = rv
          · rcases h with h | h
            · subst h
              rw [if_pos (Or.inl rfl)]
              rw [if_neg (fun hh => huv hh)] at h2
              exact h2
            · subst h
              rw [if_pos (Or.inr rfl)]
              rw [if_pos rfl] at h2
              exact h2
          · push_neg at h
            rw [if_neg (by push_neg; exact h)]
            rw [if_neg h.2] at h2
            exact h2

theorem DisjointSet.unite_rootEq {d : DisjointSet} {n : Nat} (hd : DSInv d n)
    {u v : Nat} (hu : u < n) (hv : v < n) :
    DSInv (d.unite u v) n ∧
    ∀ y w, y < n → w < n →
      (rootEq (d.unite u v).parent y w ↔
        (rootEq d.parent y w ∨ (rootEq d.parent y u ∧ rootEq d.parent v w) ∨
         (rootEq d.parent y v ∧ rootEq d.parent u w))) := by
  obtain ⟨hd', ru, rv, keep, hru, hrv, hkeep, hmap⟩ := DisjointSet.unite_spec hd hu hv
  exact ⟨hd', rootMap_rootEq_iff hd.2 hkeep hru hrv (fun y s hs => hmap y s hs)⟩

theorem pstep_range {n i : Nat} (hi : i < n) : pstep (List.range n) i = i := by
  unfold pstep
  rw [List.getD, List.get?_eq_getElem?, List.getElem?_range hi]
  rfl

theorem DSInv_init (n : Nat) : DSInv (DisjointSet.init n) n := by
  refine ⟨by simp [DisjointSet.init], by simp [DisjointSet.init], ?_⟩
  intro i hi
  have hps : pstep (DisjointSet.init n).parent i = i := pstep_range hi
  rw [hps]
  exact ⟨hi, fun h => absurd rfl h⟩

theorem reaches_init {n y : Nat} (hy : y < n) :
    Reaches (DisjointSet.init n).parent y y :=
  reaches_root_self (show pstep (List.range n) y = y from pstep_range hy)

theorem rootEq_init {n y w : Nat} (hy : y < n) (hw : w < n) :
    rootEq (DisjointSet.init n).parent y w ↔ y = w :=
  rootEq_iff_roots (reaches_init hy) (reaches_init hw)

theorem foldl_unite_spec {n : Nat} :
    ∀ (qs : List (Nat × Nat)) (d : DisjointSet) (ps : List (Nat × Nat)),
      DSInv d n →
      (∀ q ∈ qs, q.1 < n ∧ q.2 < n) →
      (∀ y w, y < n → w < n → (rootEq d.parent y w ↔ pairEquiv ps y w)) →
      DSInv (qs.foldl (fun d q => d.unite q.1 q.2) d) n ∧
      (∀ y w, y < n → w < n →
        (rootEq (qs.foldl (fun d q => d.unite q.1 q.2) d).parent y w ↔
          pairEquiv (ps ++ qs) y w)) := by
  intro qs
  induction qs with
  | nil =>
    intro d ps hd hqs hcls
    rw [List.foldl_nil]
    refine ⟨hd, ?_⟩
    intro y w hy hw
    rw [List.append_nil]
    exact hcls y w hy hw
  | cons q rest ih =>
    intro d ps hd hqs hcls
    obtain ⟨hq1, hq2⟩ := hqs q (List.mem_cons_self q rest)
    obtain ⟨hd', hiff⟩ := DisjointSet.unite_rootEq hd hq1 hq2
    have hcls' : ∀ y w, y < n → w < n →
        (rootEq (d.unite q.1 q.2).parent y w ↔ pairEquiv (ps ++ [q]) y w) := by
      intro y w hy hw
      have hmem2 : ∀ q', q' ∈ ps ++ [q] ↔ q' ∈ (q.1, q.2) :: ps := by
        intro q'
        simp only [List.mem_append, List.mem_singleton, List.mem_cons]
        tauto
      rw [hiff y w hy hw, pairEquiv_of_mem_iff hmem2,
        pairEquiv_cons_iff ps q.1 q.2 y w,
        ← hcls y w hy hw, ← hcls y q.1 hy hq1, ← hcls q.2 w hq2 hw,
        ← hcls y q.2 hy hq2, ← hcls q.1 w hq1 hw]
    obtain ⟨hA, hB⟩ := ih (d.unite q.1 q.2) (ps ++ [q]) hd'
      (fun q' hq' => hqs q' (List.mem_cons_of_mem q hq')) hcls'
    rw [List.foldl_cons]
    refine ⟨hA, ?_⟩
    intro y w hy hw
    rw [hB y w hy hw]
    refine pairEquiv_of_mem_iff ?_
    intro q'
    simp only [List.mem_append, List.mem_singleton, List.mem_cons]
    tauto

theorem build_edges_weight_one (a : Image) (connectivity : Int) :
    ∀ e ∈ Kruskal.build_edges a connectivity, e.weight = 1 := by
  intro e he
  rw [Kruskal.build_edges, List.mem_flatMap] at he
  obtain ⟨c, _, he⟩ := he
  by_cases hc : a.pix c.1 c.2 = 0
  · rw [if_pos hc] at he
    cases he
  · rw [if_neg hc, List.mem_map] at he
    obtain ⟨n, _, rfl⟩ := he
    rfl

theorem insertEdge_all_one {l : List Edge} {e : Edge} (he : e.weight = 1)
    (hl : ∀ f ∈ l, f.weight = 1) : insertEdge e l = e :: l := by
  cases l with
  | nil => rfl
  | cons f fs =>
    rw [insertEdge]
    have hf : f.weight = 1 := hl f (List.mem_cons_self f fs)
    rw [if_neg (by rw [hf, he]; omega)]

theorem sortEdges_all_one : ∀ l : List Edge, (∀ f ∈ l, f.weight = 1) →
    sortEdges l = l := by
  intro l
  induction l with
  | nil => intro _; rfl
  | cons e es ih =>
    intro hl
    rw [sortEdges, ih (fun f hf => hl f (List.mem_cons_of_mem e hf))]
    exact insertEdge_all_one (hl e (List.mem_cons_self e es))
      (fun f hf => hl f (List.mem_cons_of_mem e hf))

theorem foldl_flatMap {α β γ : Type} (f : β → α → β) (g : γ → List α) :
    ∀ (l : List γ) (b : β),
      (l.flatMap g).foldl f b = l.foldl (fun b c => (g c).foldl f b) b := by
  intro l
  induction l with
  | nil => intro b; rfl
  | cons c l ih =>
    intro b
    rw [List.flatMap_cons, List.foldl_append, List.foldl_cons, ih]

/-- Phase 1 of `UnionFind.label` is the fold of `unite` over the causal
pair list. -/
theorem UnionFind.phase1_eq (a : Image) (connectivity : Int) :
    (coords a.height a.width).foldl (fun ds c =>
      if a.pix c.1 c.2 = 0 then ds
      else
        (causalFgNeighbors a connectivity c.1 c.2).foldl
          (fun ds n => ds.unite (get_index c.1 c.2 a.width) (get_index n.1 n.2 a.width)) ds)
      (DisjointSet.init (a.width * a.height)) =
    (causalPairs a connectivity).foldl (fun ds q => ds.unite q.1 q.2)
      (DisjointSet.init (a.width * a.height)) := by
  rw [causalPairs, foldl_flatMap]
  have hfun : (fun (ds : DisjointSet) (c : Nat × Nat) =>
      ((if a.pix c.1 c.2 = 0 then []
        else
          (causalFgNeighbors a connectivity c.1 c.2).map
            (fun nb => (get_index c.1 c.2 a.width, get_index nb.1 nb.2 a.width))).foldl
        (fun ds q => ds.unite q.1 q.2) ds)) =
      (fun (ds : DisjointSet) (c : Nat × Nat) =>
        if a.pix c.1 c.2 = 0 then ds
        else
          (causalFgNeighbors a connectivity c.1 c.2).foldl
            (fun ds n => ds.unite (get_index c.1 c.2 a.width) (get_index n.1 n.2 a.width)) ds) := by
    funext ds c
    by_cases hc : a.pix c.1 c.2 = 0
    · rw [if_pos hc, if_pos hc]
      rfl
    · rw [if_neg hc, if_neg hc, List.foldl_map]
  rw [hfun]

theorem build_edges_eq_map (a : Image) (connectivity : Int) :
    Kruskal.build_edges a connectivity =
      (causalPairs a connectivity).map (fun q => (⟨q.1, q.2, 1⟩ : Edge)) := by
  rw [Kruskal.build_edges, causalPairs, List.map_flatMap]
  congr 1
  funext c
  by_cases hc : a.pix c.1 c.2 = 0
  · rw [if_pos hc, if_pos hc]
    rfl
  · rw [if_neg hc, if_neg hc, List.map_map]
    rfl

/-- `Kruskal.label` and `UnionFind.label` are the same function: the edge
list (sorted or not — all weights are `1`) carries exactly the causal
pairs phase 1 of union-find unions, in the same order, and the two
compaction scans are textually identical. -/
theorem Kruskal.label_eq_unionFind (a : Image) (connectivity : Int) :
    Kruskal.label a connectivity = UnionFind.label a connectivity := by
  rw [Kruskal.label, UnionFind.label]
  rw [sortEdges_all_one _ (build_edges_weight_one a connectivity)]
  rw [build_edges_eq_map, List.foldl_map, UnionFind.phase1_eq]

theorem get_index_lt {x y h w : Nat} (hx : x < h) (hy : y < w) :
    get_index x y w < w * h := by
  have h1 : x * w + y < (x + 1) * w := by
    rw [Nat.succ_mul]
    omega
  have h2 : (x + 1) * w ≤ h * w := Nat.mul_le_mul_right w hx
  rw [get_index]
  calc x * w + y < (x + 1) * w := h1
    _ ≤ h * w := h2
    _ = w * h := Nat.mul_comm h w

theorem get_index_inj {x1 y1 x2 y2 w : Nat} (hy1 : y1 < w) (hy2 : y2 < w)
    (h : get_index x1 y1 w = get_index x2 y2 w) : x1 = x2 ∧ y1 = y2 := by
  rw [get_index, get_index] at h
  have hw : 0 < w := by omega
  have e1 : (x1 * w + y1) / w = x1 := by
    rw [Nat.mul_comm x1 w, Nat.mul_add_div hw, Nat.div_eq_of_lt hy1, Nat.add_zero]
  have e2 : (x2 * w + y2) / w = x2 := by
    rw [Nat.mul_comm x2 w, Nat.mul_add_div hw, Nat.div_eq_of_lt hy2, Nat.add_zero]
  have hx : x1 = x2 := by rw [← e1, ← e2, h]
  subst hx
  exact ⟨rfl, by omega⟩

theorem compactInv_intro {a : Image} {ds1 ds : DisjointSet} {n : Nat}
    {done : List (Nat × Nat)} {L : LabelImage} {rtl : Nat → Nat} {next : Nat}
    (hds : DSInv ds n)
    (hiff : ∀ y s, Reaches ds.parent y s ↔ Reaches ds1.parent y s)
    (hh : L.height = a.height) (hw : L.width = a.width)
    (hnext : 1 ≤ next)
    (hrtl_lt : ∀ r, rtl r ≠ 0 → 1 ≤ rtl r ∧ rtl r < next)
    (hrtl_inj : ∀ r r', rtl r ≠ 0 → rtl r' ≠ 0 → rtl r = rtl r' → r = r')
    (hsurj : ∀ v, 1 ≤ v → v < next → ∃ r, rtl r = v)
    (hbg : ∀ c, c ∈ done → a.pix c.1 c.2 = 0 → L.lab c.1 c.2 = 0)
    (hfg : ∀ c, c ∈ done → a.pix c.1 c.2 ≠ 0 →
      ∃ r, Reaches ds1.parent (get_index c.1 c.2 a.width) r ∧
        rtl r ≠ 0 ∧ L.lab c.1 c.2 = ((rtl r : Nat) : Int))
    (hused : ∀ r, rtl r ≠ 0 → ∃ c, c ∈ done ∧ a.pix c.1 c.2 ≠ 0 ∧
      Reaches ds1.parent (get_index c.1 c.2 a.width) r)
    (hun : ∀ i j, (i, j) ∉ done → L.lab i j = 0) :
    CompactInv a ds1 n done (ds, L, rtl, next) :=
  ⟨hds, hiff, hh, hw, hnext, hrtl_lt, hrtl_inj, hsurj, hbg, hfg, hused, hun⟩

theorem compactStep_inv {a : Image} {ds1 : DisjointSet} {n : Nat}
    (hn : n = a.width * a.height)
    {done : List (Nat × Nat)} {st : DisjointSet × LabelImage × (Nat → Nat) × Nat}
    {c : Nat × Nat} (hc1 : c.1 < a.height) (hc2 : c.2 < a.width)
    (hcd : c ∉ done) (hinv : CompactInv a ds1 n done st) :
    CompactInv a ds1 n (done ++ [c]) (compactStep a st c) := by
  obtain ⟨ds, L, rtl, next⟩ := st
  obtain ⟨hds, hiff, hh, hw, hnext, hrtl_lt, hrtl_inj, hsurj, hbg, hfg, hused, hun⟩ := hinv
  replace hds : DSInv ds n := hds
  replace hiff : ∀ y s, Reaches ds.parent y s ↔ Reaches ds1.parent y s := hiff
  replace hh : L.height = a.height := hh
  replace hw : L.width = a.width := hw
  replace hnext : 1 ≤ next := hnext
  replace hrtl_lt : ∀ r, rtl r ≠ 0 → 1 ≤ rtl r ∧ rtl r < next := hrtl_lt
  replace hrtl_inj : ∀ r r', rtl r ≠ 0 → rtl r' ≠ 0 → rtl r = rtl r' → r = r' := hrtl_inj
  replace hsurj : ∀ v, 1 ≤ v → v < next → ∃ r, rtl r = v := hsurj
  replace hbg : ∀ c', c' ∈ done → a.pix c'.1 c'.2 = 0 → L.lab c'.1 c'.2 = 0 := hbg
  replace hfg : ∀ c', c' ∈ done → a.pix c'.1 c'.2 ≠ 0 →
      ∃ r, Reaches ds1.parent (get_index c'.1 c'.2 a.width) r ∧
        rtl r ≠ 0 ∧ L.lab c'.1 c'.2 = ((rtl r : Nat) : Int) := hfg
  replace hused : ∀ r, rtl r ≠ 0 → ∃ c', c' ∈ done ∧ a.pix c'.1 c'.2 ≠ 0 ∧
      Reaches ds1.parent (get_index c'.1 c'.2 a.width) r := hused
  replace hun : ∀ i j, (i, j) ∉ done → L.lab i j = 0 := hun
  have hne : ∀ c' : Nat × Nat, c' ∈ done → ¬ (c'.1 = c.1 ∧ c'.2 = c.2) := by
    intro c' hc' hcc
    exact hcd ((Prod.ext hcc.1 hcc.2 : c' = c) ▸ hc')
  have hmem_split : ∀ c' : Nat × Nat, c' ∈ done ++ [c] ↔ c' ∈ done ∨ c' = c := by
    intro c'
    simp [List.mem_append]
  by_cases hpix : a.pix c.1 c.2 = 0
  · have hstep : compactStep a (ds, L, rtl, next) c =
        (ds, L.setL c.1 c.2 0, rtl, next) := by
      rw [compactStep]
      simp [hpix]
    rw [hstep]
    refine compactInv_intro hds hiff (by rw [LabelImage.setL_height]; exact hh)
      (by rw [LabelImage.setL_width]; exact hw) hnext hrtl_lt hrtl_inj hsurj
      ?_ ?_ ?_ ?_
    · intro c' hc' hp'
      rcases (hmem_split c').mp hc' with h | h
      · rw [LabelImage.setL_lab_other _ _ (hne c' h)]
        exact hbg c' h hp'
      · subst h
        exact LabelImage.setL_lab_same ..
    · intro c' hc' hp'
      rcases (hmem_split c').mp hc' with h | h
      · obtain ⟨r, h1, h2, h3⟩ := hfg c' h hp'
        exact ⟨r, h1, h2, by rw [LabelImage.setL_lab_other _ _ (hne c' h)]; exact h3⟩
      · subst h
        exact absurd hpix hp'
    · intro r hr
      obtain ⟨c', h1, h2, h3⟩ := hused r hr
      exact ⟨c', (hmem_split c').mpr (Or.inl h1), h2, h3⟩
    · intro i j hij
      have hij1 : (i, j) ∉ done := fun h => hij ((hmem_split (i, j)).mpr (Or.inl h))
      have hij2 : ¬ ((i, j) = c) := fun h => hij ((hmem_split (i, j)).mpr (Or.inr h))
      rw [LabelImage.setL_lab_other _ _ (fun hcc => hij2 (Prod.ext hcc.1 hcc.2))]
      exact hun i j hij1
  · have hidx : get_index c.1 c.2 a.width < n := by
      rw [hn]
      exact get_index_lt hc1 hc2
    obtain ⟨ds', root, heq, hreach, hrootn, hds', hrk', hiff'⟩ :=
      DisjointSet.find_root_spec hds hidx
    replace heq : ds.find (get_index c.1 c.2 a.width) = (ds', root) := heq
    have hreach1 : Reaches ds1.parent (get_index c.1 c.2 a.width) root :=
      (hiff _ root).mp hreach
    have hiff2 : ∀ y s, Reaches ds'.parent y s ↔ Reaches ds1.parent y s := by
      intro y s
      rw [← hiff' y s, hiff y s]
    by_cases hrt : rtl root = 0
    · have hstep : compactStep a (ds, L, rtl, next) c =
          (ds', L.setL c.1 c.2 ((next : Nat) : Int),
            Function.update rtl root next, next + 1) := by
        rw [compactStep]
        simp [hpix, heq, hrt]
      rw [hstep]
      have hupd : ∀ r, Function.update rtl root next r =
          if r = root then next else rtl r := by
        intro r
        by_cases h : r = root
        · subst h
          rw [Function.update_same, if_pos rfl]
        · rw [Function.update_noteq h, if_neg h]
      refine compactInv_intro hds' hiff2 (by rw [LabelImage.setL_height]; exact hh)
        (by rw [LabelImage.setL_width]; exact hw) (by omega) ?_ ?_ ?_ ?_ ?_ ?_ ?_
      · intro r hr
        rw [hupd r] at hr ⊢
        by_cases h : r = root
        · rw [if_pos h] at hr ⊢
          omega
        · rw [if_neg h] at hr ⊢
          have := hrtl_lt r hr
          omega
      · intro r r' hr hr' hrr
        rw [hupd r] at hr hrr
        rw [hupd r'] at hr' hrr
        by_cases h : r = root <;> by_cases h' : r' = root
        · rw [h, h']
        · rw [if_pos h] at hrr
          rw [if_neg h'] at hrr hr'
          have := hrtl_lt r' hr'
          omega
        · rw [if_neg h] at hrr hr
          rw [if_pos h'] at hrr
          have := hrtl_lt r hr
          omega
        · rw [if_neg h] at hrr hr
          rw [if_neg h'] at hrr hr'
          exact hrtl_inj r r' hr hr' hrr
      · intro v hv1 hv2
        by_cases hv : v = next
        · refine ⟨root, ?_⟩
          rw [hupd root, if_pos rfl, hv]
        · obtain ⟨r, hr⟩ := hsurj v hv1 (by omega)
          refine ⟨r, ?_⟩
          rw [hupd r, if_neg ?_]
          · exact hr
          · intro h
            subst h
            rw [hrt] at hr
            omega
      · intro c' hc' hp'
        rcases (hmem_split c').mp hc' with h | h
        · rw [LabelImage.setL_lab_other _ _ (hne c' h)]
          exact hbg c' h hp'
        · subst h
          exact absurd hp' hpix
      · intro c' hc' hp'
        rcases (hmem_split c').mp hc' with h | h
        · obtain ⟨r, h1, h2, h3⟩ := hfg c' h hp'
          have hrro : r ≠ root := by
            intro hx
            subst hx
            exact h2 hrt
          refine ⟨r, h1, ?_, ?_⟩
          · rw [hupd r, if_neg hrro]
            exact h2
          · rw [LabelImage.setL_lab_other _ _ (hne c' h), hupd r, if_neg hrro]
            exact h3
        · subst h
          refine ⟨root, hreach1, ?_, ?_⟩
          · rw [hupd root, if_pos rfl]
            omega
          · rw [LabelImage.setL_lab_same, hupd root, if_pos rfl]
      · intro r hr
        rw [hupd r] at hr
        by_cases h : r = root
        · subst h
          exact ⟨c, (hmem_split c).mpr (Or.inr rfl), hpix, hreach1⟩
        · rw [if_neg h] at hr
          obtain ⟨c', h1, h2, h3⟩ := hused r hr
          exact ⟨c', (hmem_split c').mpr (Or.inl h1), h2, h3⟩
      · intro i j hij
        have hij1 : (i, j) ∉ done := fun h => hij ((hmem_split (i, j)).mpr (Or.inl h))
        have hij2 : ¬ ((i, j) = c) := fun h => hij ((hmem_split (i, j)).mpr (Or.inr h))
        rw [LabelImage.setL_lab_other _ _ (fun hcc => hij2 (Prod.ext hcc.1 hcc.2))]
        exact hun i j hij1
    · have hstep : compactStep a (ds, L, rtl, next) c =
          (ds', L.setL c.1 c.2 ((rtl root : Nat) : Int), rtl, next) := by
        rw [compactStep]
        simp [hpix, heq, hrt]
      rw [hstep]
      refine compactInv_intro hds' hiff2 (by rw [LabelImage.setL_height]; exact hh)
        (by rw [LabelImage.setL_width]; exact hw) hnext hrtl_lt hrtl_inj hsurj
        ?_ ?_ ?_ ?_
      · intro c' hc' hp'
        rcases (hmem_split c').mp hc' with h | h
        · rw [LabelImage.setL_lab_other _ _ (hne c' h)]
          exact hbg c' h hp'
        · subst h
          exact absurd hp' hpix
      · intro c' hc' hp'
        rcases (hmem_split c').mp hc' with h | h
        · obtain ⟨r, h1, h2, h3⟩ := hfg c' h hp'
          exact ⟨r, h1, h2, by rw [LabelImage.setL_lab_other _ _ (hne c' h)]; exact h3⟩
        · subst h
          exact ⟨root, hreach1, hrt, by rw [LabelImage.setL_lab_same]⟩
      · intro r hr
        obtain ⟨c', h1, h2, h3⟩ := hused r hr
        exact ⟨c', (hmem_split c').mpr (Or.inl h1), h2, h3⟩
      · intro i j hij
        have hij1 : (i, j) ∉ done := fun h => hij ((hmem_split (i, j)).mpr (Or.inl h))
        have hij2 : ¬ ((i, j) = c) := fun h => hij ((hmem_split (i, j)).mpr (Or.inr h))
        rw [LabelImage.setL_lab_other _ _ (fun hcc => hij2 (Prod.ext hcc.1 hcc.2))]
        exact hun i j hij1

theorem compact_fold_spec {a : Image} {ds1 : DisjointSet} {n : Nat}
    (hn : n = a.width * a.height) :
    ∀ (rest done : List (Nat × Nat))
      (st : DisjointSet × LabelImage × (Nat → Nat) × Nat),
      (done ++ rest).Nodup →
      (∀ c ∈ rest, c.1 < a.height ∧ c.2 < a.width) →
      CompactInv a ds1 n done st →
      CompactInv a ds1 n (done ++ rest) (rest.foldl (compactStep a) st) := by
  intro rest
  induction rest with
  | nil =>
    intro done st _ _ hinv
    rw [List.foldl_nil, List.append_nil]
    exact hinv
  | cons c rest ih =>
    intro done st hnd hrest hinv
    have hassoc : done ++ c :: rest = (done ++ [c]) ++ rest := by
      rw [List.append_assoc]
      rfl
    have hcd : c ∉ done := by
      obtain ⟨_, _, hdisj⟩ := List.nodup_append.mp hnd
      intro h
      exact hdisj h (List.mem_cons_self c rest)
    rw [List.foldl_cons, hassoc]
    refine ih (done ++ [c]) (compactStep a st c) ?_ ?_ ?_
    · rw [← hassoc]
      exact hnd
    · intro c' hc'
      exact hrest c' (List.mem_cons_of_mem c hc')
    · exact compactStep_inv hn (hrest c (List.mem_cons_self c rest)).1
        (hrest c (List.mem_cons_self c rest)).2 hcd hinv

theorem pairEquiv_nil {α : Type} {y z : α} :
    pairEquiv ([] : List (α × α)) y z ↔ y = z := by
  constructor
  · intro h
    induction h with
    | refl => rfl
    | tail _ hstep ih =>
      rcases hstep with h | h <;> simp at h
  · rintro rfl
    exact pairEquiv_refl _ _

theorem mem_ite_singleton {α : Type} {p : Prop} [Decidable p] {z nb : α}
    (h : nb ∈ if p then [z] else []) : nb = z ∧ p := by
  by_cases hp : p
  · rw [if_pos hp] at h
    exact ⟨List.mem_singleton.mp h, hp⟩
  · rw [if_neg hp] at h
    simp at h

theorem causalFgNeighbors_bounds {a : Image} {conn : Int} {x y : Nat}
    (hx : x < a.height) (hy : y < a.width) :
    ∀ nb ∈ causalFgNeighbors a conn x y, nb.1 < a.height ∧ nb.2 < a.width := by
  intro nb hnb
  rw [causalFgNeighbors] at hnb
  by_cases h4 : conn = 4
  · rw [if_pos h4] at hnb
    rcases List.mem_append.mp hnb with h | h
    · obtain ⟨rfl, -⟩ := mem_ite_singleton h
      exact ⟨by omega, hy⟩
    · obtain ⟨rfl, -⟩ := mem_ite_singleton h
      exact ⟨hx, by omega⟩
  · rw [if_neg h4] at hnb
    by_cases h8 : conn = 8
    · rw [if_pos h8] at hnb
      rcases List.mem_append.mp hnb with h | h
      · rcases List.mem_append.mp h with h | h
        · rcases List.mem_append.mp h with h | h
          · obtain ⟨rfl, -⟩ := mem_ite_singleton h
            exact ⟨by omega, by omega⟩
          · obtain ⟨rfl, -⟩ := mem_ite_singleton h
            exact ⟨by omega, hy⟩
        · obtain ⟨rfl, hc⟩ := mem_ite_singleton h
          have hyw : y < a.width - 1 := hc.2.1
          exact ⟨by omega, by omega⟩
      · obtain ⟨rfl, -⟩ := mem_ite_singleton h
        exact ⟨hx, by omega⟩
    · rw [if_neg h8] at hnb
      simp at hnb

theorem causalPairs_bounds {a : Image} {conn : Int} :
    ∀ q ∈ causalPairs a conn,
      q.1 < a.width * a.height ∧ q.2 < a.width * a.height := by
  intro q hq
  rw [causalPairs, List.mem_flatMap] at hq
  obtain ⟨c, hc, hq⟩ := hq
  obtain ⟨hc1, hc2⟩ := mem_coords.mp hc
  by_cases hp : a.pix c.1 c.2 = 0
  · rw [if_pos hp] at hq
    simp at hq
  · rw [if_neg hp, List.mem_map] at hq
    obtain ⟨nb, hnb, rfl⟩ := hq
    obtain ⟨hn1, hn2⟩ := causalFgNeighbors_bounds hc1 hc2 nb hnb
    exact ⟨get_index_lt hc1 hc2, get_index_lt hn1 hn2⟩

/-- Phase 1 of `UnionFind.label` keeps the union-by-rank invariant and its
trees realise exactly the equivalence generated by the causal pairs. -/
theorem UnionFind.phase1_spec (a : Image) (conn : Int) :
    DSInv (UnionFind.phase1 a conn) (a.width * a.height) ∧
    ∀ y w, y < a.width * a.height → w < a.width * a.height →
      (rootEq (UnionFind.phase1 a conn).parent y w ↔
        pairEquiv (causalPairs a conn) y w) := by
  have hbase : ∀ y w, y < a.width * a.height → w < a.width * a.height →
      (rootEq (DisjointSet.init (a.width * a.height)).parent y w ↔
        pairEquiv ([] : List (Nat × Nat)) y w) := by
    intro y w hy hw
    rw [rootEq_init hy hw, pairEquiv_nil]
  obtain ⟨h1, h2⟩ := foldl_unite_spec (causalPairs a conn)
    (DisjointSet.init (a.width * a.height)) [] (DSInv_init _)
    causalPairs_bounds hbase
  rw [UnionFind.phase1, UnionFind.phase1_eq]
  refine ⟨h1, fun y w hy hw => ?_⟩
  rw [h2 y w hy hw, List.nil_append]

/-- After the compaction scan over the whole raster, the invariant holds
with `done` = all cells. -/
theorem UnionFind.label_state_spec (a : Image) (conn : Int) :
    CompactInv a (UnionFind.phase1 a conn) (a.width * a.height)
      (coords a.height a.width)
      ((coords a.height a.width).foldl (compactStep a)
        (UnionFind.phase1 a conn, zeroLabels a.height a.width, fun _ => 0, 1)) := by
  have hbase : CompactInv a (UnionFind.phase1 a conn) (a.width * a.height) []
      (UnionFind.phase1 a conn, zeroLabels a.height a.width, fun _ => 0, 1) := by
    refine compactInv_intro (UnionFind.phase1_spec a conn).1 (fun y s => Iff.rfl)
      rfl rfl (le_refl 1) ?_ ?_ ?_ ?_ ?_ ?_ ?_
    · intro r hr
      exact absurd rfl hr
    · intro r r' hr hr' h
      exact absurd rfl hr
    · intro v hv1 hv2
      omega
    · intro c' hc' hp'
      simp at hc'
    · intro c' hc' hp'
      simp at hc'
    · intro r hr
      exact absurd rfl hr
    · intro i j hij
      rfl
  exact compact_fold_spec rfl (coords a.height a.width) []
    (UnionFind.phase1 a conn, zeroLabels a.height a.width, fun _ => 0, 1)
    (coords_nodup a.height a.width) (fun c hc => mem_coords.mp hc) hbase

theorem UnionFind.label_eq_fold (a : Image) (conn : Int) :
    UnionFind.label a conn = ((coords a.height a.width).foldl (compactStep a)
      (UnionFind.phase1 a conn, zeroLabels a.height a.width, fun _ => 0, 1)).2.1 := rfl

theorem UnionFind.label_bg (a : Image) (conn : Int) {i j : Nat}
    (h : a.pix i j = 0) : (UnionFind.label a conn).lab i j = 0 := by
  have hinv := UnionFind.label_state_spec a conn
  rw [UnionFind.label_eq_fold]
  by_cases hc : (i, j) ∈ coords a.height a.width
  · exact hinv.hbg (i, j) hc h
  · exact hinv.hun i j hc

theorem UnionFind.label_fg_pos (a : Image) (conn : Int) {c : Nat × Nat}
    (hc : c ∈ coords a.height a.width) (hp : a.pix c.1 c.2 ≠ 0) :
    1 ≤ (UnionFind.label a conn).lab c.1 c.2 := by
  have hinv := UnionFind.label_state_spec a conn
  obtain ⟨r, hr1, hr2, hr3⟩ := hinv.hfg c hc hp
  rw [UnionFind.label_eq_fold, hr3]
  obtain ⟨h1, h2⟩ := hinv.hrtl_lt r hr2
  exact_mod_cast h1

theorem UnionFind.label_partition (a : Image) (conn : Int) {c d : Nat × Nat}
    (hc : c ∈ coords a.height a.width) (hd : d ∈ coords a.height a.width)
    (hpc : a.pix c.1 c.2 ≠ 0) (hpd : a.pix d.1 d.2 ≠ 0) :
    (UnionFind.label a conn).lab c.1 c.2 = (UnionFind.label a conn).lab d.1 d.2 ↔
      pairEquiv (causalPairs a conn)
        (get_index c.1 c.2 a.width) (get_index d.1 d.2 a.width) := by
  have hinv := UnionFind.label_state_spec a conn
  obtain ⟨rc, hrc1, hrc2, hrc3⟩ := hinv.hfg c hc hpc
  obtain ⟨rd, hrd1, hrd2, hrd3⟩ := hinv.hfg d hd hpd
  rw [UnionFind.label_eq_fold, hrc3, hrd3]
  have hcb := mem_coords.mp hc
  have hdb := mem_coords.mp hd
  rw [← (UnionFind.phase1_spec a conn).2 _ _ (get_index_lt hcb.1 hcb.2)
    (get_index_lt hdb.1 hdb.2)]
  rw [rootEq_iff_roots hrc1 hrd1]
  constructor
  · intro h
    have h' : ((coords a.height a.width).foldl (compactStep a)
        (UnionFind.phase1 a conn, zeroLabels a.height a.width,
          fun _ => 0, 1)).2.2.1 rc =
        ((coords a.height a.width).foldl (compactStep a)
        (UnionFind.phase1 a conn, zeroLabels a.height a.width,
          fun _ => 0, 1)).2.2.1 rd := by
      exact_mod_cast h
    exact hinv.hrtl_inj rc rd hrc2 hrd2 h'
  · intro h
    rw [h]

theorem UnionFind.label_range (a : Image) (conn : Int) :
    ∃ K : Nat, ∀ v : Int,
      (∃ c ∈ coords a.height a.width,
        (UnionFind.label a conn).lab c.1 c.2 = v ∧ v ≠ 0) ↔
      (1 ≤ v ∧ v ≤ (K : Int)) := by
  have hinv := UnionFind.label_state_spec a conn
  set st := (coords a.height a.width).foldl (compactStep a)
    (UnionFind.phase1 a conn, zeroLabels a.height a.width, fun _ => 0, 1) with hst
  refine ⟨st.2.2.2 - 1, ?_⟩
  intro v
  constructor
  · rintro ⟨c, hc, hlab, hv⟩
    rw [UnionFind.label_eq_fold, ← hst] at hlab
    by_cases hp : a.pix c.1 c.2 = 0
    · exact absurd (hlab ▸ hinv.hbg c hc hp) hv
    · obtain ⟨r, hr1, hr2, hr3⟩ := hinv.hfg c hc hp
      obtain ⟨h1, h2⟩ := hinv.hrtl_lt r hr2
      rw [hr3] at hlab
      constructor
      · rw [← hlab]
        exact_mod_cast h1
      · rw [← hlab]
        have : st.2.2.1 r ≤ st.2.2.2 - 1 := by omega
        exact_mod_cast this
  · rintro ⟨hv1, hv2⟩
    have hm : ∃ m : Nat, v = (m : Int) ∧ 1 ≤ m ∧ m ≤ st.2.2.2 - 1 := by
      refine ⟨v.toNat, ?_, ?_, ?_⟩
      · omega
      · omega
      · omega
    obtain ⟨m, rfl, hm1, hm2⟩ := hm
    have hnext := hinv.hnext
    obtain ⟨r, hr⟩ := hinv.hsurj m hm1 (by omega)
    have hrne : st.2.2.1 r ≠ 0 := by omega
    obtain ⟨c, hc, hfgc, hreachc⟩ := hinv.hused r hrne
    obtain ⟨r', hr1', hr2', hr3'⟩ := hinv.hfg c hc hfgc
    have hrr : r' = r := reaches_unique hr1' hreachc
    refine ⟨c, hc, ?_, by exact_mod_cast Nat.one_le_iff_ne_zero.mp hm1⟩
    rw [UnionFind.label_eq_fold, ← hst, hr3', hrr, hr]

theorem count_labels_of_range {L : LabelImage} {K : Nat}
    (h : ∀ v : Int,
      (∃ c ∈ coords L.height L.width, L.lab c.1 c.2 = v ∧ v ≠ 0) ↔
      (1 ≤ v ∧ v ≤ (K : Int))) :
    L.count_labels = K := by
  rw [LabelImage.count_labels, ← List.card_toFinset]
  have hset : (((coords L.height L.width).map (fun c => L.lab c.1 c.2)).filter
      (fun v => 0 < v)).toFinset = Finset.Icc (1 : Int) (K : Int) := by
    apply Finset.ext
    intro v
    rw [List.mem_toFinset, List.mem_filter, List.mem_map, Finset.mem_Icc]
    constructor
    · rintro ⟨⟨c, hc, rfl⟩, hpos⟩
      have hpos' : 0 < L.lab c.1 c.2 := by
        simpa using hpos
      exact (h _).mp ⟨c, hc, rfl, by omega⟩
    · rintro ⟨hv1, hv2⟩
      obtain ⟨c, hc, hlab, hne⟩ := (h v).mpr ⟨hv1, hv2⟩
      exact ⟨⟨c, hc, hlab⟩, by simpa using by omega⟩
  rw [hset, Int.card_Icc]
  omega

theorem fg_bounds {a : Image} {x y : Nat} (h : a.pix x y ≠ 0) :
    x < a.height ∧ y < a.width := by
  constructor
  · by_contra hx
    exact h (a.pix_oob x y (Or.inl (Nat.le_of_not_lt hx)))
  · by_contra hy
    exact h (a.pix_oob x y (Or.inr (Nat.le_of_not_lt hy)))

theorem mem_ite_singleton_of {α : Type} {p : Prop} [Decidable p] {z : α} (hp : p) :
    z ∈ if p then [z] else [] := by
  rw [if_pos hp]
  exact List.mem_singleton_self z

theorem mem_ite_singleton_iff {α : Type} {p : Prop} [Decidable p] {z nb : α} :
    (nb ∈ if p then [z] else []) ↔ p ∧ nb = z := by
  constructor
  · intro h
    obtain ⟨h1, h2⟩ := mem_ite_singleton h
    exact ⟨h2, h1⟩
  · rintro ⟨hp, rfl⟩
    exact mem_ite_singleton_of hp

theorem mem_get_neighbors_4 {x y w h : Nat} {d : Nat × Nat} :
    d ∈ get_neighbors x y w h 4 ↔
      (0 < x ∧ d = (x - 1, y)) ∨ (x < h - 1 ∧ d = (x + 1, y)) ∨
      (y < w - 1 ∧ d = (x, y + 1)) ∨ (0 < y ∧ d = (x, y - 1)) := by
  rw [get_neighbors, if_pos rfl]
  simp only [List.mem_append, mem_ite_singleton_iff, or_assoc]

theorem mem_get_neighbors_8 {x y w h : Nat} {d : Nat × Nat} :
    d ∈ get_neighbors x y w h 8 ↔
      ((0 < x ∧ x - 1 < h ∧ 0 < y ∧ y - 1 < w) ∧ d = (x - 1, y - 1)) ∨
      ((0 < x ∧ x - 1 < h ∧ y < w) ∧ d = (x - 1, y)) ∨
      ((0 < x ∧ x - 1 < h ∧ y + 1 < w) ∧ d = (x - 1, y + 1)) ∨
      ((x < h ∧ 0 < y ∧ y - 1 < w) ∧ d = (x, y - 1)) ∨
      ((x < h ∧ y + 1 < w) ∧ d = (x, y + 1)) ∨
      ((x + 1 < h ∧ 0 < y ∧ y - 1 < w) ∧ d = (x + 1, y - 1)) ∨
      ((x + 1 < h ∧ y < w) ∧ d = (x + 1, y)) ∨
      ((x + 1 < h ∧ y + 1 < w) ∧ d = (x + 1, y + 1)) := by
  rw [get_neighbors, if_neg (by norm_num), if_pos rfl]
  simp only [List.mem_append, mem_ite_singleton_iff, or_assoc]

theorem get_neighbors_other {x y w h : Nat} {conn : Int} (h4 : conn ≠ 4)
    (h8 : conn ≠ 8) : get_neighbors x y w h conn = [] := by
  rw [get_neighbors, if_neg h4, if_neg h8]

theorem mem_causalFgNeighbors_4 {a : Image} {x y : Nat} {d : Nat × Nat} :
    d ∈ causalFgNeighbors a 4 x y ↔
      ((0 < x ∧ a.pix (x - 1) y ≠ 0) ∧ d = (x - 1, y)) ∨
      ((0 < y ∧ a.pix x (y - 1) ≠ 0) ∧ d = (x, y - 1)) := by
  rw [causalFgNeighbors, if_pos rfl]
  simp only [List.mem_append, mem_ite_singleton_iff, or_assoc]

theorem mem_causalFgNeighbors_8 {a : Image} {x y : Nat} {d : Nat × Nat} :
    d ∈ causalFgNeighbors a 8 x y ↔
      ((0 < x ∧ 0 < y ∧ a.pix (x - 1) (y - 1) ≠ 0) ∧ d = (x - 1, y - 1)) ∨
      ((0 < x ∧ a.pix (x - 1) y ≠ 0) ∧ d = (x - 1, y)) ∨
      ((0 < x ∧ y < a.width - 1 ∧ a.pix (x - 1) (y + 1) ≠ 0) ∧ d = (x - 1, y + 1)) ∨
      ((0 < y ∧ a.pix x (y - 1) ≠ 0) ∧ d = (x, y - 1)) := by
  rw [causalFgNeighbors, if_neg (by norm_num), if_pos rfl]
  simp only [List.mem_append, mem_ite_singleton_iff, or_assoc]

theorem causalFgNeighbors_other {a : Image} {x y : Nat} {conn : Int}
    (h4 : conn ≠ 4) (h8 : conn ≠ 8) : causalFgNeighbors a conn x y = [] := by
  rw [causalFgNeighbors, if_neg h4, if_neg h8]

theorem adjacent_symm {a : Image} {conn : Int} {c d : Nat × Nat}
    (h : Adjacent a conn c d) : Adjacent a conn d c := by
  obtain ⟨hfc, hfd, hmem⟩ := h
  refine ⟨hfd, hfc, ?_⟩
  obtain ⟨hch, hcw⟩ := fg_bounds hfc
  obtain ⟨hdh, hdw⟩ := fg_bounds hfd
  by_cases h4 : conn = 4
  · subst h4
    rw [mem_get_neighbors_4] at hmem
    rw [mem_get_neighbors_4]
    rcases hmem with ⟨h1, rfl⟩ | ⟨h1, rfl⟩ | ⟨h1, rfl⟩ | ⟨h1, rfl⟩
    · exact Or.inr (Or.inl ⟨by omega, Prod.ext (by omega) (by omega)⟩)
    · exact Or.inl ⟨by omega, Prod.ext (by omega) (by omega)⟩
    · exact Or.inr (Or.inr (Or.inr ⟨by omega, Prod.ext (by omega) (by omega)⟩))
    · exact Or.inr (Or.inr (Or.inl ⟨by omega, Prod.ext (by omega) (by omega)⟩))
  · by_cases h8 : conn = 8
    · subst h8
      rw [mem_get_neighbors_8] at hmem
      rw [mem_get_neighbors_8]
      rcases hmem with ⟨h1, rfl⟩ | ⟨h1, rfl⟩ | ⟨h1, rfl⟩ | ⟨h1, rfl⟩ |
        ⟨h1, rfl⟩ | ⟨h1, rfl⟩ | ⟨h1, rfl⟩ | ⟨h1, rfl⟩
      · exact Or.inr (Or.inr (Or.inr (Or.inr (Or.inr (Or.inr (Or.inr
          ⟨by omega, Prod.ext (by omega) (by omega)⟩))))))
      · exact Or.inr (Or.inr (Or.inr (Or.inr (Or.inr (Or.inr (Or.inl
          ⟨by omega, Prod.ext (by omega) (by omega)⟩))))))
      · exact Or.inr (Or.inr (Or.inr (Or.inr (Or.inr (Or.inl
          ⟨by omega, Prod.ext (by omega) (by omega)⟩)))))
      · exact Or.inr (Or.inr (Or.inr (Or.inr (Or.inl
          ⟨by omega, Prod.ext (by omega) (by omega)⟩))))
      · exact Or.inr (Or.inr (Or.inr (Or.inl ⟨by omega, Prod.ext (by omega) (by omega)⟩)))
      · exact Or.inr (Or.inr (Or.inl ⟨by omega, Prod.ext (by omega) (by omega)⟩))
      · exact Or.inr (Or.inl ⟨by omega, Prod.ext (by omega) (by omega)⟩)
      · exact Or.inl ⟨by omega, Prod.ext (by omega) (by omega)⟩
    · rw [get_neighbors_other h4 h8] at hmem
      simp at hmem

theorem causal_adjacent {a : Image} {conn : Int} {c d : Nat × Nat}
    (hfc : a.pix c.1 c.2 ≠ 0) (hd : d ∈ causalFgNeighbors a conn c.1 c.2) :
    Adjacent a conn c d := by
  obtain ⟨hch, hcw⟩ := fg_bounds hfc
  by_cases h4 : conn = 4
  · subst h4
    rw [mem_causalFgNeighbors_4] at hd
    rcases hd with ⟨⟨h1, h2⟩, rfl⟩ | ⟨⟨h1, h2⟩, rfl⟩
    · exact ⟨hfc, h2, by rw [mem_get_neighbors_4]; exact Or.inl ⟨h1, rfl⟩⟩
    · exact ⟨hfc, h2, by
        rw [mem_get_neighbors_4]
        exact Or.inr (Or.inr (Or.inr ⟨h1, rfl⟩))⟩
  · by_cases h8 : conn = 8
    · subst h8
      rw [mem_causalFgNeighbors_8] at hd
      rcases hd with ⟨⟨h1, h2, h3⟩, rfl⟩ | ⟨⟨h1, h2⟩, rfl⟩ |
        ⟨⟨h1, h2, h3⟩, rfl⟩ | ⟨⟨h1, h2⟩, rfl⟩
      · exact ⟨hfc, h3, by
          rw [mem_get_neighbors_8]
          exact Or.inl ⟨by omega, rfl⟩⟩
      · exact ⟨hfc, h2, by
          rw [mem_get_neighbors_8]
          exact Or.inr (Or.inl ⟨by omega, rfl⟩)⟩
      · exact ⟨hfc, h3, by
          rw [mem_get_neighbors_8]
          exact Or.inr (Or.inr (Or.inl ⟨by omega, rfl⟩))⟩
      · exact ⟨hfc, h2, by
          rw [mem_get_neighbors_8]
          exact Or.inr (Or.inr (Or.inr (Or.inl ⟨by omega, rfl⟩)))⟩
    · rw [causalFgNeighbors_other h4 h8] at hd
      simp at hd

theorem adjacent_causal {a : Image} {conn : Int} {c d : Nat × Nat}
    (h : Adjacent a conn c d) :
    d ∈ causalFgNeighbors a conn c.1 c.2 ∨ c ∈ causalFgNeighbors a conn d.1 d.2 := by
  obtain ⟨hfc, hfd, hmem⟩ := h
  obtain ⟨hch, hcw⟩ := fg_bounds hfc
  by_cases h4 : conn = 4
  · subst h4
    rw [mem_get_neighbors_4] at hmem
    rcases hmem with ⟨h1, rfl⟩ | ⟨h1, rfl⟩ | ⟨h1, rfl⟩ | ⟨h1, rfl⟩
    · refine Or.inl ?_
      rw [mem_causalFgNeighbors_4]
      exact Or.inl ⟨⟨h1, hfd⟩, rfl⟩
    · refine Or.inr ?_
      rw [mem_causalFgNeighbors_4]
      refine Or.inl ⟨⟨by omega, ?_⟩, Prod.ext (by omega) (by omega)⟩
      have he : (c.1 + 1 : Nat) - 1 = c.1 := by omega
      rw [he]
      exact hfc
    · refine Or.inr ?_
      rw [mem_causalFgNeighbors_4]
      refine Or.inr ⟨⟨by omega, ?_⟩, Prod.ext (by omega) (by omega)⟩
      have he : (c.2 + 1 : Nat) - 1 = c.2 := by omega
      rw [he]
      exact hfc
    · refine Or.inl ?_
      rw [mem_causalFgNeighbors_4]
      exact Or.inr ⟨⟨h1, hfd⟩, rfl⟩
  · by_cases h8 : conn = 8
    · subst h8
      rw [mem_get_neighbors_8] at hmem
      rcases hmem with ⟨h1, rfl⟩ | ⟨h1, rfl⟩ | ⟨h1, rfl⟩ | ⟨h1, rfl⟩ |
        ⟨h1, rfl⟩ | ⟨h1, rfl⟩ | ⟨h1, rfl⟩ | ⟨h1, rfl⟩
      · refine Or.inl ?_
        rw [mem_causalFgNeighbors_8]
        exact Or.inl ⟨⟨by omega, by omega, hfd⟩, rfl⟩
      · refine Or.inl ?_
        rw [mem_causalFgNeighbors_8]
        exact Or.inr (Or.inl ⟨⟨by omega, hfd⟩, rfl⟩)
      · refine Or.inl ?_
        rw [mem_causalFgNeighbors_8]
        exact Or.inr (Or.inr (Or.inl ⟨⟨by omega, by omega, hfd⟩, rfl⟩))
      · refine Or.inl ?_
        rw [mem_causalFgNeighbors_8]
        exact Or.inr (Or.inr (Or.inr ⟨⟨by omega, hfd⟩, rfl⟩))
      · refine Or.inr ?_
        rw [mem_causalFgNeighbors_8]
        refine Or.inr (Or.inr (Or.inr ⟨⟨by omega, ?_⟩, Prod.ext (by omega) (by omega)⟩))
        have he : (c.2 + 1 : Nat) - 1 = c.2 := by omega
        rw [he]
        exact hfc
      · refine Or.inr ?_
        rw [mem_causalFgNeighbors_8]
        refine Or.inr (Or.inr (Or.inl ⟨⟨by omega, by omega, ?_⟩,
          Prod.ext (by omega) (by omega)⟩))
        have he1 : (c.1 + 1 : Nat) - 1 = c.1 := by omega
        have he2 : (c.2 - 1 : Nat) + 1 = c.2 := by omega
        rw [he1, he2]
        exact hfc
      · refine Or.inr ?_
        rw [mem_causalFgNeighbors_8]
        refine Or.inr (Or.inl ⟨⟨by omega, ?_⟩, Prod.ext (by omega) (by omega)⟩)
        have he : (c.1 + 1 : Nat) - 1 = c.1 := by omega
        rw [he]
        exact hfc
      · refine Or.inr ?_
        rw [mem_causalFgNeighbors_8]
        refine Or.inl ⟨⟨by omega, by omega, ?_⟩, Prod.ext (by omega) (by omega)⟩
        have he1 : (c.1 + 1 : Nat) - 1 = c.1 := by omega
        have he2 : (c.2 + 1 : Nat) - 1 = c.2 := by omega
        rw [he1, he2]
        exact hfc
    · rw [get_neighbors_other h4 h8] at hmem
      simp at hmem

theorem connected_symm {a : Image} {conn : Int} {c d : Nat × Nat}
    (h : Connected a conn c d) : Connected a conn d c :=
  Relation.ReflTransGen.symmetric (fun _ _ hab => adjacent_symm hab) h

theorem connected_other {a : Image} {conn : Int} (h4 : conn ≠ 4) (h8 : conn ≠ 8)
    {c d : Nat × Nat} : Connected a conn c d ↔ c = d := by
  constructor
  · intro h
    induction h with
    | refl => rfl
    | tail _ hstep ih =>
      obtain ⟨_, _, hmem⟩ := hstep
      rw [get_neighbors_other h4 h8] at hmem
      simp at hmem
  · rintro rfl
    exact Relation.ReflTransGen.refl

theorem mem_causalPairs {a : Image} {conn : Int} {q : Nat × Nat} :
    q ∈ causalPairs a conn ↔
      ∃ c nb : Nat × Nat, c.1 < a.height ∧ c.2 < a.width ∧ a.pix c.1 c.2 ≠ 0 ∧
        nb ∈ causalFgNeighbors a conn c.1 c.2 ∧
        q = (get_index c.1 c.2 a.width, get_index nb.1 nb.2 a.width) := by
  rw [causalPairs, List.mem_flatMap]
  constructor
  · rintro ⟨c, hc, hq⟩
    obtain ⟨h1, h2⟩ := mem_coords.mp hc
    by_cases hp : a.pix c.1 c.2 = 0
    · rw [if_pos hp] at hq
      simp at hq
    · rw [if_neg hp, List.mem_map] at hq
      obtain ⟨nb, hnb, rfl⟩ := hq
      exact ⟨c, nb, h1, h2, hp, hnb, rfl⟩
  · rintro ⟨c, nb, h1, h2, hp, hnb, rfl⟩
    refine ⟨c, mem_coords.mpr ⟨h1, h2⟩, ?_⟩
    rw [if_neg hp, List.mem_map]
    exact ⟨nb, hnb, rfl⟩

theorem pairEquiv_causal_exists {a : Image} {conn : Int} {c : Nat × Nat}
    (hfc : a.pix c.1 c.2 ≠ 0) {z : Nat}
    (h : pairEquiv (causalPairs a conn) (get_index c.1 c.2 a.width) z) :
    ∃ e : Nat × Nat, a.pix e.1 e.2 ≠ 0 ∧ z = get_index e.1 e.2 a.width ∧
      Connected a conn c e := by
  induction h with
  | refl => exact ⟨c, hfc, rfl, Relation.ReflTransGen.refl⟩
  | tail hcb hstep ih =>
    rename_i b z'
    obtain ⟨e, hfe, rfl, hce⟩ := ih
    rcases hstep with hmem | hmem
    · rw [mem_causalPairs] at hmem
      obtain ⟨c1, nb, hb1, hb2, hfc1, hnb, hqe⟩ := hmem
      injection hqe with he hz
      obtain ⟨e1, e2⟩ := get_index_inj (fg_bounds hfe).2 hb2 he
      have hee : e = c1 := Prod.ext e1 e2
      subst hee
      have hadj : Adjacent a conn e nb := causal_adjacent hfc1 hnb
      exact ⟨nb, hadj.2.1, hz, hce.tail hadj⟩
    · rw [mem_causalPairs] at hmem
      obtain ⟨c1, nb, hb1, hb2, hfc1, hnb, hqe⟩ := hmem
      injection hqe with hz he
      obtain ⟨hn1, hn2⟩ := causalFgNeighbors_bounds hb1 hb2 nb hnb
      obtain ⟨e1, e2⟩ := get_index_inj (fg_bounds hfe).2 hn2 he
      have hee : e = nb := Prod.ext e1 e2
      subst hee
      have hadj : Adjacent a conn c1 e := causal_adjacent hfc1 hnb
      exact ⟨c1, hfc1, hz, hce.tail (adjacent_symm hadj)⟩

theorem connected_pairEquiv {a : Image} {conn : Int} {c e : Nat × Nat}
    (h : Connected a conn c e) :
    pairEquiv (causalPairs a conn) (get_index c.1 c.2 a.width)
      (get_index e.1 e.2 a.width) := by
  induction h with
  | refl => exact pairEquiv_refl _ _
  | tail hcb hstep ih =>
    rename_i b e'
    rcases adjacent_causal hstep with hm | hm
    · refine pairEquiv_trans ih (pairEquiv_single ?_)
      rw [mem_causalPairs]
      exact ⟨b, e', (fg_bounds hstep.1).1, (fg_bounds hstep.1).2, hstep.1, hm, rfl⟩
    · refine pairEquiv_trans ih (pairEquiv_symm (pairEquiv_single ?_))
      rw [mem_causalPairs]
      exact ⟨e', b, (fg_bounds hstep.2.1).1, (fg_bounds hstep.2.1).2, hstep.2.1, hm, rfl⟩

theorem pairEquiv_iff_connected {a : Image} {conn : Int} {c d : Nat × Nat}
    (hfc : a.pix c.1 c.2 ≠ 0) (hfd : a.pix d.1 d.2 ≠ 0) :
    pairEquiv (causalPairs a conn) (get_index c.1 c.2 a.width)
      (get_index d.1 d.2 a.width) ↔ Connected a conn c d := by
  constructor
  · intro h
    obtain ⟨e, hfe, he, hce⟩ := pairEquiv_causal_exists hfc h
    obtain ⟨e1, e2⟩ := get_index_inj (fg_bounds hfd).2 (fg_bounds hfe).2 he
    have hde : d = e := Prod.ext e1 e2
    rw [hde]
    exact hce
  · exact connected_pairEquiv

theorem bfsInv_intro {a : Image} {conn lbl : Int} {L0 : LabelImage}
    {s : Nat × Nat} {L : LabelImage} {q : List (Nat × Nat)}
    (hh : L.height = L0.height) (hw : L.width = L0.width)
    (hdiff : ∀ c : Nat × Nat, L.lab c.1 c.2 = L0.lab c.1 c.2 ∨
      (L0.lab c.1 c.2 = 0 ∧ L.lab c.1 c.2 = lbl ∧ a.pix c.1 c.2 ≠ 0 ∧
        Connected a conn s c))
    (hq : ∀ c ∈ q, L.lab c.1 c.2 = lbl)
    (hclosed : ∀ c : Nat × Nat, L.lab c.1 c.2 = lbl → c ∉ q →
      ∀ n ∈ get_neighbors c.1 c.2 a.width a.height conn,
        a.pix n.1 n.2 ≠ 0 → L.lab n.1 n.2 ≠ 0)
    (hs : L.lab s.1 s.2 = lbl) :
    BFSInv a conn lbl L0 s (L, q) :=
  ⟨hh, hw, hdiff, hq, hclosed, hs⟩

theorem bfsVisit_fold_rel {a : Image} {lbl : Int} (hl : lbl ≠ 0)
    (L : LabelImage) (rest full : List (Nat × Nat)) :
    ∀ (ns : List (Nat × Nat)), (∀ n ∈ ns, n ∈ full) →
    ∀ (st : LabelImage × List (Nat × Nat)),
      st.1.height = L.height → st.1.width = L.width →
      (∀ x : Nat × Nat, st.1.lab x.1 x.2 = L.lab x.1 x.2 ∨
        (L.lab x.1 x.2 = 0 ∧ st.1.lab x.1 x.2 = lbl ∧ a.pix x.1 x.2 ≠ 0 ∧
          x ∈ st.2)) →
      (∀ x ∈ st.2, x ∈ rest ∨
        (L.lab x.1 x.2 = 0 ∧ st.1.lab x.1 x.2 = lbl ∧ a.pix x.1 x.2 ≠ 0 ∧
          x ∈ full)) →
      (∀ x ∈ rest, x ∈ st.2) →
      (ns.foldl (Prim.bfsVisit a lbl) st).1.height = L.height ∧
      (ns.foldl (Prim.bfsVisit a lbl) st).1.width = L.width ∧
      (∀ x : Nat × Nat,
        (ns.foldl (Prim.bfsVisit a lbl) st).1.lab x.1 x.2 = L.lab x.1 x.2 ∨
        (L.lab x.1 x.2 = 0 ∧
          (ns.foldl (Prim.bfsVisit a lbl) st).1.lab x.1 x.2 = lbl ∧
          a.pix x.1 x.2 ≠ 0 ∧ x ∈ (ns.foldl (Prim.bfsVisit a lbl) st).2)) ∧
      (∀ x ∈ (ns.foldl (Prim.bfsVisit a lbl) st).2, x ∈ rest ∨
        (L.lab x.1 x.2 = 0 ∧
          (ns.foldl (Prim.bfsVisit a lbl) st).1.lab x.1 x.2 = lbl ∧
          a.pix x.1 x.2 ≠ 0 ∧ x ∈ full)) ∧
      (∀ x ∈ rest, x ∈ (ns.foldl (Prim.bfsVisit a lbl) st).2) ∧
      (∀ x : Nat × Nat, st.1.lab x.1 x.2 ≠ 0 →
        (ns.foldl (Prim.bfsVisit a lbl) st).1.lab x.1 x.2 = st.1.lab x.1 x.2) ∧
      (∀ n ∈ ns, a.pix n.1 n.2 ≠ 0 →
        (ns.foldl (Prim.bfsVisit a lbl) st).1.lab n.1 n.2 ≠ 0) := by
  intro ns
  induction ns with
  | nil =>
    intro _ st h1 h2 h3 h4 h5
    rw [List.foldl_nil]
    refine ⟨h1, h2, h3, h4, h5, fun x _ => rfl, ?_⟩
    intro n hn
    simp at hn
  | cons n ns ih =>
    intro hsub st h1 h2 h3 h4 h5
    obtain ⟨M, qacc⟩ := st
    replace h1 : M.height = L.height := h1
    replace h2 : M.width = L.width := h2
    replace h3 : ∀ x : Nat × Nat, M.lab x.1 x.2 = L.lab x.1 x.2 ∨
        (L.lab x.1 x.2 = 0 ∧ M.lab x.1 x.2 = lbl ∧ a.pix x.1 x.2 ≠ 0 ∧
          x ∈ qacc) := h3
    replace h4 : ∀ x ∈ qacc, x ∈ rest ∨
        (L.lab x.1 x.2 = 0 ∧ M.lab x.1 x.2 = lbl ∧ a.pix x.1 x.2 ≠ 0 ∧
          x ∈ full) := h4
    replace h5 : ∀ x ∈ rest, x ∈ qacc := h5
    rw [List.foldl_cons]
    by_cases hc : a.pix n.1 n.2 ≠ 0 ∧ M.lab n.1 n.2 = 0
    · have hstep : Prim.bfsVisit a lbl (M, qacc) n =
          (M.setL n.1 n.2 lbl, qacc ++ [n]) := by
        rw [Prim.bfsVisit]
        simp only [if_pos hc]
      have hLn : L.lab n.1 n.2 = 0 := by
        rcases h3 n with h | h
        · rw [← h]
          exact hc.2
        · rw [hc.2] at h
          exact absurd h.2.1.symm hl
      have hg1 : (M.setL n.1 n.2 lbl).height = L.height := by
        rw [LabelImage.setL_height]
        exact h1
      have hg2 : (M.setL n.1 n.2 lbl).width = L.width := by
        rw [LabelImage.setL_width]
        exact h2
      have hg3 : ∀ x : Nat × Nat,
          (M.setL n.1 n.2 lbl).lab x.1 x.2 = L.lab x.1 x.2 ∨
          (L.lab x.1 x.2 = 0 ∧ (M.setL n.1 n.2 lbl).lab x.1 x.2 = lbl ∧
            a.pix x.1 x.2 ≠ 0 ∧ x ∈ qacc ++ [n]) := by
        intro x
        by_cases hx : x.1 = n.1 ∧ x.2 = n.2
        · have hxn : x = n := Prod.ext hx.1 hx.2
          subst hxn
          refine Or.inr ⟨hLn, ?_, hc.1, by simp⟩
          rw [LabelImage.setL_lab_same]
        · rw [LabelImage.setL_lab_other _ _ hx]
          rcases h3 x with h | h
          · exact Or.inl h
          · exact Or.inr ⟨h.1, h.2.1, h.2.2.1, List.mem_append_left _ h.2.2.2⟩
      have hg4 : ∀ x ∈ qacc ++ [n], x ∈ rest ∨
          (L.lab x.1 x.2 = 0 ∧ (M.setL n.1 n.2 lbl).lab x.1 x.2 = lbl ∧
            a.pix x.1 x.2 ≠ 0 ∧ x ∈ full) := by
        intro x hx
        rcases List.mem_append.mp hx with hx | hx
        · rcases h4 x hx with h | h
          · exact Or.inl h
          · refine Or.inr ⟨h.1, ?_, h.2.2.1, h.2.2.2⟩
            have hxn : ¬ (x.1 = n.1 ∧ x.2 = n.2) := by
              rintro ⟨e1, e2⟩
              have : x = n := Prod.ext e1 e2
              subst this
              rw [hc.2] at h
              exact hl h.2.1.symm
            rw [LabelImage.setL_lab_other _ _ hxn]
            exact h.2.1
        · have hxn : x = n := by
            simpa using hx
          subst hxn
          refine Or.inr ⟨hLn, ?_, hc.1, hsub x (List.mem_cons_self x ns)⟩
          rw [LabelImage.setL_lab_same]
      have hg5 : ∀ x ∈ rest, x ∈ qacc ++ [n] := by
        intro x hx
        exact List.mem_append_left _ (h5 x hx)
      have hres := ih (fun m hm => hsub m (List.mem_cons_of_mem n hm))
        (M.setL n.1 n.2 lbl, qacc ++ [n]) hg1 hg2 hg3 hg4 hg5
      obtain ⟨k1, k2, k3, k4, k5, k6, k7⟩ := hres
      rw [hstep]
      have hmono : ∀ x : Nat × Nat, M.lab x.1 x.2 ≠ 0 →
          (ns.foldl (Prim.bfsVisit a lbl) (M.setL n.1 n.2 lbl, qacc ++ [n])).1.lab
            x.1 x.2 = M.lab x.1 x.2 := by
        intro x hx
        have hxn : ¬ (x.1 = n.1 ∧ x.2 = n.2) := by
          rintro ⟨e1, e2⟩
          have : x = n := Prod.ext e1 e2
          subst this
          exact hx hc.2
        have hMx : (M.setL n.1 n.2 lbl).lab x.1 x.2 = M.lab x.1 x.2 :=
          LabelImage.setL_lab_other _ _ hxn
        rw [k6 x (by rw [hMx]; exact hx), hMx]
      refine ⟨k1, k2, k3, k4, k5, hmono, ?_⟩
      intro m hm hfm
      rcases List.mem_cons.mp hm with hmn | hmn
      · subst hmn
        have hMn : (M.setL m.1 m.2 lbl).lab m.1 m.2 = lbl :=
          LabelImage.setL_lab_same ..
        rw [k6 m (by rw [hMn]; exact hl)]
        rw [hMn]
        exact hl
      · exact k7 m hmn hfm
    · have hstep : Prim.bfsVisit a lbl (M, qacc) n = (M, qacc) := by
        rw [Prim.bfsVisit]
        simp only [if_neg hc]
      rw [hstep]
      have hres := ih (fun m hm => hsub m (List.mem_cons_of_mem n hm))
        (M, qacc) h1 h2 h3 h4 h5
      obtain ⟨k1, k2, k3, k4, k5, k6, k7⟩ := hres
      refine ⟨k1, k2, k3, k4, k5, k6, ?_⟩
      intro m hm hfm
      rcases List.mem_cons.mp hm with hmn | hmn
      · subst hmn
        have hMm : M.lab m.1 m.2 ≠ 0 := by
          intro h0
          exact hc ⟨hfm, h0⟩
        rw [k6 m hMm]
        exact hMm
      · exact k7 m hmn hfm

theorem bfsLoopF_spec {a : Image} {conn : Int} {lbl : Int} (hl : lbl ≠ 0)
    {L0 : LabelImage} (hfresh : ∀ c : Nat × Nat, L0.lab c.1 c.2 ≠ lbl)
    {s : Nat × Nat} :
    ∀ (fuel : Nat) (L : LabelImage) (q : List (Nat × Nat)),
      countZeroA a L + q.length ≤ fuel →
      BFSInv a conn lbl L0 s (L, q) →
      BFSInv a conn lbl L0 s (Prim.bfsLoopF a lbl conn fuel L q, []) := by
  intro fuel
  induction fuel with
  | zero =>
    intro L q hm hinv
    cases q with
    | nil => exact hinv
    | cons c rest =>
      rw [List.length_cons] at hm
      omega
  | succ fuel ih =>
    intro L q hm hinv
    cases q with
    | nil => exact hinv
    | cons c rest =>
      obtain ⟨hh, hw, hdiff, hq, hclosed, hs⟩ := hinv
      replace hh : L.height = L0.height := hh
      replace hw : L.width = L0.width := hw
      replace hdiff : ∀ x : Nat × Nat, L.lab x.1 x.2 = L0.lab x.1 x.2 ∨
          (L0.lab x.1 x.2 = 0 ∧ L.lab x.1 x.2 = lbl ∧ a.pix x.1 x.2 ≠ 0 ∧
            Connected a conn s x) := hdiff
      replace hq : ∀ x ∈ c :: rest, L.lab x.1 x.2 = lbl := hq
      replace hclosed : ∀ x : Nat × Nat, L.lab x.1 x.2 = lbl → x ∉ c :: rest →
          ∀ n ∈ get_neighbors x.1 x.2 a.width a.height conn,
            a.pix n.1 n.2 ≠ 0 → L.lab n.1 n.2 ≠ 0 := hclosed
      replace hs : L.lab s.1 s.2 = lbl := hs
      have heq : Prim.bfsLoopF a lbl conn (fuel + 1) L (c :: rest) =
          Prim.bfsLoopF a lbl conn fuel
            ((get_neighbors c.1 c.2 a.width a.height conn).foldl
              (Prim.bfsVisit a lbl) (L, rest)).1
            ((get_neighbors c.1 c.2 a.width a.height conn).foldl
              (Prim.bfsVisit a lbl) (L, rest)).2 := rfl
      rw [heq]
      have hcq : L.lab c.1 c.2 = lbl := hq c (List.mem_cons_self c rest)
      have hcase : a.pix c.1 c.2 ≠ 0 ∧ Connected a conn s c := by
        rcases hdiff c with h | h
        · rw [hcq] at h
          exact absurd h.symm (hfresh c)
        · exact ⟨h.2.2.1, h.2.2.2⟩
      obtain ⟨g1, g2, g3, g4, g5, g6, g7⟩ := bfsVisit_fold_rel hl L rest
        (get_neighbors c.1 c.2 a.width a.height conn)
        (get_neighbors c.1 c.2 a.width a.height conn) (fun n hn => hn)
        (L, rest) rfl rfl (fun x => Or.inl rfl) (fun x hx => Or.inl hx)
        (fun x hx => hx)
      have hmeas : countZeroA a ((get_neighbors c.1 c.2 a.width a.height conn).foldl
            (Prim.bfsVisit a lbl) (L, rest)).1 +
          ((get_neighbors c.1 c.2 a.width a.height conn).foldl
            (Prim.bfsVisit a lbl) (L, rest)).2.length ≤ fuel := by
        have := foldl_bfsVisit_measure a hl
          (get_neighbors c.1 c.2 a.width a.height conn) (L, rest)
        rw [List.length_cons] at hm
        have hr : countZeroA a (L, rest).1 + (L, rest).2.length =
            countZeroA a L + rest.length := rfl
        omega
      apply ih _ _ hmeas
      refine bfsInv_intro (g1.trans hh) (g2.trans hw) ?_ ?_ ?_ ?_
      · intro x
        rcases g3 x with h | h
        · rw [h]
          exact hdiff x
        · obtain ⟨hLx, hlblx, hfgx, hxq⟩ := h
          have hL0x : L0.lab x.1 x.2 = 0 := by
            rcases hdiff x with h' | h'
            · rw [← h']
              exact hLx
            · rw [hLx] at h'
              exact absurd h'.2.1.symm hl
          have hconnx : Connected a conn s x := by
            rcases g4 x hxq with h' | h'
            · have := hq x (List.mem_cons_of_mem c h')
              rw [hLx] at this
              exact absurd this.symm hl
            · refine hcase.2.tail ?_
              exact ⟨hcase.1, h'.2.2.1, h'.2.2.2⟩
          exact Or.inr ⟨hL0x, hlblx, hfgx, hconnx⟩
      · intro x hx
        rcases g4 x hx with h | h
        · have hxl : L.lab x.1 x.2 = lbl := hq x (List.mem_cons_of_mem c h)
          rw [g6 x (by rw [hxl]; exact hl)]
          exact hxl
        · exact h.2.1
      · intro d hd hdq n' hn' hfg'
        have hLd : L.lab d.1 d.2 = lbl := by
          rcases g3 d with h | h
          · rw [← h]
            exact hd
          · exact absurd h.2.2.2 hdq
        by_cases hdc : d = c
        · subst hdc
          exact g7 n' hn' hfg'
        · have hdrest : d ∉ c :: rest := by
            intro hmem
            rcases List.mem_cons.mp hmem with h | h
            · exact hdc h
            · exact hdq (g5 d h)
          have := hclosed d hLd hdrest n' hn' hfg'
          rw [g6 n' this]
          exact this
      · rw [g6 s (by rw [hs]; exact hl)]
        exact hs

theorem bfs_spec {a : Image} {conn : Int} {lbl : Int} (hl : lbl ≠ 0)
    {L0 : LabelImage} (hfresh : ∀ c : Nat × Nat, L0.lab c.1 c.2 ≠ lbl)
    {s : Nat × Nat} (hfgs : a.pix s.1 s.2 ≠ 0) (h0s : L0.lab s.1 s.2 = 0) :
    BFSInv a conn lbl L0 s (Prim.bfs a L0 s.1 s.2 lbl conn, []) := by
  rw [Prim.bfs, Prim.bfsLoop]
  apply bfsLoopF_spec hl hfresh _ _ _ (le_refl _)
  refine bfsInv_intro (LabelImage.setL_height ..) (LabelImage.setL_width ..)
    ?_ ?_ ?_ ?_
  · intro x
    by_cases hx : x.1 = s.1 ∧ x.2 = s.2
    · have hxs : x = s := Prod.ext hx.1 hx.2
      subst hxs
      refine Or.inr ⟨h0s, ?_, hfgs, Relation.ReflTransGen.refl⟩
      rw [LabelImage.setL_lab_same]
    · rw [LabelImage.setL_lab_other _ _ hx]
      exact Or.inl rfl
  · intro x hx
    have hxs : x = (s.1, s.2) := by
      simpa using hx
    subst hxs
    exact LabelImage.setL_lab_same ..
  · intro x hxl hxq
    by_cases hx : x.1 = s.1 ∧ x.2 = s.2
    · exact absurd (by simpa using Prod.ext hx.1 hx.2) hxq
    · rw [LabelImage.setL_lab_other _ _ hx] at hxl
      exact absurd hxl (hfresh x)
  · exact LabelImage.setL_lab_same ..

theorem bfsInv_component_painted {a : Image} {conn : Int} {lbl : Int}
    (hl : lbl ≠ 0) {L0 : LabelImage}
    (hfresh : ∀ c : Nat × Nat, L0.lab c.1 c.2 ≠ lbl)
    (hD0 : ∀ c d : Nat × Nat, L0.lab c.1 c.2 ≠ 0 → Adjacent a conn c d →
      L0.lab d.1 d.2 = L0.lab c.1 c.2)
    {s : Nat × Nat} {Lf : LabelImage}
    (hfinal : BFSInv a conn lbl L0 s (Lf, [])) :
    ∀ c : Nat × Nat, Connected a conn s c → Lf.lab c.1 c.2 = lbl := by
  have hsf : Lf.lab s.1 s.2 = lbl := hfinal.hs
  have hdiff : ∀ c : Nat × Nat, Lf.lab c.1 c.2 = L0.lab c.1 c.2 ∨
      (L0.lab c.1 c.2 = 0 ∧ Lf.lab c.1 c.2 = lbl ∧ a.pix c.1 c.2 ≠ 0 ∧
        Connected a conn s c) := hfinal.hdiff
  have hclosed : ∀ c : Nat × Nat, Lf.lab c.1 c.2 = lbl → c ∉ ([] : List (Nat × Nat)) →
      ∀ n ∈ get_neighbors c.1 c.2 a.width a.height conn,
        a.pix n.1 n.2 ≠ 0 → Lf.lab n.1 n.2 ≠ 0 := hfinal.hclosed
  intro c hc
  induction hc with
  | refl => exact hsf
  | tail hsb hstep ih =>
    rename_i b e
    have hfe : a.pix e.1 e.2 ≠ 0 := hstep.2.1
    have hne : Lf.lab e.1 e.2 ≠ 0 := by
      refine hclosed b ih (by simp) e hstep.2.2 hfe
    rcases hdiff e with h | h
    · have h0e : L0.lab e.1 e.2 ≠ 0 := by
        rw [← h]
        exact hne
      have h0b : L0.lab b.1 b.2 = L0.lab e.1 e.2 :=
        hD0 e b h0e (adjacent_symm hstep)
      rcases hdiff b with hb | hb
      · rw [ih] at hb
        exact absurd hb.symm (hfresh b)
      · rw [hb.1] at h0b
        exact absurd h0b.symm h0e
    · exact h.2.1

theorem connected_label_eq {a : Image} {conn : Int} {L : LabelImage}
    (hcl : ∀ c d : Nat × Nat, L.lab c.1 c.2 ≠ 0 → Adjacent a conn c d →
      L.lab d.1 d.2 = L.lab c.1 c.2)
    {c d : Nat × Nat} (h : Connected a conn c d) (h0 : L.lab c.1 c.2 ≠ 0) :
    L.lab d.1 d.2 = L.lab c.1 c.2 := by
  induction h with
  | refl => rfl
  | tail hcb hstep ih =>
    rename_i b e
    rw [hcl b e (by rw [ih]; exact h0) hstep, ih]

theorem primInv_intro {a : Image} {conn : Int} {done : List (Nat × Nat)}
    {L : LabelImage} {m : Nat}
    (hh : L.height = a.height) (hw : L.width = a.width)
    (hbg : ∀ i j, a.pix i j = 0 → L.lab i j = 0)
    (hrange : ∀ i j, L.lab i j ≠ 0 →
      ∃ v : Nat, 1 ≤ v ∧ v ≤ m ∧ L.lab i j = (v : Int))
    (hclosed : ∀ c d : Nat × Nat, L.lab c.1 c.2 ≠ 0 → Adjacent a conn c d →
      L.lab d.1 d.2 = L.lab c.1 c.2)
    (hrep : ∀ v : Nat, 1 ≤ v → v ≤ m → ∃ s : Nat × Nat, a.pix s.1 s.2 ≠ 0 ∧
      L.lab s.1 s.2 = (v : Int) ∧
      ∀ c : Nat × Nat, L.lab c.1 c.2 = (v : Int) → Connected a conn s c)
    (hdone : ∀ c ∈ done, a.pix c.1 c.2 ≠ 0 → L.lab c.1 c.2 ≠ 0) :
    PrimInv a conn done (L, m) :=
  ⟨hh, hw, hbg, hrange, hclosed, hrep, hdone⟩

theorem primStep_inv {a : Image} {conn : Int} {done : List (Nat × Nat)}
    {st : LabelImage × Nat} {c : Nat × Nat}
    (hinv : PrimInv a conn done st) :
    PrimInv a conn (done ++ [c]) (Prim.scanStep a conn st c) := by
  obtain ⟨M, m⟩ := st
  obtain ⟨hh, hw, hbg, hrange, hclosed, hrep, hdone⟩ := hinv
  replace hh : M.height = a.height := hh
  replace hw : M.width = a.width := hw
  replace hbg : ∀ i j, a.pix i j = 0 → M.lab i j = 0 := hbg
  replace hrange : ∀ i j, M.lab i j ≠ 0 →
      ∃ v : Nat, 1 ≤ v ∧ v ≤ m ∧ M.lab i j = (v : Int) := hrange
  replace hclosed : ∀ c' d' : Nat × Nat, M.lab c'.1 c'.2 ≠ 0 →
      Adjacent a conn c' d' → M.lab d'.1 d'.2 = M.lab c'.1 c'.2 := hclosed
  replace hrep : ∀ v : Nat, 1 ≤ v → v ≤ m → ∃ s : Nat × Nat,
      a.pix s.1 s.2 ≠ 0 ∧ M.lab s.1 s.2 = (v : Int) ∧
      ∀ c' : Nat × Nat, M.lab c'.1 c'.2 = (v : Int) →
        Connected a conn s c' := hrep
  replace hdone : ∀ c' ∈ done, a.pix c'.1 c'.2 ≠ 0 → M.lab c'.1 c'.2 ≠ 0 := hdone
  by_cases hcond : a.pix c.1 c.2 ≠ 0 ∧ M.lab c.1 c.2 = 0
  · have hstep : Prim.scanStep a conn (M, m) c =
        (Prim.bfs a M c.1 c.2 ((m + 1 : Nat) : Int) conn, m + 1) := by
      rw [Prim.scanStep]
      simp only [if_pos hcond]
    rw [hstep]
    have hl : ((m + 1 : Nat) : Int) ≠ 0 := by
      exact_mod_cast Nat.succ_ne_zero m
    have hfresh : ∀ x : Nat × Nat, M.lab x.1 x.2 ≠ ((m + 1 : Nat) : Int) := by
      intro x hx
      by_cases h0 : M.lab x.1 x.2 = 0
      · rw [h0] at hx
        exact hl hx.symm
      · obtain ⟨v, hv1, hv2, hveq⟩ := hrange x.1 x.2 h0
        rw [hveq] at hx
        have hv : v = m + 1 := by exact_mod_cast hx
        omega
    have hbfs := @bfs_spec a conn _ hl M hfresh c hcond.1 hcond.2
    have hpainted := bfsInv_component_painted hl hfresh hclosed hbfs
    have hdiff : ∀ x : Nat × Nat,
        (Prim.bfs a M c.1 c.2 ((m + 1 : Nat) : Int) conn).lab x.1 x.2 =
          M.lab x.1 x.2 ∨
        (M.lab x.1 x.2 = 0 ∧
          (Prim.bfs a M c.1 c.2 ((m + 1 : Nat) : Int) conn).lab x.1 x.2 =
            ((m + 1 : Nat) : Int) ∧
          a.pix x.1 x.2 ≠ 0 ∧ Connected a conn c x) := hbfs.hdiff
    have hhf : (Prim.bfs a M c.1 c.2 ((m + 1 : Nat) : Int) conn).height =
        M.height := hbfs.hh
    have hwf : (Prim.bfs a M c.1 c.2 ((m + 1 : Nat) : Int) conn).width =
        M.width := hbfs.hw
    refine primInv_intro (hhf.trans hh) (hwf.trans hw) ?_ ?_ ?_ ?_ ?_
    · intro i j hp
      rcases hdiff (i, j) with hd | hd
      · replace hd : (Prim.bfs a M c.1 c.2 ((m + 1 : Nat) : Int) conn).lab i j =
            M.lab i j := hd
        rw [hd]
        exact hbg i j hp
      · exact absurd hp hd.2.2.1
    · intro i j hne
      rcases hdiff (i, j) with hd | hd
      · replace hd : (Prim.bfs a M c.1 c.2 ((m + 1 : Nat) : Int) conn).lab i j =
            M.lab i j := hd
        rw [hd] at hne ⊢
        obtain ⟨v, hv1, hv2, hveq⟩ := hrange i j hne
        exact ⟨v, hv1, by omega, hveq⟩
      · refine ⟨m + 1, by omega, le_refl _, ?_⟩
        exact hd.2.1
    · intro c' d' hne hadj
      rcases hdiff c' with hd | hd
      · rw [hd] at hne ⊢
        have hMd := hclosed c' d' hne hadj
        rcases hdiff d' with hd' | hd'
        · rw [hd', hMd]
        · rw [hMd] at hd'
          exact absurd hne (by rw [hd'.1.symm] at hne ⊢; exact fun h => h rfl)
      · have hconn : Connected a conn c d' := hd.2.2.2.tail hadj
        rw [hd.2.1, hpainted d' hconn]
    · intro v hv1 hv2
      rcases Nat.lt_or_ge v (m + 1) with hvm | hvm
      · obtain ⟨sv, hfg_sv, hlab_sv, hall⟩ := hrep v hv1 (by omega)
        have hsvne : M.lab sv.1 sv.2 ≠ 0 := by
          rw [hlab_sv]
          exact_mod_cast Nat.one_le_iff_ne_zero.mp hv1
        have hLf_sv : (Prim.bfs a M c.1 c.2 ((m + 1 : Nat) : Int) conn).lab
            sv.1 sv.2 = (v : Int) := by
          rcases hdiff sv with hd | hd
          · rw [hd]
            exact hlab_sv
          · exact absurd hd.1 hsvne
        refine ⟨sv, hfg_sv, hLf_sv, ?_⟩
        intro x hx
        have hvlbl : (v : Int) ≠ ((m + 1 : Nat) : Int) := by
          intro hcast
          have : v = m + 1 := by exact_mod_cast hcast
          omega
        rcases hdiff x with hd | hd
        · rw [hd] at hx
          exact hall x hx
        · rw [hd.2.1] at hx
          exact absurd hx.symm hvlbl
      · have hv : v = m + 1 := by omega
        subst hv
        refine ⟨c, hcond.1, hpainted c Relation.ReflTransGen.refl, ?_⟩
        intro x hx
        rcases hdiff x with hd | hd
        · rw [hd] at hx
          exact absurd hx (hfresh x)
        · exact hd.2.2.2
    · intro c' hc' hfg'
      rcases List.mem_append.mp hc' with h | h
      · have hM : M.lab c'.1 c'.2 ≠ 0 := hdone c' h hfg'
        rcases hdiff c' with hd | hd
        · rw [hd]
          exact hM
        · exact absurd hd.1 hM
      · have hcc : c' = c := by simpa using h
        subst hcc
        rw [hpainted c' Relation.ReflTransGen.refl]
        exact hl
  · have hstep : Prim.scanStep a conn (M, m) c = (M, m) := by
      rw [Prim.scanStep]
      simp only [if_neg hcond]
    rw [hstep]
    refine primInv_intro hh hw hbg hrange hclosed hrep ?_
    intro c' hc' hfg'
    rcases List.mem_append.mp hc' with h | h
    · exact hdone c' h hfg'
    · have hcc : c' = c := by simpa using h
      subst hcc
      intro h0
      exact hcond ⟨hfg', h0⟩

theorem primScan_inv {a : Image} {conn : Int} :
    ∀ (rest done : List (Nat × Nat)) (st : LabelImage × Nat),
      PrimInv a conn done st →
      PrimInv a conn (done ++ rest) (rest.foldl (Prim.scanStep a conn) st) := by
  intro rest
  induction rest with
  | nil =>
    intro done st hinv
    rw [List.foldl_nil, List.append_nil]
    exact hinv
  | cons c rest ih =>
    intro done st hinv
    have hassoc : done ++ c :: rest = (done ++ [c]) ++ rest := by
      rw [List.append_assoc]
      rfl
    rw [List.foldl_cons, hassoc]
    exact ih (done ++ [c]) (Prim.scanStep a conn st c) (primStep_inv hinv)

theorem Prim.label_eq_scan (a : Image) (conn : Int) :
    Prim.label a conn = ((coords a.height a.width).foldl (Prim.scanStep a conn)
      (zeroLabels a.height a.width, 0)).1 := rfl

theorem prim_label_state_spec (a : Image) (conn : Int) :
    PrimInv a conn (coords a.height a.width)
      ((coords a.height a.width).foldl (Prim.scanStep a conn)
        (zeroLabels a.height a.width, 0)) := by
  have hbase : PrimInv a conn [] (zeroLabels a.height a.width, 0) := by
    refine primInv_intro rfl rfl (fun i j _ => rfl) ?_ ?_ ?_ ?_
    · intro i j hne
      exact absurd rfl hne
    · intro c d hne _
      exact absurd rfl hne
    · intro v hv1 hv2
      omega
    · intro c hc
      simp at hc
  exact primScan_inv (coords a.height a.width) [] _ hbase

theorem Prim.label_background (a : Image) (conn : Int) {i j : Nat}
    (h : a.pix i j = 0) : (Prim.label a conn).lab i j = 0 := by
  rw [Prim.label_eq_scan]
  exact (prim_label_state_spec a conn).hbg i j h

theorem Prim.label_fg_positive (a : Image) (conn : Int) {c : Nat × Nat}
    (hc : c ∈ coords a.height a.width) (hp : a.pix c.1 c.2 ≠ 0) :
    1 ≤ (Prim.label a conn).lab c.1 c.2 := by
  rw [Prim.label_eq_scan]
  have hinv := prim_label_state_spec a conn
  have hne := hinv.hdone c hc hp
  obtain ⟨v, hv1, hv2, hveq⟩ := hinv.hrange c.1 c.2 hne
  rw [hveq]
  exact_mod_cast hv1

theorem Prim.label_eq_iff_connected (a : Image) (conn : Int) {c d : Nat × Nat}
    (hc : c ∈ coords a.height a.width) (hd : d ∈ coords a.height a.width)
    (hpc : a.pix c.1 c.2 ≠ 0) (hpd : a.pix d.1 d.2 ≠ 0) :
    (Prim.label a conn).lab c.1 c.2 = (Prim.label a conn).lab d.1 d.2 ↔
      Connected a conn c d := by
  rw [Prim.label_eq_scan]
  have hinv := prim_label_state_spec a conn
  constructor
  · intro heq
    have hnec := hinv.hdone c hc hpc
    have hned := hinv.hdone d hd hpd
    obtain ⟨v, hv1, hv2, hveq⟩ := hinv.hrange c.1 c.2 hnec
    obtain ⟨sv, hfg_sv, hlab_sv, hall⟩ := hinv.hrep v hv1 hv2
    have h1 : Connected a conn sv c := hall c hveq
    have h2 : Connected a conn sv d := hall d (by rw [← heq]; exact hveq)
    exact Relation.ReflTransGen.trans (connected_symm h1) h2
  · intro hconn
    have hnec := hinv.hdone c hc hpc
    exact (connected_label_eq hinv.hclosed hconn hnec).symm

theorem Prim.label_value_range (a : Image) (conn : Int) :
    ∃ K : Nat, ∀ v : Int,
      (∃ c ∈ coords a.height a.width,
        (Prim.label a conn).lab c.1 c.2 = v ∧ v ≠ 0) ↔
      (1 ≤ v ∧ v ≤ (K : Int)) := by
  have hinv := prim_label_state_spec a conn
  refine ⟨((coords a.height a.width).foldl (Prim.scanStep a conn)
    (zeroLabels a.height a.width, 0)).2, ?_⟩
  intro v
  rw [Prim.label_eq_scan]
  constructor
  · rintro ⟨c, hc, hlab, hne⟩
    have h0 : ((coords a.height a.width).foldl (Prim.scanStep a conn)
        (zeroLabels a.height a.width, 0)).1.lab c.1 c.2 ≠ 0 := by
      rw [hlab]
      exact hne
    obtain ⟨w, hw1, hw2, hweq⟩ := hinv.hrange c.1 c.2 h0
    rw [hweq] at hlab
    constructor
    · rw [← hlab]
      exact_mod_cast hw1
    · rw [← hlab]
      exact_mod_cast hw2
  · rintro ⟨hv1, hv2⟩
    have hm : ∃ w : Nat, v = (w : Int) ∧ 1 ≤ w ∧
        w ≤ ((coords a.height a.width).foldl (Prim.scanStep a conn)
          (zeroLabels a.height a.width, 0)).2 := by
      refine ⟨v.toNat, by omega, by omega, ?_⟩
      omega
    obtain ⟨w, rfl, hw1, hw2⟩ := hm
    obtain ⟨sv, hfg_sv, hlab_sv, hall⟩ := hinv.hrep w hw1 hw2
    obtain ⟨hsh, hsw⟩ := fg_bounds hfg_sv
    refine ⟨sv, mem_coords.mpr ⟨hsh, hsw⟩, hlab_sv, ?_⟩
    exact_mod_cast Nat.one_le_iff_ne_zero.mp hw1

theorem coords_succ (h w : Nat) :
    coords (h + 1) w = coords h w ++ (List.range w).map (fun y => (h, y)) := by
  rw [coords, coords, List.range_succ, List.flatMap_append]
  simp

theorem coords_length (h w : Nat) : (coords h w).length = h * w := by
  induction h with
  | zero => simp [coords]
  | succ h ih =>
    rw [coords_succ, List.length_append, ih, List.length_map, List.length_range,
      Nat.succ_mul]

theorem coords_getElem? {h w k : Nat} (hk : k < h * w) :
    (coords h w)[k]? = some (k / w, k % w) := by
  induction h with
  | zero => omega
  | succ h ih =>
    rw [coords_succ]
    by_cases hkh : k < h * w
    · rw [List.getElem?_append_left (by rw [coords_length]; exact hkh)]
      exact ih hkh
    · have hw0 : 0 < w := by
        rcases Nat.eq_zero_or_pos w with rfl | hw
        · omega
        · exact hw
      have hk1 : h * w ≤ k := Nat.le_of_not_lt hkh
      rw [List.getElem?_append_right (by rw [coords_length]; exact hk1)]
      rw [coords_length]
      have hlt : k - h * w < w := by
        rw [Nat.succ_mul] at hk
        omega
      rw [List.getElem?_map, List.getElem?_range hlt]
      have hk2 : k = h * w + (k - h * w) := by omega
      have hlt2 : k - w * h < w := by
        rw [Nat.mul_comm w h]
        exact hlt
      have hdiv : k / w = h := by
        conv_lhs => rw [hk2]
        rw [Nat.mul_comm h w, Nat.mul_add_div hw0, Nat.div_eq_of_lt hlt2,
          Nat.add_zero]
      have hmod : k % w = k - h * w := by
        conv_lhs => rw [hk2]
        rw [Nat.mul_comm h w, Nat.mul_add_mod, Nat.mod_eq_of_lt hlt2,
          Nat.mul_comm w h]
      rw [hdiv, hmod]
      rfl

theorem coords_split_getElem {h w : Nat} {done rest : List (Nat × Nat)}
    {c : Nat × Nat} (hsplit : done ++ c :: rest = coords h w) :
    done.length = c.1 * w + c.2 ∧ c.1 < h ∧ c.2 < w := by
  have hlen : done.length + (c :: rest).length = h * w := by
    rw [← List.length_append, hsplit, coords_length]
  have hp : done.length < h * w := by
    rw [List.length_cons] at hlen
    omega
  have hw0 : 0 < w := by
    rcases Nat.eq_zero_or_pos w with rfl | hw
    · omega
    · exact hw
  have hsome : (coords h w)[done.length]? = some c := by
    rw [← hsplit, List.getElem?_append_right (le_refl _), Nat.sub_self]
    exact List.getElem?_cons_zero
  rw [coords_getElem? hp] at hsome
  have hc : c = (done.length / w, done.length % w) := by
    injection hsome with hc
    exact hc.symm
  have h1 : c.1 = done.length / w := by rw [hc]
  have h2 : c.2 = done.length % w := by rw [hc]
  refine ⟨?_, ?_, ?_⟩
  · rw [h1, h2]
    have h3 := Nat.div_add_mod done.length w
    have h4 : (done.length / w) * w = w * (done.length / w) := Nat.mul_comm _ _
    omega
  · rw [h1]
    exact Nat.div_lt_of_lt_mul (by rw [Nat.mul_comm]; exact hp)
  · rw [h2]
    exact Nat.mod_lt _ hw0

theorem mem_done_of_ridx_lt {h w : Nat} {done rest : List (Nat × Nat)}
    {c : Nat × Nat} (hsplit : done ++ c :: rest = coords h w) {n : Nat × Nat}
    (hn1 : n.1 < h) (hn2 : n.2 < w)
    (hlt : n.1 * w + n.2 < c.1 * w + c.2) : n ∈ done := by
  obtain ⟨hp, hc1, hc2⟩ := coords_split_getElem hsplit
  have hw0 : 0 < w := by omega
  have hik : n.1 * w + n.2 < h * w := get_index_lt (w := w) hn1 hn2 |>.trans_le
    (le_of_eq (Nat.mul_comm w h))
  have hsome : (coords h w)[n.1 * w + n.2]? = some n := by
    rw [coords_getElem? hik]
    have hdiv : (n.1 * w + n.2) / w = n.1 := by
      rw [Nat.mul_comm n.1 w, Nat.mul_add_div hw0, Nat.div_eq_of_lt hn2,
        Nat.add_zero]
    have hmod : (n.1 * w + n.2) % w = n.2 := by
      rw [Nat.mul_comm n.1 w, Nat.mul_add_mod, Nat.mod_eq_of_lt hn2]
    rw [hdiv, hmod]
  rw [← hsplit, List.getElem?_append_left (by rw [hp]; exact hlt)] at hsome
  obtain ⟨hlt2, he⟩ := List.getElem?_eq_some_iff.mp hsome
  exact he ▸ done.getElem_mem hlt2

theorem ridx_lt_of_mem_done {h w : Nat} {done rest : List (Nat × Nat)}
    {c : Nat × Nat} (hsplit : done ++ c :: rest = coords h w) {d : Nat × Nat}
    (hd : d ∈ done) : d.1 * w + d.2 < c.1 * w + c.2 := by
  obtain ⟨hp, hc1, hc2⟩ := coords_split_getElem hsplit
  have hw0 : 0 < w := by omega
  obtain ⟨i, hi, hie⟩ := List.getElem_of_mem hd
  have hcidx : c.1 * w + c.2 < h * w := by
    have h5 := get_index_lt (w := w) hc1 hc2
    rw [get_index] at h5
    have h6 : w * h = h * w := Nat.mul_comm w h
    omega
  have hsome : (coords h w)[i]? = some d := by
    rw [← hsplit, List.getElem?_append_left (by omega)]
    rw [List.getElem?_eq_getElem hi, hie]
  have hihw : i < h * w := by omega
  rw [coords_getElem? hihw] at hsome
  have hd2 : d = (i / w, i % w) := by
    injection hsome with he
    exact he.symm
  have h7 := Nat.div_add_mod i w
  have hda : d.1 = i / w := by rw [hd2]
  have hdb : d.2 = i % w := by rw [hd2]
  have h9 : (i / w) * w = w * (i / w) := Nat.mul_comm _ _
  have h8 : d.1 * w + d.2 = i := by
    rw [hda, hdb, h9]
    exact h7
  omega

theorem mem_prev_4 {x y w h : Nat} {d : Nat × Nat} :
    d ∈ TwoPass.get_previous_neighbors x y w h 4 ↔
      (0 < x ∧ d = (x - 1, y)) ∨ (0 < y ∧ d = (x, y - 1)) := by
  rw [TwoPass.get_previous_neighbors, if_pos rfl]
  simp only [List.mem_append, mem_ite_singleton_iff, or_assoc]

theorem mem_prev_8 {x y w h : Nat} {d : Nat × Nat} :
    d ∈ TwoPass.get_previous_neighbors x y w h 8 ↔
      ((0 < x ∧ 0 < y) ∧ d = (x - 1, y - 1)) ∨ (0 < x ∧ d = (x - 1, y)) ∨
      ((0 < x ∧ y < w - 1) ∧ d = (x - 1, y + 1)) ∨ (0 < y ∧ d = (x, y - 1)) := by
  rw [TwoPass.get_previous_neighbors, if_neg (by norm_num), if_pos rfl]
  simp only [List.mem_append, mem_ite_singleton_iff, or_assoc]

theorem prev_other {x y w h : Nat} {conn : Int} (h4 : conn ≠ 4) (h8 : conn ≠ 8) :
    TwoPass.get_previous_neighbors x y w h conn = [] := by
  rw [TwoPass.get_previous_neighbors, if_neg h4, if_neg h8]

theorem prev_ridx_lt {x y w h : Nat} {conn : Int} (hy : y < w) :
    ∀ n ∈ TwoPass.get_previous_neighbors x y w h conn,
      n.1 * w + n.2 < x * w + y := by
  intro n hn
  have hw0 : 0 < w := by omega
  have hxe : 0 < x → (x - 1) * w + w = x * w := by
    intro h1
    have hx1 : x - 1 + 1 = x := by omega
    calc (x - 1) * w + w = (x - 1 + 1) * w := (Nat.succ_mul _ _).symm
      _ = x * w := by rw [hx1]
  by_cases h4 : conn = 4
  · subst h4
    rw [mem_prev_4] at hn
    rcases hn with ⟨h1, rfl⟩ | ⟨h1, rfl⟩
    · show (x - 1) * w + y < x * w + y
      have := hxe h1
      omega
    · show x * w + (y - 1) < x * w + y
      omega
  · by_cases h8 : conn = 8
    · subst h8
      rw [mem_prev_8] at hn
      rcases hn with ⟨h1, rfl⟩ | ⟨h1, rfl⟩ | ⟨h1, rfl⟩ | ⟨h1, rfl⟩
      · show (x - 1) * w + (y - 1) < x * w + y
        have := hxe h1.1
        omega
      · show (x - 1) * w + y < x * w + y
        have := hxe h1
        omega
      · show (x - 1) * w + (y + 1) < x * w + y
        have := hxe h1.1
        omega
      · show x * w + (y - 1) < x * w + y
        omega
    · rw [prev_other h4 h8] at hn
      simp at hn

theorem mem_causal_iff_prev {a : Image} {conn : Int} {x y : Nat} {d : Nat × Nat} :
    d ∈ causalFgNeighbors a conn x y ↔
      d ∈ TwoPass.get_previous_neighbors x y a.width a.height conn ∧
        a.pix d.1 d.2 ≠ 0 := by
  by_cases h4 : conn = 4
  · subst h4
    rw [mem_causalFgNeighbors_4, mem_prev_4]
    constructor
    · rintro (⟨⟨h1, h2⟩, rfl⟩ | ⟨⟨h1, h2⟩, rfl⟩)
      · exact ⟨Or.inl ⟨h1, rfl⟩, h2⟩
      · exact ⟨Or.inr ⟨h1, rfl⟩, h2⟩
    · rintro ⟨(⟨h1, rfl⟩ | ⟨h1, rfl⟩), hf⟩
      · exact Or.inl ⟨⟨h1, hf⟩, rfl⟩
      · exact Or.inr ⟨⟨h1, hf⟩, rfl⟩
  · by_cases h8 : conn = 8
    · subst h8
      rw [mem_causalFgNeighbors_8, mem_prev_8]
      constructor
      · rintro (⟨⟨h1, h2, h3⟩, rfl⟩ | ⟨⟨h1, h2⟩, rfl⟩ | ⟨⟨h1, h2, h3⟩, rfl⟩ |
          ⟨⟨h1, h2⟩, rfl⟩)
        · exact ⟨Or.inl ⟨⟨h1, h2⟩, rfl⟩, h3⟩
        · exact ⟨Or.inr (Or.inl ⟨h1, rfl⟩), h2⟩
        · exact ⟨Or.inr (Or.inr (Or.inl ⟨⟨h1, h2⟩, rfl⟩)), h3⟩
        · exact ⟨Or.inr (Or.inr (Or.inr ⟨h1, rfl⟩)), h2⟩
      · rintro ⟨(⟨⟨h1, h2⟩, rfl⟩ | ⟨h1, rfl⟩ | ⟨⟨h1, h2⟩, rfl⟩ | ⟨h1, rfl⟩), hf⟩
        · exact Or.inl ⟨⟨h1, h2, hf⟩, rfl⟩
        · exact Or.inr (Or.inl ⟨⟨h1, hf⟩, rfl⟩)
        · exact Or.inr (Or.inr (Or.inl ⟨⟨h1, h2, hf⟩, rfl⟩))
        · exact Or.inr (Or.inr (Or.inr ⟨⟨h1, hf⟩, rfl⟩))
    · rw [causalFgNeighbors_other h4 h8, prev_other h4 h8]
      simp

theorem filter_ite_singleton {α : Type} {p : Prop} [Decidable p] {z : α}
    (q : α → Bool) :
    (if p then [z] else []).filter q = if p ∧ q z = true then [z] else [] := by
  by_cases hp : p
  · rw [if_pos hp]
    by_cases hq : q z = true
    · rw [if_pos ⟨hp, hq⟩]
      simp [hq]
    · rw [if_neg (fun h => hq h.2)]
      simp [hq]
  · rw [if_neg hp, if_neg (fun h => hp h.1)]
    rfl

theorem mem_nlabels {a : Image} {conn : Int} {L : LabelImage} {x y : Nat} {w : Int} :
    w ∈ (((TwoPass.get_previous_neighbors x y a.width a.height conn).filter
        (fun n => a.pix n.1 n.2 ≠ 0)).map (fun n => L.lab n.1 n.2)).filter
        (fun v => 0 < v) ↔
      ∃ n ∈ causalFgNeighbors a conn x y, L.lab n.1 n.2 = w ∧ 0 < w := by
  rw [List.mem_filter, List.mem_map]
  constructor
  · rintro ⟨⟨n, hn, rfl⟩, hpos⟩
    rw [List.mem_filter] at hn
    refine ⟨n, mem_causal_iff_prev.mpr ⟨hn.1, by simpa using hn.2⟩, rfl,
      by simpa using hpos⟩
  · rintro ⟨n, hn, rfl, hpos⟩
    obtain ⟨hprev, hfg⟩ := mem_causal_iff_prev.mp hn
    exact ⟨⟨n, List.mem_filter.mpr ⟨hprev, by simpa⟩, rfl⟩, by simpa using hpos⟩

theorem listMinFrom_mem : ∀ (xs : List Int) (x : Int), listMinFrom x xs ∈ x :: xs := by
  intro xs
  induction xs with
  | nil =>
    intro x
    rw [listMinFrom]
    simp
  | cons v vs ih =>
    intro x
    rw [listMinFrom, List.foldl_cons]
    by_cases h : v < x
    · rw [if_pos h]
      have h2 := ih v
      rw [listMinFrom] at h2
      rcases List.mem_cons.mp h2 with h1 | h1
      · rw [h1]
        exact List.mem_cons_of_mem x (List.mem_cons_self v vs)
      · exact List.mem_cons_of_mem x (List.mem_cons_of_mem v h1)
    · rw [if_neg h]
      have h2 := ih x
      rw [listMinFrom] at h2
      rcases List.mem_cons.mp h2 with h1 | h1
      · rw [h1]
        exact List.mem_cons_self x (v :: vs)
      · exact List.mem_cons_of_mem x (List.mem_cons_of_mem v h1)

theorem rtg_isolated {α : Type} {r : α → α → Prop} {c y : α}
    (hc : ∀ z, ¬ r c z) (h : Relation.ReflTransGen r c y) : y = c := by
  induction h with
  | refl => rfl
  | tail hcb hstep ih =>
    rename_i b e
    rw [ih] at hstep
    exact absurd hstep (hc e)

theorem rtg_into_isolated {α : Type} {r : α → α → Prop} {c x : α}
    (hc : ∀ z, ¬ r z c) (h : Relation.ReflTransGen r x c) : x = c := by
  rcases Relation.ReflTransGen.cases_tail h with h1 | ⟨z, h1, h2⟩
  · exact h1.symm
  · exact absurd h2 (hc z)

theorem rtg_hub {α : Type} {r r' : α → α → Prop} {c : α} {N : α → Prop}
    (hr' : ∀ x y, r' x y ↔ r x y ∨ (x = c ∧ N y) ∨ (y = c ∧ N x))
    (hc : ∀ z, ¬ r c z) (hcsym : ∀ z, ¬ r z c)
    (hsymm : ∀ x y, r x y → r y x) :
    ∀ x y, Relation.ReflTransGen r' x y ↔
      (Relation.ReflTransGen r x y ∨
        ((x = c ∨ ∃ n, N n ∧ Relation.ReflTransGen r x n) ∧
         (y = c ∨ ∃ n, N n ∧ Relation.ReflTransGen r y n))) := by
  intro x y
  constructor
  · intro h
    induction h with
    | refl => exact Or.inl Relation.ReflTransGen.refl
    | tail hxb hstep ih =>
      rename_i b e
      rcases ih with hA | ⟨hTx, hTb⟩
      · rcases (hr' b e).mp hstep with h1 | ⟨hbc, hNe⟩ | ⟨hec, hNb⟩
        · exact Or.inl (hA.tail h1)
        · have hxc : x = c := rtg_into_isolated hcsym (hbc ▸ hA)
          exact Or.inr ⟨Or.inl hxc,
            Or.inr ⟨e, hNe, Relation.ReflTransGen.refl⟩⟩
        · exact Or.inr ⟨Or.inr ⟨b, hNb, hA⟩, Or.inl hec⟩
      · rcases (hr' b e).mp hstep with h1 | ⟨hbc, hNe⟩ | ⟨hec, hNb⟩
        · rcases hTb with hbc | ⟨n, hNn, hbn⟩
          · exact absurd (hbc ▸ h1) (hc e)
          · exact Or.inr ⟨hTx,
              Or.inr ⟨n, hNn, Relation.ReflTransGen.head (hsymm b e h1) hbn⟩⟩
        · exact Or.inr ⟨hTx, Or.inr ⟨e, hNe, Relation.ReflTransGen.refl⟩⟩
        · exact Or.inr ⟨hTx, Or.inl hec⟩
  · have hmono : ∀ u v, Relation.ReflTransGen r u v →
        Relation.ReflTransGen r' u v := by
      intro u v huv
      exact Relation.ReflTransGen.mono
        (fun p q hpq => (hr' p q).mpr (Or.inl hpq)) huv
    have hsymm' : ∀ u v, Relation.ReflTransGen r u v →
        Relation.ReflTransGen r v u := by
      intro u v huv
      exact Relation.ReflTransGen.symmetric (fun p q hpq => hsymm p q hpq) huv
    rintro (h | ⟨hTx, hTy⟩)
    · exact hmono x y h
    · have hxc : Relation.ReflTransGen r' x c := by
        rcases hTx with rfl | ⟨n, hNn, hxn⟩
        · exact Relation.ReflTransGen.refl
        · exact (hmono x n hxn).tail
            ((hr' n c).mpr (Or.inr (Or.inr ⟨rfl, hNn⟩)))
      have hcy : Relation.ReflTransGen r' c y := by
        rcases hTy with rfl | ⟨n, hNn, hyn⟩
        · exact Relation.ReflTransGen.refl
        · exact Relation.ReflTransGen.head
            ((hr' c n).mpr (Or.inr (Or.inl ⟨rfl, hNn⟩)))
            (hmono n y (hsymm' y n hyn))
      exact hxc.trans hcy

theorem tp_unite_fold_spec {t0 : EquivalenceTable}
    {m : Nat} (hm1 : 1 ≤ m) (hm2 : m < t0.size)
    (hrefl : ∀ y, y < t0.size → rootEq t0.parent y y) :
    ∀ (ws : List Int) (t : EquivalenceTable) (S : List Nat),
      TableInv t → t.size = t0.size → m ∈ S →
      (∀ w ∈ ws, ∃ wn : Nat, w = (wn : Int) ∧ 1 ≤ wn ∧ wn < t0.size) →
      (∀ u ∈ S, u < t0.size) →
      (∀ y z, y < t0.size → z < t0.size →
        (rootEq t.parent y z ↔ (rootEq t0.parent y z ∨
          ((∃ u ∈ S, rootEq t0.parent y u) ∧
           (∃ u ∈ S, rootEq t0.parent z u))))) →
      TableInv (ws.foldl (fun t' w =>
        if w ≠ (m : Int) then t'.unite (m : Int) w else t') t) ∧
      (ws.foldl (fun t' w =>
        if w ≠ (m : Int) then t'.unite (m : Int) w else t') t).size = t0.size ∧
      (∀ y z, y < t0.size → z < t0.size →
        (rootEq (ws.foldl (fun t' w =>
            if w ≠ (m : Int) then t'.unite (m : Int) w else t') t).parent y z ↔
          (rootEq t0.parent y z ∨
            ((∃ u, (u ∈ S ∨ (u : Int) ∈ ws) ∧ rootEq t0.parent y u) ∧
             (∃ u, (u ∈ S ∨ (u : Int) ∈ ws) ∧ rootEq t0.parent z u))))) := by
  intro ws
  induction ws with
  | nil =>
    intro t S ht hsz hmS hws hSlt hcls
    rw [List.foldl_nil]
    refine ⟨ht, hsz, ?_⟩
    intro y z hy hz
    rw [hcls y z hy hz]
    constructor
    · rintro (h | ⟨⟨u, hu, hru⟩, ⟨v, hv, hrv⟩⟩)
      · exact Or.inl h
      · exact Or.inr ⟨⟨u, Or.inl hu, hru⟩, ⟨v, Or.inl hv, hrv⟩⟩
    · rintro (h | ⟨⟨u, hu, hru⟩, ⟨v, hv, hrv⟩⟩)
      · exact Or.inl h
      · rcases hu with hu | hu
        · rcases hv with hv | hv
          · exact Or.inr ⟨⟨u, hu, hru⟩, ⟨v, hv, hrv⟩⟩
          · simp at hv
        · simp at hu
  | cons w ws ih =>
    intro t S ht hsz hmS hws hSlt hcls
    rw [List.foldl_cons]
    obtain ⟨wn, hweq, hwn1, hwn2⟩ := hws w (List.mem_cons_self w ws)
    have hws' : ∀ w' ∈ ws, ∃ wn' : Nat, w' = (wn' : Int) ∧ 1 ≤ wn' ∧
        wn' < t0.size := fun w' hw' => hws w' (List.mem_cons_of_mem w hw')
    by_cases hwm : w ≠ (m : Int)
    · rw [if_pos hwm]
      subst hweq
      have hwmn : wn ≠ m := by
        intro hh
        subst hh
        exact hwm rfl
      have hTSm : ∀ u, u < t0.size → u ∈ S →
          ∃ v ∈ S, rootEq t0.parent u v := by
        intro u hu huS
        exact ⟨u, huS, hrefl u hu⟩
      obtain ⟨ru, hru, _⟩ := reaches_total (TableInv_PInv ht)
        (show m < t.parent.length from by
          show m < t.size
          rw [hsz]
          exact hm2)
      obtain ⟨rv, hrv, _⟩ := reaches_total (TableInv_PInv ht)
        (show wn < t.parent.length from by
          show wn < t.size
          rw [hsz]
          exact hwn2)
      obtain ⟨ht1, hsz1, _⟩ := EquivalenceTable.unite_root_map ht
        hm1 (by rw [hsz]; exact hm2) hwn1 (by rw [hsz]; exact hwn2) hru hrv
      have hcls1 : ∀ y z, y < t0.size → z < t0.size →
          (rootEq (t.unite (m : Int) (wn : Int)).parent y z ↔
            (rootEq t0.parent y z ∨
              ((∃ u ∈ S ++ [wn], rootEq t0.parent y u) ∧
               (∃ u ∈ S ++ [wn], rootEq t0.parent z u)))) := by
        intro y z hy hz
        rw [EquivalenceTable.unite_rootEq_iff ht hm1 (by rw [hsz]; exact hm2)
          hwn1 (by rw [hsz]; exact hwn2) y z (by rw [hsz]; exact hy)
          (by rw [hsz]; exact hz)]
        rw [hcls y z hy hz, hcls y m hy hm2, hcls wn z hwn2 hz,
          hcls y wn hy hwn2, hcls m z hm2 hz]
        have hmem_wn : wn ∈ S ++ [wn] := List.mem_append_right _ (by simp)
        have hmemS : ∀ u ∈ S, u ∈ S ++ [wn] := fun u hu =>
          List.mem_append_left _ hu
        constructor
        · intro hcase
          rcases hcase with hA | hB | hC
          · rcases hA with h | ⟨hTy, hTz⟩
            · exact Or.inl h
            · obtain ⟨u, hu, hru⟩ := hTy
              obtain ⟨v, hv, hrv⟩ := hTz
              exact Or.inr ⟨⟨u, hmemS u hu, hru⟩, ⟨v, hmemS v hv, hrv⟩⟩
          · obtain ⟨h1, h2⟩ := hB
            have hT1 : ∃ u ∈ S ++ [wn], rootEq t0.parent y u := by
              rcases h1 with hym | ⟨⟨u, hu, hru⟩, _⟩
              · exact ⟨m, hmemS m hmS, hym⟩
              · exact ⟨u, hmemS u hu, hru⟩
            have hT2 : ∃ u ∈ S ++ [wn], rootEq t0.parent z u := by
              rcases h2 with hwz | ⟨_, ⟨v, hv, hrv⟩⟩
              · exact ⟨wn, hmem_wn, rootEq_symm hwz⟩
              · exact ⟨v, hmemS v hv, hrv⟩
            exact Or.inr ⟨hT1, hT2⟩
          · obtain ⟨h1, h2⟩ := hC
            have hT1 : ∃ u ∈ S ++ [wn], rootEq t0.parent y u := by
              rcases h1 with hyw | ⟨⟨u, hu, hru⟩, _⟩
              · exact ⟨wn, hmem_wn, hyw⟩
              · exact ⟨u, hmemS u hu, hru⟩
            have hT2 : ∃ u ∈ S ++ [wn], rootEq t0.parent z u := by
              rcases h2 with hmz | ⟨_, ⟨v, hv, hrv⟩⟩
              · exact ⟨m, hmemS m hmS, rootEq_symm hmz⟩
              · exact ⟨v, hmemS v hv, hrv⟩
            exact Or.inr ⟨hT1, hT2⟩
        · rintro (h | ⟨⟨u, hu, hru⟩, ⟨v, hv, hrv⟩⟩)
          · exact Or.inl (Or.inl h)
          · rcases List.mem_append.mp hu with huS | huw
            · rcases List.mem_append.mp hv with hvS | hvw
              · exact Or.inl (Or.inr ⟨⟨u, huS, hru⟩, ⟨v, hvS, hrv⟩⟩)
              · have hvwn : v = wn := by simpa using hvw
                rw [hvwn] at hrv
                refine Or.inr (Or.inl ⟨?_, ?_⟩)
                · exact Or.inr ⟨⟨u, huS, hru⟩, ⟨m, hmS, hrefl m hm2⟩⟩
                · exact Or.inl (rootEq_symm hrv)
            · have huwn : u = wn := by simpa using huw
              rw [huwn] at hru
              rcases List.mem_append.mp hv with hvS | hvw
              · refine Or.inr (Or.inr ⟨Or.inl hru, ?_⟩)
                exact Or.inr ⟨⟨m, hmS, hrefl m hm2⟩, ⟨v, hvS, hrv⟩⟩
              · have hvwn : v = wn := by simpa using hvw
                rw [hvwn] at hrv
                exact Or.inl (Or.inl (rootEq_trans hru (rootEq_symm hrv)))
      have hres := ih (t.unite (m : Int) (wn : Int)) (S ++ [wn]) ht1
        (by rw [hsz1]; exact hsz) (List.mem_append_left _ hmS) hws'
        (by
          intro u hu
          rcases List.mem_append.mp hu with h | h
          · exact hSlt u h
          · have : u = wn := by simpa using h
            subst this
            exact hwn2) hcls1
      refine ⟨hres.1, hres.2.1, ?_⟩
      intro y z hy hz
      rw [hres.2.2 y z hy hz]
      have hmemiff : ∀ u : Nat,
          ((u ∈ S ++ [wn] ∨ (u : Int) ∈ ws) ↔
            (u ∈ S ∨ (u : Int) ∈ (wn : Int) :: ws)) := by
        intro u
        constructor
        · rintro (hu | hu)
          · rcases List.mem_append.mp hu with h | h
            · exact Or.inl h
            · have : u = wn := by simpa using h
              subst this
              exact Or.inr (List.mem_cons_self _ _)
          · exact Or.inr (List.mem_cons_of_mem _ hu)
        · rintro (hu | hu)
          · exact Or.inl (List.mem_append_left _ hu)
          · rcases List.mem_cons.mp hu with h | h
            · have : u = wn := by exact_mod_cast h
              subst this
              exact Or.inl (List.mem_append_right _ (by simp))
            · exact Or.inr h
      constructor
      · rintro (h | ⟨⟨u, hu, hru⟩, ⟨v, hv, hrv⟩⟩)
        · exact Or.inl h
        · exact Or.inr ⟨⟨u, (hmemiff u).mp hu, hru⟩,
            ⟨v, (hmemiff v).mp hv, hrv⟩⟩
      · rintro (h | ⟨⟨u, hu, hru⟩, ⟨v, hv, hrv⟩⟩)
        · exact Or.inl h
        · exact Or.inr ⟨⟨u, (hmemiff u).mpr hu, hru⟩,
            ⟨v, (hmemiff v).mpr hv, hrv⟩⟩
    · rw [if_neg hwm]
      have hwm' : w = (m : Int) := by
        by_contra hh
        exact hwm hh
      have hres := ih t S ht hsz hmS hws' hSlt hcls
      refine ⟨hres.1, hres.2.1, ?_⟩
      intro y z hy hz
      rw [hres.2.2 y z hy hz]
      have hmemiff : ∀ u : Nat,
          ((u ∈ S ∨ (u : Int) ∈ ws) ↔ (u ∈ S ∨ (u : Int) ∈ w :: ws)) := by
        intro u
        constructor
        · rintro (hu | hu)
          · exact Or.inl hu
          · exact Or.inr (List.mem_cons_of_mem _ hu)
        · rintro (hu | hu)
          · exact Or.inl hu
          · rcases List.mem_cons.mp hu with h | h
            · rw [hwm'] at h
              have : u = m := by exact_mod_cast h
              subst this
              exact Or.inl hmS
            · exact Or.inr h
      constructor
      · rintro (h | ⟨⟨u, hu, hru⟩, ⟨v, hv, hrv⟩⟩)
        · exact Or.inl h
        · exact Or.inr ⟨⟨u, (hmemiff u).mp hu, hru⟩,
            ⟨v, (hmemiff v).mp hv, hrv⟩⟩
      · rintro (h | ⟨⟨u, hu, hru⟩, ⟨v, hv, hrv⟩⟩)
        · exact Or.inl h
        · exact Or.inr ⟨⟨u, (hmemiff u).mpr hu, hru⟩,
            ⟨v, (hmemiff v).mpr hv, hrv⟩⟩

theorem prevAdj_symm {a : Image} {conn : Int} {done : List (Nat × Nat)}
    {x y : Nat × Nat} (h : prevAdj a conn done x y) : prevAdj a conn done y x :=
  ⟨h.2.1, h.1, h.2.2.2.1, h.2.2.1, h.2.2.2.2.symm⟩

theorem prevConn_isolated {a : Image} {conn : Int} {done : List (Nat × Nat)}
    {c y : Nat × Nat} (hc : c ∉ done) (h : prevConn a conn done c y) : y = c :=
  rtg_isolated (fun z hz => hc hz.1) h

theorem prevConn_extend_bg {a : Image} {conn : Int} {done : List (Nat × Nat)}
    {c : Nat × Nat} (hbg : a.pix c.1 c.2 = 0) :
    ∀ x y, prevConn a conn (done ++ [c]) x y ↔ prevConn a conn done x y := by
  have hadj : ∀ x y, prevAdj a conn (done ++ [c]) x y ↔ prevAdj a conn done x y := by
    intro x y
    constructor
    · rintro ⟨hx, hy, hfx, hfy, hn⟩
      rcases List.mem_append.mp hx with hx | hx
      · rcases List.mem_append.mp hy with hy | hy
        · exact ⟨hx, hy, hfx, hfy, hn⟩
        · have : y = c := by simpa using hy
          rw [this] at hfy
          exact absurd hbg hfy
      · have : x = c := by simpa using hx
        rw [this] at hfx
        exact absurd hbg hfx
    · rintro ⟨hx, hy, hfx, hfy, hn⟩
      exact ⟨List.mem_append_left _ hx, List.mem_append_left _ hy, hfx, hfy, hn⟩
  intro x y
  constructor
  · exact Relation.ReflTransGen.mono (fun p q h => (hadj p q).mp h)
  · exact Relation.ReflTransGen.mono (fun p q h => (hadj p q).mpr h)

theorem prevConn_extend {a : Image} {conn : Int} {done rest : List (Nat × Nat)}
    {c : Nat × Nat} (hsplit : done ++ c :: rest = coords a.height a.width)
    (hfgc : a.pix c.1 c.2 ≠ 0) :
    ∀ x y, prevConn a conn (done ++ [c]) x y ↔
      (prevConn a conn done x y ∨
        ((x = c ∨ ∃ n, n ∈ causalFgNeighbors a conn c.1 c.2 ∧
            prevConn a conn done x n) ∧
         (y = c ∨ ∃ n, n ∈ causalFgNeighbors a conn c.1 c.2 ∧
            prevConn a conn done y n))) := by
  obtain ⟨hp, hc1, hc2⟩ := coords_split_getElem hsplit
  have hnd : (done ++ c :: rest).Nodup := by
    rw [hsplit]
    exact coords_nodup _ _
  have hcd : c ∉ done := by
    obtain ⟨_, _, hdisj⟩ := List.nodup_append.mp hnd
    intro h
    exact hdisj h (List.mem_cons_self c rest)
  have hdone_mem : ∀ d ∈ done, d ∈ coords a.height a.width := by
    intro d hd
    rw [← hsplit]
    exact List.mem_append_left _ hd
  have hN_done : ∀ n, n ∈ causalFgNeighbors a conn c.1 c.2 → n ∈ done := by
    intro n hn
    obtain ⟨hn1, hn2⟩ := causalFgNeighbors_bounds hc1 hc2 n hn
    obtain ⟨hprev, _⟩ := mem_causal_iff_prev.mp hn
    exact mem_done_of_ridx_lt hsplit hn1 hn2 (prev_ridx_lt hc2 n hprev)
  have hN_fg : ∀ n, n ∈ causalFgNeighbors a conn c.1 c.2 → a.pix n.1 n.2 ≠ 0 :=
    fun n hn => (mem_causal_iff_prev.mp hn).2
  refine rtg_hub ?_ ?_ ?_ ?_
  · intro x y
    constructor
    · rintro ⟨hx, hy, hfx, hfy, hn⟩
      rcases List.mem_append.mp hx with hx | hx
      · rcases List.mem_append.mp hy with hy | hy
        · exact Or.inl ⟨hx, hy, hfx, hfy, hn⟩
        · have hyc : y = c := by simpa using hy
          rw [hyc] at hn hfy
          rcases hn with hn | hn
          · have hxc : x ∈ coords a.height a.width := hdone_mem x hx
            obtain ⟨hx1, hx2⟩ := mem_coords.mp hxc
            have h1 := prev_ridx_lt hx2 c hn
            have h2 := ridx_lt_of_mem_done hsplit hx
            omega
          · refine Or.inr (Or.inr ⟨hyc, ?_⟩)
            exact mem_causal_iff_prev.mpr ⟨hn, hfx⟩
      · have hxc : x = c := by simpa using hx
        rw [hxc] at hn hfx
        rcases List.mem_append.mp hy with hy | hy
        · rcases hn with hn | hn
          · refine Or.inr (Or.inl ⟨hxc, ?_⟩)
            exact mem_causal_iff_prev.mpr ⟨hn, hfy⟩
          · have hyc : y ∈ coords a.height a.width := hdone_mem y hy
            obtain ⟨hy1, hy2⟩ := mem_coords.mp hyc
            have h1 := prev_ridx_lt hy2 c hn
            have h2 := ridx_lt_of_mem_done hsplit hy
            omega
        · have hyc : y = c := by simpa using hy
          rw [hyc] at hn
          rcases hn with hn | hn
          · have h1 := prev_ridx_lt hc2 c hn
            omega
          · have h1 := prev_ridx_lt hc2 c hn
            omega
    · rintro (⟨hx, hy, hfx, hfy, hn⟩ | ⟨hxc, hNy⟩ | ⟨hyc, hNx⟩)
      · exact ⟨List.mem_append_left _ hx, List.mem_append_left _ hy, hfx, hfy, hn⟩
      · subst hxc
        obtain ⟨hprev, hfy⟩ := mem_causal_iff_prev.mp hNy
        refine ⟨List.mem_append_right _ (by simp), List.mem_append_left _
          (hN_done y hNy), hfgc, hfy, Or.inl hprev⟩
      · subst hyc
        obtain ⟨hprev, hfx⟩ := mem_causal_iff_prev.mp hNx
        refine ⟨List.mem_append_left _ (hN_done x hNx),
          List.mem_append_right _ (by simp), hfx, hfgc, Or.inr hprev⟩
  · intro z hz
    exact hcd hz.1
  · intro z hz
    exact hcd hz.2.1
  · intro x y h
    exact prevAdj_symm h

theorem tpInv_intro {a : Image} {conn : Int} {done : List (Nat × Nat)}
    {L : LabelImage} {t : EquivalenceTable}
    (ht : TableInv t) (hh : L.height = a.height) (hw : L.width = a.width)
    (hbg : ∀ c ∈ done, a.pix c.1 c.2 = 0 → L.lab c.1 c.2 = 0)
    (hfg : ∀ c ∈ done, a.pix c.1 c.2 ≠ 0 →
      ∃ v : Nat, 1 ≤ v ∧ v < t.size ∧ L.lab c.1 c.2 = (v : Int))
    (hun : ∀ i j, (i, j) ∉ done → L.lab i j = 0)
    (hcls : ∀ c ∈ done, ∀ d ∈ done, a.pix c.1 c.2 ≠ 0 → a.pix d.1 d.2 ≠ 0 →
      ∀ vc vd : Nat, L.lab c.1 c.2 = (vc : Int) → L.lab d.1 d.2 = (vd : Int) →
      (rootEq t.parent vc vd ↔ prevConn a conn done c d)) :
    TPInv a conn done (L, t) :=
  ⟨ht, hh, hw, hbg, hfg, hun, hcls⟩

theorem tp_step_inv {a : Image} {conn : Int} {done rest : List (Nat × Nat)}
    {c : Nat × Nat} (hsplit : done ++ c :: rest = coords a.height a.width)
    {st : LabelImage × EquivalenceTable} (hinv : TPInv a conn done st) :
    TPInv a conn (done ++ [c]) (TwoPass.first_pass_step a conn st c) := by
  obtain ⟨L, t⟩ := st
  obtain ⟨ht, hh, hw, hbg, hfg, hun, hcls⟩ := hinv
  replace ht : TableInv t := ht
  replace hh : L.height = a.height := hh
  replace hw : L.width = a.width := hw
  replace hbg : ∀ c' ∈ done, a.pix c'.1 c'.2 = 0 → L.lab c'.1 c'.2 = 0 := hbg
  replace hfg : ∀ c' ∈ done, a.pix c'.1 c'.2 ≠ 0 →
      ∃ v : Nat, 1 ≤ v ∧ v < t.size ∧ L.lab c'.1 c'.2 = (v : Int) := hfg
  replace hun : ∀ i j, (i, j) ∉ done → L.lab i j = 0 := hun
  replace hcls : ∀ c' ∈ done, ∀ d ∈ done, a.pix c'.1 c'.2 ≠ 0 →
      a.pix d.1 d.2 ≠ 0 → ∀ vc vd : Nat, L.lab c'.1 c'.2 = (vc : Int) →
      L.lab d.1 d.2 = (vd : Int) →
      (rootEq t.parent vc vd ↔ prevConn a conn done c' d) := hcls
  obtain ⟨hp, hc1, hc2⟩ := coords_split_getElem hsplit
  have hnd : (done ++ c :: rest).Nodup := by
    rw [hsplit]
    exact coords_nodup _ _
  have hcd : c ∉ done := by
    obtain ⟨_, _, hdisj⟩ := List.nodup_append.mp hnd
    intro h
    exact hdisj h (List.mem_cons_self c rest)
  have hmem_split : ∀ c' : Nat × Nat, c' ∈ done ++ [c] ↔ c' ∈ done ∨ c' = c := by
    intro c'
    simp [List.mem_append]
  have hne : ∀ c' : Nat × Nat, c' ∈ done → ¬ (c'.1 = c.1 ∧ c'.2 = c.2) := by
    intro c' hc' hcc
    exact hcd ((Prod.ext hcc.1 hcc.2 : c' = c) ▸ hc')
  have hN_done : ∀ n, n ∈ causalFgNeighbors a conn c.1 c.2 → n ∈ done := by
    intro n hn
    obtain ⟨hn1, hn2⟩ := causalFgNeighbors_bounds hc1 hc2 n hn
    obtain ⟨hprev, _⟩ := mem_causal_iff_prev.mp hn
    exact mem_done_of_ridx_lt hsplit hn1 hn2 (prev_ridx_lt hc2 n hprev)
  have hN_fg : ∀ n, n ∈ causalFgNeighbors a conn c.1 c.2 → a.pix n.1 n.2 ≠ 0 :=
    fun n hn => (mem_causal_iff_prev.mp hn).2
  by_cases hpix : a.pix c.1 c.2 = 0
  · have hstep : TwoPass.first_pass_step a conn (L, t) c =
        (L.setL c.1 c.2 0, t) := by
      simp only [TwoPass.first_pass_step, if_pos hpix]
    rw [hstep]
    have hext := @prevConn_extend_bg a conn done c hpix
    refine tpInv_intro ht (by rw [LabelImage.setL_height]; exact hh)
      (by rw [LabelImage.setL_width]; exact hw) ?_ ?_ ?_ ?_
    · intro c' hc' hp'
      rcases (hmem_split c').mp hc' with h | h
      · rw [LabelImage.setL_lab_other _ _ (hne c' h)]
        exact hbg c' h hp'
      · rw [h]
        exact LabelImage.setL_lab_same ..
    · intro c' hc' hp'
      rcases (hmem_split c').mp hc' with h | h
      · obtain ⟨v, hv1, hv2, hveq⟩ := hfg c' h hp'
        exact ⟨v, hv1, hv2, by rw [LabelImage.setL_lab_other _ _ (hne c' h)]; exact hveq⟩
      · rw [h] at hp'
        exact absurd hpix hp'
    · intro i j hij
      have hij1 : (i, j) ∉ done := fun h => hij ((hmem_split (i, j)).mpr (Or.inl h))
      have hij2 : ¬ ((i, j) = c) := fun h => hij ((hmem_split (i, j)).mpr (Or.inr h))
      rw [LabelImage.setL_lab_other _ _ (fun hcc => hij2 (Prod.ext hcc.1 hcc.2))]
      exact hun i j hij1
    · intro c' hc' d hd hp' hpd vc vd hvc hvd
      rcases (hmem_split c').mp hc' with h | h
      · rcases (hmem_split d).mp hd with h' | h'
        · rw [LabelImage.setL_lab_other _ _ (hne c' h)] at hvc
          rw [LabelImage.setL_lab_other _ _ (hne d h')] at hvd
          rw [hext c' d]
          exact hcls c' h d h' hp' hpd vc vd hvc hvd
        · rw [h'] at hpd
          exact absurd hpix hpd
      · rw [h] at hp'
        exact absurd hpix hp'
  · have hext := @prevConn_extend a conn done rest c hsplit hpix
    set nlabels := ((((TwoPass.get_previous_neighbors c.1 c.2 a.width a.height
        conn).filter (fun n => a.pix n.1 n.2 ≠ 0)).map
        (fun n => L.lab n.1 n.2)).filter (fun v => 0 < v)) with hnldef
    have hmem_nl : ∀ w : Int, w ∈ nlabels ↔
        ∃ n ∈ causalFgNeighbors a conn c.1 c.2, L.lab n.1 n.2 = w ∧ 0 < w := by
      intro w
      rw [hnldef]
      exact mem_nlabels
    rcases hnl : nlabels with _ | ⟨v, vs⟩
    · have hN_empty : ∀ n, n ∈ causalFgNeighbors a conn c.1 c.2 → False := by
        intro n hn
        obtain ⟨wn, hw1, hw2, hweq⟩ := hfg n (hN_done n hn) (hN_fg n hn)
        have : L.lab n.1 n.2 ∈ nlabels := by
          rw [hmem_nl]
          refine ⟨n, hn, rfl, ?_⟩
          rw [hweq]
          exact_mod_cast hw1
        rw [hnl] at this
        simp at this
      have hstep : TwoPass.first_pass_step a conn (L, t) c =
          (L.setL c.1 c.2 ((t.make_set.2 : Int)), t.make_set.1) := by
        simp only [TwoPass.first_pass_step, if_neg hpix]
        rw [← hnldef, hnl]
      rw [hstep]
      obtain ⟨hts, hsz, hret, hret1, htrans, hroot_new, hbound⟩ :=
        EquivalenceTable.make_set_spec ht
      refine tpInv_intro hts (by rw [LabelImage.setL_height]; exact hh)
        (by rw [LabelImage.setL_width]; exact hw) ?_ ?_ ?_ ?_
      · intro c' hc' hp'
        rcases (hmem_split c').mp hc' with h | h
        · rw [LabelImage.setL_lab_other _ _ (hne c' h)]
          exact hbg c' h hp'
        · rw [h] at hp'
          exact absurd hp' hpix
      · intro c' hc' hp'
        rcases (hmem_split c').mp hc' with h | h
        · obtain ⟨v, hv1, hv2, hveq⟩ := hfg c' h hp'
          refine ⟨v, hv1, by omega, ?_⟩
          rw [LabelImage.setL_lab_other _ _ (hne c' h)]
          exact hveq
        · refine ⟨t.size, ht.1, by omega, ?_⟩
          rw [h, LabelImage.setL_lab_same, hret]
      · intro i j hij
        have hij1 : (i, j) ∉ done := fun h => hij ((hmem_split (i, j)).mpr (Or.inl h))
        have hij2 : ¬ ((i, j) = c) := fun h => hij ((hmem_split (i, j)).mpr (Or.inr h))
        rw [LabelImage.setL_lab_other _ _ (fun hcc => hij2 (Prod.ext hcc.1 hcc.2))]
        exact hun i j hij1
      · intro c' hc' d hd hp' hpd vc vd hvc hvd
        have hTfalse : ∀ x : Nat × Nat, x ∈ done →
            ((x = c ∨ ∃ n, n ∈ causalFgNeighbors a conn c.1 c.2 ∧
              prevConn a conn done x n) ↔ False) := by
          intro x hx
          constructor
          · rintro (h | ⟨n, hn, _⟩)
            · exact hcd (h ▸ hx)
            · exact hN_empty n hn
          · intro h
            exact h.elim
        have hreq : ∀ y z : Nat, y < t.size → z < t.size →
            (rootEq t.make_set.1.parent y z ↔ rootEq t.parent y z) := by
          intro y z hy hz
          constructor
          · rintro ⟨r, h1, h2⟩
            have hry : ∃ ry, Reaches t.parent y ry :=
              (reaches_total (TableInv_PInv ht) hy).imp (fun _ h => h.1)
            obtain ⟨ry, hry⟩ := hry
            have h1' : Reaches t.make_set.1.parent y ry := (htrans y ry hy).mp hry
            have hr : r = ry := reaches_unique h1 h1'
            rw [hr] at h2
            have hrz : ∃ rz, Reaches t.parent z rz :=
              (reaches_total (TableInv_PInv ht) hz).imp (fun _ h => h.1)
            obtain ⟨rz, hrz⟩ := hrz
            have h2' : Reaches t.make_set.1.parent z rz := (htrans z rz hz).mp hrz
            have hr2 : ry = rz := reaches_unique h2 h2'
            exact ⟨ry, hry, hr2 ▸ hrz⟩
          · rintro ⟨r, h1, h2⟩
            exact ⟨r, (htrans y r hy).mp h1, (htrans z r hz).mp h2⟩
        rcases (hmem_split c').mp hc' with h | h
        · rcases (hmem_split d).mp hd with h' | h'
          · rw [LabelImage.setL_lab_other _ _ (hne c' h)] at hvc
            rw [LabelImage.setL_lab_other _ _ (hne d h')] at hvd
            obtain ⟨wc, hwc1, hwc2, hwceq⟩ := hfg c' h hp'
            obtain ⟨wd, hwd1, hwd2, hwdeq⟩ := hfg d h' hpd
            have hvcw : vc = wc := by
              rw [hvc] at hwceq
              exact_mod_cast hwceq
            have hvdw : vd = wd := by
              rw [hvd] at hwdeq
              exact_mod_cast hwdeq
            subst hvcw
            subst hvdw
            rw [hreq vc vd hwc2 hwd2, hext c' d,
              hcls c' h d h' hp' hpd vc vd hvc hvd]
            rw [hTfalse c' h, hTfalse d h']
            simp
          · rw [h'] at hvd hpd
            rw [LabelImage.setL_lab_same] at hvd
            have hvdsz : vd = t.size := by
              rw [hret] at hvd
              exact_mod_cast hvd.symm
            subst hvdsz
            rw [LabelImage.setL_lab_other _ _ (hne c' h)] at hvc
            obtain ⟨wc, hwc1, hwc2, hwceq⟩ := hfg c' h hp'
            have hvcw : vc = wc := by
              rw [hvc] at hwceq
              exact_mod_cast hwceq
            constructor
            · rintro ⟨r, h1, h2⟩
              obtain ⟨ry, hry, hrysz⟩ := reaches_total (TableInv_PInv ht)
                (show vc < t.parent.length from hvcw ▸ hwc2)
              have h1' : Reaches t.make_set.1.parent vc ry :=
                (htrans vc ry (hvcw ▸ hwc2)).mp hry
              have hr : r = ry := reaches_unique h1 h1'
              rw [hr] at h2
              have h2' : Reaches t.make_set.1.parent t.size t.size :=
                reaches_root_self hroot_new
              have : ry = t.size := reaches_unique h2 h2'
              have hrysz' : ry < t.size := by
                have := hbound vc ry (hvcw ▸ hwc2) hry
                exact this
              omega
            · intro hpc
              rw [hext c' d] at hpc
              rcases hpc with hpc | ⟨hT1, hT2⟩
              · rw [h'] at hpc
                have := prevConn_isolated hcd
                  (Relation.ReflTransGen.symmetric
                    (fun p q hpq => prevAdj_symm hpq) hpc)
                rw [this] at h
                exact absurd h hcd
              · rw [hTfalse c' h] at hT1
                exact hT1.elim
        · rw [h] at hvc hp'
          rw [LabelImage.setL_lab_same] at hvc
          have hvcsz : vc = t.size := by
            rw [hret] at hvc
            exact_mod_cast hvc.symm
          subst hvcsz
          rcases (hmem_split d).mp hd with h' | h'
          · rw [LabelImage.setL_lab_other _ _ (hne d h')] at hvd
            obtain ⟨wd, hwd1, hwd2, hwdeq⟩ := hfg d h' hpd
            have hvdw : vd = wd := by
              rw [hvd] at hwdeq
              exact_mod_cast hwdeq
            constructor
            · rintro ⟨r, h1, h2⟩
              have h1' : Reaches t.make_set.1.parent t.size t.size :=
                reaches_root_self hroot_new
              have hr : r = t.size := reaches_unique h1 h1'
              subst hr
              obtain ⟨ry, hry, _⟩ := reaches_total (TableInv_PInv ht)
                (show vd < t.parent.length from hvdw ▸ hwd2)
              have h2' : Reaches t.make_set.1.parent vd ry :=
                (htrans vd ry (hvdw ▸ hwd2)).mp hry
              have : t.size = ry := reaches_unique h2 h2'
              have hrysz' : ry < t.size := hbound vd ry (hvdw ▸ hwd2) hry
              omega
            · intro hpc
              rw [hext c' d] at hpc
              rcases hpc with hpc | ⟨hT1, hT2⟩
              · rw [h] at hpc
                have := prevConn_isolated hcd hpc
                rw [this] at h'
                exact absurd h' hcd
              · rw [hTfalse d h'] at hT2
                exact hT2.elim
          · rw [h'] at hvd
            rw [LabelImage.setL_lab_same] at hvd
            have hvdsz : vd = t.size := by
              rw [hret] at hvd
              exact_mod_cast hvd.symm
            subst hvdsz
            constructor
            · intro _
              rw [h, h']
              exact Relation.ReflTransGen.refl
            · intro _
              exact ⟨t.size, reaches_root_self hroot_new,
                reaches_root_self hroot_new⟩
    · have hm_mem : listMinFrom v vs ∈ nlabels := by
        rw [hnl]
        exact listMinFrom_mem vs v
      obtain ⟨nm, hnm, hnmlab, hnmpos⟩ := (hmem_nl _).mp hm_mem
      obtain ⟨mn, hmn1, hmn2, hmneq⟩ := hfg nm (hN_done nm hnm) (hN_fg nm hnm)
      have hm_eq : listMinFrom v vs = (mn : Int) := by
        rw [← hnmlab, hmneq]
      have hstep : TwoPass.first_pass_step a conn (L, t) c =
          (L.setL c.1 c.2 (listMinFrom v vs),
            (v :: vs).foldl (fun t' w =>
              if w ≠ listMinFrom v vs then t'.unite (listMinFrom v vs) w
              else t') t) := by
        simp only [TwoPass.first_pass_step, if_neg hpix]
        rw [← hnldef, hnl]
      rw [hm_eq] at hstep
      rw [hstep]
      have hrefl : ∀ y, y < t.size → rootEq t.parent y y := by
        intro y hy
        obtain ⟨r, hr, _⟩ := reaches_total (TableInv_PInv ht)
          (show y < t.parent.length from hy)
        exact ⟨r, hr, hr⟩
      have hws : ∀ w ∈ v :: vs, ∃ wn : Nat, w = (wn : Int) ∧ 1 ≤ wn ∧
          wn < t.size := by
        intro w hwmem
        have : w ∈ nlabels := by rw [hnl]; exact hwmem
        obtain ⟨n, hn, hlabn, hposn⟩ := (hmem_nl w).mp this
        obtain ⟨wn, hw1, hw2, hweq⟩ := hfg n (hN_done n hn) (hN_fg n hn)
        refine ⟨wn, ?_, hw1, hw2⟩
        rw [← hlabn, hweq]
      have hcls0 : ∀ y z, y < t.size → z < t.size →
          (rootEq t.parent y z ↔ (rootEq t.parent y z ∨
            ((∃ u ∈ [mn], rootEq t.parent y u) ∧
             (∃ u ∈ [mn], rootEq t.parent z u)))) := by
        intro y z hy hz
        constructor
        · exact Or.inl
        · rintro (h | ⟨⟨u, hu, hru⟩, ⟨u', hu', hru'⟩⟩)
          · exact h
          · have hum : u = mn := by simpa using hu
            have hum' : u' = mn := by simpa using hu'
            rw [hum] at hru
            rw [hum'] at hru'
            exact rootEq_trans hru (rootEq_symm hru')
      obtain ⟨ht1, hsz1, hcls1⟩ := tp_unite_fold_spec hmn1 hmn2 hrefl
        (v :: vs) t [mn] ht rfl (by simp) hws (by
          intro u hu
          have : u = mn := by simpa using hu
          rw [this]
          exact hmn2) hcls0
      have htch : ∀ d ∈ done, a.pix d.1 d.2 ≠ 0 → ∀ vd : Nat,
          L.lab d.1 d.2 = (vd : Int) →
          ((∃ u : Nat, (u ∈ [mn] ∨ (u : Int) ∈ v :: vs) ∧
              rootEq t.parent vd u) ↔
            ∃ n, n ∈ causalFgNeighbors a conn c.1 c.2 ∧
              prevConn a conn done d n) := by
        intro d hd hpd vd hvd
        constructor
        · rintro ⟨u, hu, hru⟩
          rcases hu with hu | hu
          · have hum : u = mn := by simpa using hu
            rw [hum] at hru
            refine ⟨nm, hnm, ?_⟩
            exact (hcls d hd nm (hN_done nm hnm) hpd (hN_fg nm hnm) vd mn
              hvd hmneq).mp hru
          · have : (u : Int) ∈ nlabels := by rw [hnl]; exact hu
            obtain ⟨n, hn, hlabn, _⟩ := (hmem_nl _).mp this
            refine ⟨n, hn, ?_⟩
            exact (hcls d hd n (hN_done n hn) hpd (hN_fg n hn) vd u
              hvd hlabn).mp hru
        · rintro ⟨n, hn, hconn⟩
          obtain ⟨wn, hw1, hw2, hweq⟩ := hfg n (hN_done n hn) (hN_fg n hn)
          refine ⟨wn, Or.inr ?_, ?_⟩
          · have : L.lab n.1 n.2 ∈ nlabels := by
              rw [hmem_nl]
              refine ⟨n, hn, rfl, ?_⟩
              rw [hweq]
              exact_mod_cast hw1
            rw [hnl, hweq] at this
            exact this
          · exact (hcls d hd n (hN_done n hn) hpd (hN_fg n hn) vd wn
              hvd hweq).mpr hconn
      refine tpInv_intro ht1 (by rw [LabelImage.setL_height]; exact hh)
        (by rw [LabelImage.setL_width]; exact hw) ?_ ?_ ?_ ?_
      · intro c' hc' hp'
        rcases (hmem_split c').mp hc' with h | h
        · rw [LabelImage.setL_lab_other _ _ (hne c' h)]
          exact hbg c' h hp'
        · rw [h] at hp'
          exact absurd hp' hpix
      · intro c' hc' hp'
        rcases (hmem_split c').mp hc' with h | h
        · obtain ⟨w, hw1, hw2, hweq⟩ := hfg c' h hp'
          refine ⟨w, hw1, by rw [hsz1]; exact hw2, ?_⟩
          rw [LabelImage.setL_lab_other _ _ (hne c' h)]
          exact hweq
        · refine ⟨mn, hmn1, by rw [hsz1]; exact hmn2, ?_⟩
          rw [h, LabelImage.setL_lab_same]
      · intro i j hij
        have hij1 : (i, j) ∉ done := fun h => hij ((hmem_split (i, j)).mpr (Or.inl h))
        have hij2 : ¬ ((i, j) = c) := fun h => hij ((hmem_split (i, j)).mpr (Or.inr h))
        rw [LabelImage.setL_lab_other _ _ (fun hcc => hij2 (Prod.ext hcc.1 hcc.2))]
        exact hun i j hij1
      · intro c' hc' d hd hp' hpd vc vd hvc hvd
        rcases (hmem_split c').mp hc' with h | h
        · rcases (hmem_split d).mp hd with h' | h'
          · rw [LabelImage.setL_lab_other _ _ (hne c' h)] at hvc
            rw [LabelImage.setL_lab_other _ _ (hne d h')] at hvd
            obtain ⟨wc, hwc1, hwc2, hwceq⟩ := hfg c' h hp'
            obtain ⟨wd, hwd1, hwd2, hwdeq⟩ := hfg d h' hpd
            have hvcw : vc = wc := by
              rw [hvc] at hwceq
              exact_mod_cast hwceq
            have hvdw : vd = wd := by
              rw [hvd] at hwdeq
              exact_mod_cast hwdeq
            rw [hcls1 vc vd (hvcw ▸ hwc2) (hvdw ▸ hwd2), hext c' d,
              hcls c' h d h' hp' hpd vc vd hvc hvd]
            have hTc : (c' = c ∨ ∃ n, n ∈ causalFgNeighbors a conn c.1 c.2 ∧
                prevConn a conn done c' n) ↔
                ∃ n, n ∈ causalFgNeighbors a conn c.1 c.2 ∧
                  prevConn a conn done c' n := by
              constructor
              · rintro (hcc | hcc)
                · exact absurd (hcc ▸ h) hcd
                · exact hcc
              · exact Or.inr
            have hTd : (d = c ∨ ∃ n, n ∈ causalFgNeighbors a conn c.1 c.2 ∧
                prevConn a conn done d n) ↔
                ∃ n, n ∈ causalFgNeighbors a conn c.1 c.2 ∧
                  prevConn a conn done d n := by
              constructor
              · rintro (hcc | hcc)
                · exact absurd (hcc ▸ h') hcd
                · exact hcc
              · exact Or.inr
            rw [hTc, hTd, htch c' h hp' vc hvc, htch d h' hpd vd hvd]
          · rw [h'] at hvd
            rw [LabelImage.setL_lab_same] at hvd
            have hvdm : vd = mn := by exact_mod_cast hvd.symm
            rw [hvdm]
            rw [LabelImage.setL_lab_other _ _ (hne c' h)] at hvc
            obtain ⟨wc, hwc1, hwc2, hwceq⟩ := hfg c' h hp'
            have hvcw : vc = wc := by
              rw [hvc] at hwceq
              exact_mod_cast hwceq
            rw [hcls1 vc mn (hvcw ▸ hwc2) hmn2, hext c' d]
            have hiso : prevConn a conn done c' d ↔ False := by
              constructor
              · intro hpc
                rw [h'] at hpc
                have := prevConn_isolated hcd
                  (Relation.ReflTransGen.symmetric
                    (fun p q hpq => prevAdj_symm hpq) hpc)
                rw [this] at h
                exact absurd h hcd
              · exact False.elim
            have hTd : (d = c ∨ ∃ n, n ∈ causalFgNeighbors a conn c.1 c.2 ∧
                prevConn a conn done d n) ↔ True := by
              simp [h']
            have hTc : (c' = c ∨ ∃ n, n ∈ causalFgNeighbors a conn c.1 c.2 ∧
                prevConn a conn done c' n) ↔
                ∃ n, n ∈ causalFgNeighbors a conn c.1 c.2 ∧
                  prevConn a conn done c' n := by
              constructor
              · rintro (hcc | hcc)
                · exact absurd (hcc ▸ h) hcd
                · exact hcc
              · exact Or.inr
            rw [hiso, hTc, hTd]
            constructor
            · rintro (hre | ⟨hT1, hT2⟩)
              · exact Or.inr ⟨(htch c' h hp' vc hvc).mp
                  ⟨mn, Or.inl (by simp), hre⟩, trivial⟩
              · exact Or.inr ⟨(htch c' h hp' vc hvc).mp hT1, trivial⟩
            · rintro (hfalse | ⟨hT1, -⟩)
              · exact hfalse.elim
              · exact Or.inr ⟨(htch c' h hp' vc hvc).mpr hT1,
                  ⟨mn, Or.inl (by simp), hrefl mn hmn2⟩⟩
        · rw [h] at hvc
          rw [LabelImage.setL_lab_same] at hvc
          have hvcm : vc = mn := by exact_mod_cast hvc.symm
          rw [hvcm]
          rcases (hmem_split d).mp hd with h' | h'
          · rw [LabelImage.setL_lab_other _ _ (hne d h')] at hvd
            obtain ⟨wd, hwd1, hwd2, hwdeq⟩ := hfg d h' hpd
            have hvdw : vd = wd := by
              rw [hvd] at hwdeq
              exact_mod_cast hwdeq
            rw [hcls1 mn vd hmn2 (hvdw ▸ hwd2), hext c' d]
            have hiso : prevConn a conn done c' d ↔ False := by
              constructor
              · intro hpc
                rw [h] at hpc
                have := prevConn_isolated hcd hpc
                rw [this] at h'
                exact absurd h' hcd
              · exact False.elim
            have hTc : (c' = c ∨ ∃ n, n ∈ causalFgNeighbors a conn c.1 c.2 ∧
                prevConn a conn done c' n) ↔ True := by
              simp [h]
            have hTd : (d = c ∨ ∃ n, n ∈ causalFgNeighbors a conn c.1 c.2 ∧
                prevConn a conn done d n) ↔
                ∃ n, n ∈ causalFgNeighbors a conn c.1 c.2 ∧
                  prevConn a conn done d n := by
              constructor
              · rintro (hcc | hcc)
                · exact absurd (hcc ▸ h') hcd
                · exact hcc
              · exact Or.inr
            rw [hiso, hTc, hTd]
            constructor
            · rintro (hre | ⟨hT1, hT2⟩)
              · exact Or.inr ⟨trivial, (htch d h' hpd vd hvd).mp
                  ⟨mn, Or.inl (by simp), rootEq_symm hre⟩⟩
              · exact Or.inr ⟨trivial, (htch d h' hpd vd hvd).mp hT2⟩
            · rintro (hfalse | ⟨-, hT2⟩)
              · exact hfalse.elim
              · exact Or.inr ⟨⟨mn, Or.inl (by simp), hrefl mn hmn2⟩,
                  (htch d h' hpd vd hvd).mpr hT2⟩
          · rw [h'] at hvd
            rw [LabelImage.setL_lab_same] at hvd
            have hvdm : vd = mn := by exact_mod_cast hvd.symm
            rw [hvdm]
            constructor
            · intro _
              rw [h, h']
              exact Relation.ReflTransGen.refl
            · intro _
              have hsz2 : mn < ((v :: vs).foldl (fun t' w =>
                  if w ≠ (mn : Int) then t'.unite (mn : Int) w else t') t).size := by
                rw [hsz1]
                exact hmn2
              obtain ⟨r, hr, _⟩ := reaches_total (TableInv_PInv ht1) hsz2
              exact ⟨r, hr, hr⟩

theorem tp_first_pass_inv {a : Image} {conn : Int} :
    ∀ (rest done : List (Nat × Nat)) (st : LabelImage × EquivalenceTable),
      done ++ rest = coords a.height a.width →
      TPInv a conn done st →
      TPInv a conn (done ++ rest)
        (rest.foldl (TwoPass.first_pass_step a conn) st) := by
  intro rest
  induction rest with
  | nil =>
    intro done st _ hinv
    rw [List.foldl_nil, List.append_nil]
    exact hinv
  | cons c rest ih =>
    intro done st hsplit hinv
    have hassoc : done ++ c :: rest = (done ++ [c]) ++ rest := by
      rw [List.append_assoc]
      rfl
    rw [List.foldl_cons, hassoc]
    refine ih (done ++ [c]) _ ?_ (tp_step_inv hsplit hinv)
    rw [← hassoc]
    exact hsplit

theorem tp_first_pass_spec (a : Image) (conn : Int) :
    TPInv a conn (coords a.height a.width)
      (TwoPass.first_pass a conn
        (zeroLabels a.height a.width, EquivalenceTable.init)) := by
  have hbase : TPInv a conn []
      (zeroLabels a.height a.width, EquivalenceTable.init) := by
    refine tpInv_intro tableInv_init rfl rfl ?_ ?_ ?_ ?_
    · intro c hc
      simp at hc
    · intro c hc
      simp at hc
    · intro i j _
      rfl
    · intro c hc
      simp at hc
  rw [TwoPass.first_pass]
  exact tp_first_pass_inv (coords a.height a.width) [] _ rfl hbase

theorem tp_second_pass_spec {a : Image} {L1 : LabelImage}
    {t1 : EquivalenceTable}
    (hfg1 : ∀ c ∈ coords a.height a.width, 0 < L1.lab c.1 c.2 →
      ∃ v : Nat, 1 ≤ v ∧ v < t1.size ∧ L1.lab c.1 c.2 = (v : Int)) :
    ∀ (rest done : List (Nat × Nat)) (L2 : LabelImage) (t2 : EquivalenceTable),
      (done ++ rest).Nodup →
      (∀ c ∈ rest, c ∈ coords a.height a.width) →
      TableInv t2 → t2.size = t1.size →
      (∀ y s, Reaches t2.parent y s ↔ Reaches t1.parent y s) →
      L2.height = L1.height → L2.width = L1.width →
      (∀ c ∈ done,
        (L1.lab c.1 c.2 ≤ 0 → L2.lab c.1 c.2 = L1.lab c.1 c.2) ∧
        (0 < L1.lab c.1 c.2 → ∃ v r : Nat, L1.lab c.1 c.2 = (v : Int) ∧
          Reaches t1.parent v r ∧ 1 ≤ r ∧ L2.lab c.1 c.2 = (r : Int))) →
      (∀ c : Nat × Nat, c ∉ done → L2.lab c.1 c.2 = L1.lab c.1 c.2) →
      TableInv (rest.foldl TwoPass.second_pass_step (L2, t2)).2 ∧
      (rest.foldl TwoPass.second_pass_step (L2, t2)).2.size = t1.size ∧
      (∀ y s, Reaches (rest.foldl TwoPass.second_pass_step (L2, t2)).2.parent
        y s ↔ Reaches t1.parent y s) ∧
      (rest.foldl TwoPass.second_pass_step (L2, t2)).1.height = L1.height ∧
      (rest.foldl TwoPass.second_pass_step (L2, t2)).1.width = L1.width ∧
      (∀ c ∈ done ++ rest,
        (L1.lab c.1 c.2 ≤ 0 →
          (rest.foldl TwoPass.second_pass_step (L2, t2)).1.lab c.1 c.2 =
            L1.lab c.1 c.2) ∧
        (0 < L1.lab c.1 c.2 → ∃ v r : Nat, L1.lab c.1 c.2 = (v : Int) ∧
          Reaches t1.parent v r ∧ 1 ≤ r ∧
          (rest.foldl TwoPass.second_pass_step (L2, t2)).1.lab c.1 c.2 =
            (r : Int))) ∧
      (∀ c : Nat × Nat, c ∉ done ++ rest →
        (rest.foldl TwoPass.second_pass_step (L2, t2)).1.lab c.1 c.2 =
          L1.lab c.1 c.2) := by
  intro rest
  induction rest with
  | nil =>
    intro done L2 t2 hnd hrest ht2 hsz2 hiff2 hh2 hw2 hdone hframe
    rw [List.foldl_nil]
    refine ⟨ht2, hsz2, hiff2, hh2, hw2, ?_, ?_⟩
    · intro c hc
      rw [List.append_nil] at hc
      exact hdone c hc
    · intro c hc
      rw [List.append_nil] at hc
      exact hframe c hc
  | cons c rest ih =>
    intro done L2 t2 hnd hrest ht2 hsz2 hiff2 hh2 hw2 hdone hframe
    have hassoc : done ++ c :: rest = (done ++ [c]) ++ rest := by
      rw [List.append_assoc]
      rfl
    have hcd : c ∉ done := by
      obtain ⟨_, _, hdisj⟩ := List.nodup_append.mp hnd
      intro h
      exact hdisj h (List.mem_cons_self c rest)
    have hcc : c ∈ coords a.height a.width := hrest c (List.mem_cons_self c rest)
    have hlab2c : L2.lab c.1 c.2 = L1.lab c.1 c.2 := hframe c hcd
    have hmem_split : ∀ c' : Nat × Nat, c' ∈ done ++ [c] ↔
        c' ∈ done ∨ c' = c := by
      intro c'
      simp [List.mem_append]
    have hne : ∀ c' : Nat × Nat, c' ∈ done → ¬ (c'.1 = c.1 ∧ c'.2 = c.2) := by
      intro c' hc' hcc'
      exact hcd ((Prod.ext hcc'.1 hcc'.2 : c' = c) ▸ hc')
    rw [List.foldl_cons, hassoc]
    by_cases hpos : 0 < L2.lab c.1 c.2
    · obtain ⟨v, hv1, hv2, hveq⟩ := hfg1 c hcc (by rw [← hlab2c]; exact hpos)
      obtain ⟨t', r, hfeq, hreach, hr1, hrv, ht', hsz', hiff'⟩ :=
        EquivalenceTable.find_spec ht2 hv1 (by rw [hsz2]; exact hv2)
      have hstep : TwoPass.second_pass_step (L2, t2) c =
          (L2.setL c.1 c.2 ((r : Int)), t') := by
        simp only [TwoPass.second_pass_step, if_pos hpos]
        rw [hlab2c, hveq, hfeq]
      rw [hstep]
      have hreach1 : Reaches t1.parent v r := (hiff2 v r).mp hreach
      have hiffn : ∀ y s, Reaches t'.parent y s ↔ Reaches t1.parent y s := by
        intro y s
        rw [← hiff' y s]
        exact hiff2 y s
      refine ih (done ++ [c]) (L2.setL c.1 c.2 ((r : Int))) t'
        (by rw [← hassoc]; exact hnd)
        (fun c' hc' => hrest c' (List.mem_cons_of_mem c hc'))
        ht' (by rw [hsz', hsz2]) hiffn
        (by rw [LabelImage.setL_height]; exact hh2)
        (by rw [LabelImage.setL_width]; exact hw2) ?_ ?_
      · intro c' hc'
        rcases (hmem_split c').mp hc' with h | h
        · obtain ⟨ha, hb⟩ := hdone c' h
          constructor
          · intro h0
            rw [LabelImage.setL_lab_other _ _ (hne c' h)]
            exact ha h0
          · intro h0
            obtain ⟨v', r', e1, e2, e3, e4⟩ := hb h0
            exact ⟨v', r', e1, e2, e3,
              by rw [LabelImage.setL_lab_other _ _ (hne c' h)]; exact e4⟩
        · constructor
          · intro h0
            rw [h, ← hlab2c] at h0
            omega
          · intro h0
            refine ⟨v, r, by rw [h]; exact hveq, hreach1, hr1, ?_⟩
            rw [h]
            exact LabelImage.setL_lab_same ..
      · intro c' hc'
        have h1 : c' ∉ done := fun h => hc' ((hmem_split c').mpr (Or.inl h))
        have h2 : ¬ (c' = c) := fun h => hc' ((hmem_split c').mpr (Or.inr h))
        rw [LabelImage.setL_lab_other _ _
          (fun hcc' => h2 (Prod.ext hcc'.1 hcc'.2))]
        exact hframe c' h1
    · have hstep : TwoPass.second_pass_step (L2, t2) c = (L2, t2) := by
        simp only [TwoPass.second_pass_step, if_neg hpos]
      rw [hstep]
      refine ih (done ++ [c]) L2 t2 (by rw [← hassoc]; exact hnd)
        (fun c' hc' => hrest c' (List.mem_cons_of_mem c hc'))
        ht2 hsz2 hiff2 hh2 hw2 ?_ ?_
      · intro c' hc'
        rcases (hmem_split c').mp hc' with h | h
        · exact hdone c' h
        · constructor
          · intro _
            rw [h]
            exact hlab2c
          · intro h0
            rw [h, ← hlab2c] at h0
            exact absurd h0 hpos
      · intro c' hc'
        have h1 : c' ∉ done := fun h => hc' ((hmem_split c').mpr (Or.inl h))
        exact hframe c' h1

theorem prevAdj_coords_iff_adjacent {a : Image} {conn : Int} {x y : Nat × Nat} :
    prevAdj a conn (coords a.height a.width) x y ↔ Adjacent a conn x y := by
  constructor
  · rintro ⟨hx, hy, hfx, hfy, hn | hn⟩
    · exact causal_adjacent hfx (mem_causal_iff_prev.mpr ⟨hn, hfy⟩)
    · exact adjacent_symm (causal_adjacent hfy (mem_causal_iff_prev.mpr ⟨hn, hfx⟩))
  · intro hadj
    have hfx := hadj.1
    have hfy := hadj.2.1
    obtain ⟨hx1, hx2⟩ := fg_bounds hfx
    obtain ⟨hy1, hy2⟩ := fg_bounds hfy
    refine ⟨mem_coords.mpr ⟨hx1, hx2⟩, mem_coords.mpr ⟨hy1, hy2⟩, hfx, hfy, ?_⟩
    rcases adjacent_causal hadj with h | h
    · exact Or.inl (mem_causal_iff_prev.mp h).1
    · exact Or.inr (mem_causal_iff_prev.mp h).1

theorem prevConn_coords_iff_connected {a : Image} {conn : Int}
    {x y : Nat × Nat} :
    prevConn a conn (coords a.height a.width) x y ↔ Connected a conn x y := by
  constructor
  · exact Relation.ReflTransGen.mono
      (fun p q h => prevAdj_coords_iff_adjacent.mp h)
  · exact Relation.ReflTransGen.mono
      (fun p q h => prevAdj_coords_iff_adjacent.mpr h)

theorem TwoPass.label_eq_folds (a : Image) (conn : Int) :
    TwoPass.label a conn = ((coords a.height a.width).foldl
      TwoPass.second_pass_step (TwoPass.first_pass a conn
        (zeroLabels a.height a.width, EquivalenceTable.init))).1 := rfl

theorem twoPass_final_facts (a : Image) (conn : Int) :
    (∀ i j, a.pix i j = 0 → (TwoPass.label a conn).lab i j = 0) ∧
    (∀ c ∈ coords a.height a.width, a.pix c.1 c.2 ≠ 0 →
      ∃ v r : Nat,
        (TwoPass.first_pass a conn (zeroLabels a.height a.width,
          EquivalenceTable.init)).1.lab c.1 c.2 = (v : Int) ∧
        Reaches (TwoPass.first_pass a conn (zeroLabels a.height a.width,
          EquivalenceTable.init)).2.parent v r ∧ 1 ≤ r ∧
        (TwoPass.label a conn).lab c.1 c.2 = (r : Int)) := by
  obtain ⟨ht1, hh1, hw1, hbg1, hfg1, hun1, hcls1⟩ := tp_first_pass_spec a conn
  set st1 := TwoPass.first_pass a conn
    (zeroLabels a.height a.width, EquivalenceTable.init) with hst1
  have hfg1' : ∀ c ∈ coords a.height a.width, 0 < st1.1.lab c.1 c.2 →
      ∃ v : Nat, 1 ≤ v ∧ v < st1.2.size ∧ st1.1.lab c.1 c.2 = (v : Int) := by
    intro c hc hpos
    by_cases hp : a.pix c.1 c.2 = 0
    · rw [hbg1 c hc hp] at hpos
      omega
    · exact hfg1 c hc hp
  obtain ⟨hta, hsza, hiffa, hha, hwa, hdone, hframe⟩ :=
    tp_second_pass_spec hfg1' (coords a.height a.width) [] st1.1 st1.2
      (coords_nodup _ _) (fun c hc => hc) ht1 rfl (fun y s => Iff.rfl)
      rfl rfl (by intro c hc; simp at hc) (fun c _ => rfl)
  constructor
  · intro i j hp
    rw [TwoPass.label_eq_folds, ← hst1]
    by_cases hc : (i, j) ∈ coords a.height a.width
    · have hl0 : st1.1.lab i j = 0 := hbg1 (i, j) hc hp
      have h2 := (hdone (i, j) hc).1 (by rw [hl0])
      exact h2.trans hl0
    · have h2 := hframe (i, j) hc
      exact h2.trans (hun1 i j hc)
  · intro c hc hp
    obtain ⟨v, hv1, hv2, hveq⟩ := hfg1 c hc hp
    have hpos : 0 < st1.1.lab c.1 c.2 := by
      rw [hveq]
      exact_mod_cast hv1
    obtain ⟨v', r, he1, he2, he3, he4⟩ := (hdone c hc).2 hpos
    have hvv : v' = v := by
      rw [hveq] at he1
      exact_mod_cast he1.symm
    rw [hvv] at he1 he2
    refine ⟨v, r, he1, he2, he3, ?_⟩
    rw [TwoPass.label_eq_folds, ← hst1]
    exact he4

theorem TwoPass.label_bg_zero (a : Image) (conn : Int) {i j : Nat}
    (h : a.pix i j = 0) : (TwoPass.label a conn).lab i j = 0 :=
  (twoPass_final_facts a conn).1 i j h

theorem TwoPass.label_fg_one_le (a : Image) (conn : Int) {c : Nat × Nat}
    (hc : c ∈ coords a.height a.width) (hp : a.pix c.1 c.2 ≠ 0) :
    1 ≤ (TwoPass.label a conn).lab c.1 c.2 := by
  obtain ⟨v, r, _, _, hr1, hlab⟩ := (twoPass_final_facts a conn).2 c hc hp
  rw [hlab]
  exact_mod_cast hr1

theorem TwoPass.label_eq_iff_conn (a : Image) (conn : Int) {c d : Nat × Nat}
    (hc : c ∈ coords a.height a.width) (hd : d ∈ coords a.height a.width)
    (hpc : a.pix c.1 c.2 ≠ 0) (hpd : a.pix d.1 d.2 ≠ 0) :
    (TwoPass.label a conn).lab c.1 c.2 = (TwoPass.label a conn).lab d.1 d.2 ↔
      Connected a conn c d := by
  obtain ⟨ht1, hh1, hw1, hbg1, hfg1, hun1, hcls1⟩ := tp_first_pass_spec a conn
  obtain ⟨vc, rc, hc1, hc2, hc3, hc4⟩ := (twoPass_final_facts a conn).2 c hc hpc
  obtain ⟨vd, rd, hd1, hd2, hd3, hd4⟩ := (twoPass_final_facts a conn).2 d hd hpd
  rw [hc4, hd4]
  have hroots : rootEq (TwoPass.first_pass a conn (zeroLabels a.height a.width,
      EquivalenceTable.init)).2.parent vc vd ↔ Connected a conn c d := by
    rw [hcls1 c hc d hd hpc hpd vc vd hc1 hd1]
    exact prevConn_coords_iff_connected
  rw [← hroots, rootEq_iff_roots hc2 hd2]
  constructor
  · intro h
    exact_mod_cast h
  · intro h
    exact_mod_cast h

theorem mem_labels_toFinset {a : Image} (L : LabelImage) (v : Int) :
    v ∈ (((coords a.height a.width).map (fun c => L.lab c.1 c.2)).filter
      (fun v => 0 < v)).toFinset ↔
    ∃ c ∈ coords a.height a.width, L.lab c.1 c.2 = v ∧ 0 < v := by
  rw [List.mem_toFinset, List.mem_filter, List.mem_map]
  constructor
  · rintro ⟨⟨c, hc, rfl⟩, hp⟩
    exact ⟨c, hc, rfl, by simpa using hp⟩
  · rintro ⟨c, hc, rfl, hp⟩
    exact ⟨⟨c, hc, rfl⟩, by simpa using hp⟩

theorem count_eq_of_same_partition {a : Image} {L1 L2 : LabelImage}
    (hh1 : L1.height = a.height) (hw1 : L1.width = a.width)
    (hh2 : L2.height = a.height) (hw2 : L2.width = a.width)
    (hbg1 : ∀ i j, a.pix i j = 0 → L1.lab i j = 0)
    (hbg2 : ∀ i j, a.pix i j = 0 → L2.lab i j = 0)
    (hpos1 : ∀ c ∈ coords a.height a.width, a.pix c.1 c.2 ≠ 0 →
      1 ≤ L1.lab c.1 c.2)
    (hpos2 : ∀ c ∈ coords a.height a.width, a.pix c.1 c.2 ≠ 0 →
      1 ≤ L2.lab c.1 c.2)
    (hpart : ∀ c ∈ coords a.height a.width, ∀ d ∈ coords a.height a.width,
      a.pix c.1 c.2 ≠ 0 → a.pix d.1 d.2 ≠ 0 →
      (L1.lab c.1 c.2 = L1.lab d.1 d.2 ↔ L2.lab c.1 c.2 = L2.lab d.1 d.2)) :
    L1.count_labels = L2.count_labels := by
  classical
  rw [LabelImage.count_labels, LabelImage.count_labels, hh1, hw1, hh2, hw2,
    ← List.card_toFinset, ← List.card_toFinset]
  have hfg : ∀ (L : LabelImage)
      (hbgL : ∀ i j, a.pix i j = 0 → L.lab i j = 0) (c : Nat × Nat),
      0 < L.lab c.1 c.2 → a.pix c.1 c.2 ≠ 0 := by
    intro L hbgL c h0 hp
    rw [hbgL c.1 c.2 hp] at h0
    omega
  refine Finset.card_bij (fun v hv =>
    L2.lab (((mem_labels_toFinset (a := a) L1 v).mp hv).choose).1
      (((mem_labels_toFinset (a := a) L1 v).mp hv).choose).2) ?_ ?_ ?_
  · intro v hv
    dsimp only
    obtain ⟨hc, hlab, hp⟩ := ((mem_labels_toFinset (a := a) L1 v).mp hv).choose_spec
    have hfgc := hfg L1 hbg1 _ (hlab ▸ hp)
    rw [mem_labels_toFinset]
    refine ⟨_, hc, rfl, ?_⟩
    have := hpos2 _ hc hfgc
    omega
  · intro v1 hv1 v2 hv2 heq
    dsimp only at heq
    obtain ⟨hc1, hlab1, hp1⟩ :=
      ((mem_labels_toFinset (a := a) L1 v1).mp hv1).choose_spec
    obtain ⟨hc2, hlab2, hp2⟩ :=
      ((mem_labels_toFinset (a := a) L1 v2).mp hv2).choose_spec
    have hfg1 := hfg L1 hbg1 _ (hlab1 ▸ hp1)
    have hfg2 := hfg L1 hbg1 _ (hlab2 ▸ hp2)
    have := (hpart _ hc1 _ hc2 hfg1 hfg2).mpr heq
    rw [hlab1, hlab2] at this
    exact this
  · intro w hw
    obtain ⟨d, hd, hlabd, hpd⟩ := (mem_labels_toFinset (a := a) L2 w).mp hw
    have hfgd := hfg L2 hbg2 d (hlabd ▸ hpd)
    have hv : L1.lab d.1 d.2 ∈ (((coords a.height a.width).map
        (fun c => L1.lab c.1 c.2)).filter (fun v => 0 < v)).toFinset := by
      rw [mem_labels_toFinset]
      refine ⟨d, hd, rfl, ?_⟩
      have := hpos1 d hd hfgd
      omega
    refine ⟨L1.lab d.1 d.2, hv, ?_⟩
    dsimp only
    obtain ⟨hc, hlab, hp⟩ :=
      ((mem_labels_toFinset (a := a) L1 (L1.lab d.1 d.2)).mp hv).choose_spec
    have hfgc := hfg L1 hbg1 _ (hlab ▸ hp)
    have := (hpart _ hc d hd hfgc hfgd).mp hlab
    rw [this, hlabd]

theorem count_le_of_refines {a : Image} {L1 L2 : LabelImage}
    (hh1 : L1.height = a.height) (hw1 : L1.width = a.width)
    (hh2 : L2.height = a.height) (hw2 : L2.width = a.width)
    (hbg2 : ∀ i j, a.pix i j = 0 → L2.lab i j = 0)
    (hpos1 : ∀ c ∈ coords a.height a.width, a.pix c.1 c.2 ≠ 0 →
      1 ≤ L1.lab c.1 c.2)
    (href : ∀ c ∈ coords a.height a.width, ∀ d ∈ coords a.height a.width,
      a.pix c.1 c.2 ≠ 0 → a.pix d.1 d.2 ≠ 0 →
      L1.lab c.1 c.2 = L1.lab d.1 d.2 → L2.lab c.1 c.2 = L2.lab d.1 d.2) :
    L2.count_labels ≤ L1.count_labels := by
  classical
  rw [LabelImage.count_labels, LabelImage.count_labels, hh1, hw1, hh2, hw2,
    ← List.card_toFinset, ← List.card_toFinset]
  have hfg : ∀ (c : Nat × Nat), 0 < L2.lab c.1 c.2 → a.pix c.1 c.2 ≠ 0 := by
    intro c h0 hp
    rw [hbg2 c.1 c.2 hp] at h0
    omega
  refine Finset.card_le_card_of_injOn (fun w =>
    if h : ∃ c ∈ coords a.height a.width, L2.lab c.1 c.2 = w ∧ 0 < w then
      L1.lab h.choose.1 h.choose.2 else 0) ?_ ?_
  · intro w hw
    dsimp only
    have hex := (mem_labels_toFinset (a := a) L2 w).mp hw
    rw [dif_pos hex]
    obtain ⟨hc, hlab, hp⟩ := hex.choose_spec
    have hfgc := hfg _ (hlab ▸ hp)
    rw [mem_labels_toFinset]
    refine ⟨_, hc, rfl, ?_⟩
    have := hpos1 _ hc hfgc
    omega
  · intro w1 hw1' w2 hw2' heq
    rw [Finset.mem_coe] at hw1' hw2'
    have hex1 := (mem_labels_toFinset (a := a) L2 w1).mp hw1'
    have hex2 := (mem_labels_toFinset (a := a) L2 w2).mp hw2'
    dsimp only at heq
    rw [dif_pos hex1, dif_pos hex2] at heq
    obtain ⟨hc1, hlab1, hp1⟩ := hex1.choose_spec
    obtain ⟨hc2, hlab2, hp2⟩ := hex2.choose_spec
    have hfg1 := hfg _ (hlab1 ▸ hp1)
    have hfg2 := hfg _ (hlab2 ▸ hp2)
    have := href _ hc1 _ hc2 hfg1 hfg2 heq
    rw [hlab1, hlab2] at this
    exact this

theorem count_labels_eq_countFg {a : Image} {L : LabelImage}
    (hh : L.height = a.height) (hw : L.width = a.width)
    (hbg : ∀ i j, a.pix i j = 0 → L.lab i j = 0)
    (hpos : ∀ c ∈ coords a.height a.width, a.pix c.1 c.2 ≠ 0 →
      1 ≤ L.lab c.1 c.2)
    (hinj : ∀ c ∈ coords a.height a.width, ∀ d ∈ coords a.height a.width,
      a.pix c.1 c.2 ≠ 0 → a.pix d.1 d.2 ≠ 0 →
      L.lab c.1 c.2 = L.lab d.1 d.2 → c = d) :
    L.count_labels = countFg a := by
  classical
  rw [LabelImage.count_labels, hh, hw, ← List.card_toFinset, countFg]
  have hfin : ((coords a.height a.width).filter
      (fun c => a.pix c.1 c.2 ≠ 0)).length = ((coords a.height a.width).filter
      (fun c => a.pix c.1 c.2 ≠ 0)).toFinset.card := by
    rw [List.card_toFinset, List.Nodup.dedup ((coords_nodup _ _).filter _)]
  rw [hfin]
  have hmemt : ∀ c : Nat × Nat, c ∈ ((coords a.height a.width).filter
      (fun c => a.pix c.1 c.2 ≠ 0)).toFinset ↔
      c ∈ coords a.height a.width ∧ a.pix c.1 c.2 ≠ 0 := by
    intro c
    rw [List.mem_toFinset, List.mem_filter]
    constructor
    · rintro ⟨h1, h2⟩
      exact ⟨h1, by simpa using h2⟩
    · rintro ⟨h1, h2⟩
      exact ⟨h1, by simpa using h2⟩
  have hfg : ∀ (c : Nat × Nat), 0 < L.lab c.1 c.2 → a.pix c.1 c.2 ≠ 0 := by
    intro c h0 hp
    rw [hbg c.1 c.2 hp] at h0
    omega
  refine Finset.card_bij (fun v hv =>
    ((mem_labels_toFinset (a := a) L v).mp hv).choose) ?_ ?_ ?_
  · intro v hv
    dsimp only
    obtain ⟨hc, hlab, hp⟩ := ((mem_labels_toFinset (a := a) L v).mp hv).choose_spec
    rw [hmemt]
    exact ⟨hc, hfg _ (by rw [hlab]; exact hp)⟩
  · intro v1 hv1 v2 hv2 heq
    dsimp only at heq
    obtain ⟨hc1, hlab1, hp1⟩ :=
      ((mem_labels_toFinset (a := a) L v1).mp hv1).choose_spec
    obtain ⟨hc2, hlab2, hp2⟩ :=
      ((mem_labels_toFinset (a := a) L v2).mp hv2).choose_spec
    rw [← hlab1, ← hlab2, heq]
  · intro d hd
    obtain ⟨hdc, hdfg⟩ := (hmemt d).mp hd
    have hv : L.lab d.1 d.2 ∈ (((coords a.height a.width).map
        (fun c => L.lab c.1 c.2)).filter (fun v => 0 < v)).toFinset := by
      rw [mem_labels_toFinset]
      refine ⟨d, hdc, rfl, ?_⟩
      have := hpos d hdc hdfg
      omega
    refine ⟨L.lab d.1 d.2, hv, ?_⟩
    dsimp only
    obtain ⟨hc, hlab, hp⟩ :=
      ((mem_labels_toFinset (a := a) L (L.lab d.1 d.2)).mp hv).choose_spec
    exact hinj _ hc d hdc (hfg _ (by rw [hlab]; exact hp)) hdfg hlab

theorem adjacent_4_to_8 {a : Image} {c d : Nat × Nat} (h : Adjacent a 4 c d) :
    Adjacent a 8 c d := by
  obtain ⟨hfc, hfd, hmem⟩ := h
  obtain ⟨hch, hcw⟩ := fg_bounds hfc
  refine ⟨hfc, hfd, ?_⟩
  rw [mem_get_neighbors_4] at hmem
  rw [mem_get_neighbors_8]
  rcases hmem with ⟨h1, rfl⟩ | ⟨h1, rfl⟩ | ⟨h1, rfl⟩ | ⟨h1, rfl⟩
  · exact Or.inr (Or.inl ⟨⟨h1, by omega, hcw⟩, rfl⟩)
  · exact Or.inr (Or.inr (Or.inr (Or.inr (Or.inr (Or.inr (Or.inl
      ⟨⟨by omega, hcw⟩, rfl⟩))))))
  · exact Or.inr (Or.inr (Or.inr (Or.inr (Or.inl ⟨⟨hch, by omega⟩, rfl⟩))))
  · exact Or.inr (Or.inr (Or.inr (Or.inl ⟨⟨hch, h1, by omega⟩, rfl⟩)))

theorem connected_4_to_8 {a : Image} {c d : Nat × Nat}
    (h : Connected a 4 c d) : Connected a 8 c d :=
  Relation.ReflTransGen.mono (fun _ _ hab => adjacent_4_to_8 hab) h

theorem UnionFind.label_connected (a : Image) (conn : Int) {c d : Nat × Nat}
    (hc : c ∈ coords a.height a.width) (hd : d ∈ coords a.height a.width)
    (hpc : a.pix c.1 c.2 ≠ 0) (hpd : a.pix d.1 d.2 ≠ 0) :
    (UnionFind.label a conn).lab c.1 c.2 = (UnionFind.label a conn).lab d.1 d.2 ↔
      Connected a conn c d :=
  (UnionFind.label_partition a conn hc hd hpc hpd).trans
    (pairEquiv_iff_connected hpc hpd)

theorem UnionFind.label_dims (a : Image) (conn : Int) :
    (UnionFind.label a conn).height = a.height ∧
    (UnionFind.label a conn).width = a.width := by
  rw [UnionFind.label_eq_fold]
  exact ⟨(UnionFind.label_state_spec a conn).hh,
    (UnionFind.label_state_spec a conn).hw⟩

theorem Prim.label_size (a : Image) (conn : Int) :
    (Prim.label a conn).height = a.height ∧
    (Prim.label a conn).width = a.width := by
  rw [Prim.label_eq_scan]
  exact ⟨(prim_label_state_spec a conn).hh, (prim_label_state_spec a conn).hw⟩

theorem TwoPass.label_hw (a : Image) (conn : Int) :
    (TwoPass.label a conn).height = a.height ∧
    (TwoPass.label a conn).width = a.width := by
  obtain ⟨ht1, hh1, hw1, hbg1, hfg1, hun1, hcls1⟩ := tp_first_pass_spec a conn
  set st1 := TwoPass.first_pass a conn
    (zeroLabels a.height a.width, EquivalenceTable.init) with hst1
  have hfg1' : ∀ c ∈ coords a.height a.width, 0 < st1.1.lab c.1 c.2 →
      ∃ v : Nat, 1 ≤ v ∧ v < st1.2.size ∧ st1.1.lab c.1 c.2 = (v : Int) := by
    intro c hc hpos
    by_cases hp : a.pix c.1 c.2 = 0
    · rw [hbg1 c hc hp] at hpos
      omega
    · exact hfg1 c hc hp
  obtain ⟨hta, hsza, hiffa, hha, hwa, hdone, hframe⟩ :=
    tp_second_pass_spec hfg1' (coords a.height a.width) [] st1.1 st1.2
      (coords_nodup _ _) (fun c hc => hc) ht1 rfl (fun y s => Iff.rfl)
      rfl rfl (by intro c hc; simp at hc) (fun c _ => rfl)
  constructor
  · rw [TwoPass.label_eq_folds, ← hst1]
    exact hha.trans hh1
  · rw [TwoPass.label_eq_folds, ← hst1]
    exact hwa.trans hw1

theorem denseLabels_of_range {a : Image} {L : LabelImage}
    (hh : L.height = a.height) (hw : L.width = a.width)
    (hK : ∃ K : Nat, ∀ v : Int,
      (∃ c ∈ coords a.height a.width, L.lab c.1 c.2 = v ∧ v ≠ 0) ↔
      (1 ≤ v ∧ v ≤ (K : Int))) :
    DenseLabels L := by
  obtain ⟨K, hKs⟩ := hK
  have hKs' : ∀ v : Int,
      (∃ c ∈ coords L.height L.width, L.lab c.1 c.2 = v ∧ v ≠ 0) ↔
      (1 ≤ v ∧ v ≤ (K : Int)) := by
    rw [hh, hw]
    exact hKs
  have hcount : L.count_labels = K := count_labels_of_range hKs'
  intro v
  rw [hcount]
  exact hKs' v

/-! ### C4 and C5: bounds-checked access -/

/-- C4: for every in-bounds coordinate and every integer value,
`Image.set_at` stores the value clamped into `[0, 255]` (negative values
become `0`, values above `255` become `255`, values in range are stored
as-is), whereas `LabelImage.set_at` stores the value unchanged, including
negative values and values above `255`. -/
theorem C4_pixel_clamped_label_raw (a : Image) (L : LabelImage) (x y v : Int)
    (ha : a.is_valid x y = true) (hL : L.is_valid x y = true) :
    (∃ a', a.set_at x y v = .ok a' ∧ a'.pix x.toNat y.toNat = clampByte v ∧
      (v < 0 → clampByte v = 0) ∧ (255 < v → clampByte v = 255) ∧
      (0 ≤ v → v ≤ 255 → clampByte v = v)) ∧
    (∃ L', L.set_at x y v = .ok L' ∧ L'.lab x.toNat y.toNat = v) := by
  constructor
  · rw [Image.set_at, dif_pos ha]
    refine ⟨_, rfl, by simp, ?_, ?_, ?_⟩
    · intro hv; simp [clampByte, hv]
    · intro hv
      have h1 : ¬ v < 0 := by omega
      have h2 : v > 255 := hv
      simp [clampByte, h1, h2]
    · intro h1 h2
      have h3 : ¬ v < 0 := by omega
      have h4 : ¬ v > 255 := by omega
      simp [clampByte, h3, h4]
  · rw [LabelImage.set_at, if_pos hL]
    exact ⟨_, rfl, by simp⟩

theorem C4_pixel_clamped_label_raw_witness :
    (∃ a', (ofRows [[7]]).set_at 0 0 (-3) = .ok a' ∧
      a'.pix (0 : Int).toNat (0 : Int).toNat = clampByte (-3) ∧
      ((-3 : Int) < 0 → clampByte (-3) = 0) ∧
      ((255 : Int) < -3 → clampByte (-3) = 255) ∧
      ((0 : Int) ≤ -3 → (-3 : Int) ≤ 255 → clampByte (-3) = -3)) ∧
    (∃ L', (zeroLabels 1 1).set_at 0 0 (-3) = .ok L' ∧
      L'.lab (0 : Int).toNat (0 : Int).toNat = -3) :=
  C4_pixel_clamped_label_raw (ofRows [[7]]) (zeroLabels 1 1) 0 0 (-3)
    (by decide) (by decide)

/-- C5: for both `Image` and `LabelImage`, `at` and `set_at` yield the
out-of-bounds error exactly when `(x, y)` lies outside
`[0, height) × [0, width)` (on error no modified grid is produced — the
`Except` result carries no image, matching the Python method raising before
any assignment), and for in-bounds coordinates `at` never errs and returns
the stored cell value. -/
theorem C5_out_of_bounds_iff (a : Image) (L : LabelImage) (x y v : Int) :
    (a.at x y = .error .outOfBounds ↔
      ¬ (0 ≤ x ∧ x < (a.height : Int) ∧ 0 ≤ y ∧ y < (a.width : Int))) ∧
    ((∃ a', a.set_at x y v = .ok a') ↔
      (0 ≤ x ∧ x < (a.height : Int) ∧ 0 ≤ y ∧ y < (a.width : Int))) ∧
    (L.at x y = .error .outOfBounds ↔
      ¬ (0 ≤ x ∧ x < (L.height : Int) ∧ 0 ≤ y ∧ y < (L.width : Int))) ∧
    ((∃ L', L.set_at x y v = .ok L') ↔
      (0 ≤ x ∧ x < (L.height : Int) ∧ 0 ≤ y ∧ y < (L.width : Int))) ∧
    ((0 ≤ x ∧ x < (a.height : Int) ∧ 0 ≤ y ∧ y < (a.width : Int)) →
      a.at x y = .ok (a.pix x.toNat y.toNat)) ∧
    ((0 ≤ x ∧ x < (L.height : Int) ∧ 0 ≤ y ∧ y < (L.width : Int)) →
      L.at x y = .ok (L.lab x.toNat y.toNat)) := by
  have hsa : (∃ a', a.set_at x y v = .ok a') ↔ a.is_valid x y = true := by
    by_cases h : a.is_valid x y = true
    · rw [Image.set_at, dif_pos h]
      simp [h]
    · rw [Image.set_at, dif_neg h]
      simp [h]
  have hsL : (∃ L', L.set_at x y v = .ok L') ↔ L.is_valid x y = true := by
    by_cases h : L.is_valid x y = true
    · rw [LabelImage.set_at, if_pos h]
      simp [h]
    · rw [LabelImage.set_at, if_neg h]
      simp [h]
  by_cases hva : (0 ≤ x ∧ x < (a.height : Int) ∧ 0 ≤ y ∧ y < (a.width : Int)) <;>
    by_cases hvL : (0 ≤ x ∧ x < (L.height : Int) ∧ 0 ≤ y ∧ y < (L.width : Int)) <;>
    refine ⟨?_, ?_, ?_, ?_, ?_, ?_⟩ <;>
    simp [Image.at, Image.is_valid, LabelImage.at, LabelImage.is_valid,
      hsa, hsL, hva, hvL]

/-! ### C10: the equivalence-table find guard -/

/-- C10: `EquivalenceTable.find` handles every integer argument: whenever
`x ≤ 0` or `x ≥ size` it returns `0` and leaves the table untouched (the
guard fires before any parent-array read); in particular `find 0 = 0`, and
the second pass, which only rewrites positive labels, can never turn a
background cell (label `0`) into a positive label. -/
theorem C10_find_total_out_of_range (t : EquivalenceTable) (x : Int)
    (st : LabelImage × EquivalenceTable) (c : Nat × Nat)
    (h : x ≤ 0 ∨ (t.size : Int) ≤ x) (h0 : st.1.lab c.1 c.2 = 0) :
    t.find x = (t, 0) ∧ t.find 0 = (t, 0) ∧
    (TwoPass.second_pass_step st c).1.lab c.1 c.2 = 0 := by
  have hfind : ∀ z : Int, z ≤ 0 ∨ (t.size : Int) ≤ z → t.find z = (t, 0) := by
    intro z hz
    by_cases hz0 : z ≤ 0
    · rw [EquivalenceTable.find, if_pos hz0]
    · rw [EquivalenceTable.find, if_neg hz0]
      have hlen : t.parent.length ≤ z.toNat := by
        rcases hz with hz | hz
        · omega
        · simp only [EquivalenceTable.size] at hz
          omega
      cases hp : t.parent.length with
      | zero => simp [findAux]
      | succ n =>
        rw [findAux]
        rw [if_pos (Or.inr (by omega))]
  refine ⟨hfind x h, hfind 0 (Or.inl le_rfl), ?_⟩
  simp only [TwoPass.second_pass_step, h0]
  norm_num
  exact h0

theorem C10_find_total_out_of_range_witness :
    EquivalenceTable.find (applyOps [TableOp.makeSet, TableOp.makeSet]) (-5) =
      (applyOps [TableOp.makeSet, TableOp.makeSet], 0) ∧
    EquivalenceTable.find (applyOps [TableOp.makeSet, TableOp.makeSet]) 0 =
      (applyOps [TableOp.makeSet, TableOp.makeSet], 0) ∧
    (TwoPass.second_pass_step (zeroLabels 2 2, EquivalenceTable.init) (0, 1)).1.lab 0 1 = 0 :=
  C10_find_total_out_of_range (applyOps [TableOp.makeSet, TableOp.makeSet]) (-5)
    (zeroLabels 2 2, EquivalenceTable.init) (0, 1) (Or.inl (by decide)) (by decide)

/-! ### C7: the Kruskal sort is the identity on the built edge list -/

/-- C7: for every input raster and every connectivity, `Kruskal.label`
computed without the edge-sorting step returns a label grid extensionally
equal (cell for cell, and with the same dimensions) to `Kruskal.label` as
written: every built edge has weight `1` and edges compare only by weight,
so the stable sort leaves the edge list in construction order. -/
theorem C7_kruskal_sort_noop (a : Image) (connectivity : Int) :
    (Kruskal.labelNoSort a connectivity).height = (Kruskal.label a connectivity).height ∧
    (Kruskal.labelNoSort a connectivity).width = (Kruskal.label a connectivity).width ∧
    ∀ x y : Nat, (Kruskal.labelNoSort a connectivity).lab x y =
      (Kruskal.label a connectivity).lab x y := by
  have h : Kruskal.labelNoSort a connectivity = Kruskal.label a connectivity := by
    rw [Kruskal.label, Kruskal.labelNoSort,
      sortEdges_all_one _ (build_edges_weight_one a connectivity)]
  exact ⟨by rw [h], by rw [h], fun x y => by rw [h]⟩

/-! ### C1: the four algorithms induce the same foreground partition -/

/-- C1: for every binary input raster and every connectivity in `{4, 8}`,
the four operations `TwoPass.label`, `UnionFind.label`, `Kruskal.label`
and `Prim.label` induce the same partition of the foreground pixels — two
foreground pixels receive equal labels under one algorithm iff they do
under each of the others — and `count_labels` of the four returned grids
is the same number. -/
theorem C1_four_algorithms_same_partition (a : Image) (conn : Int)
    (hbin : Binary a) (hcn : conn = 4 ∨ conn = 8) :
    (∀ c ∈ coords a.height a.width, ∀ d ∈ coords a.height a.width,
      a.pix c.1 c.2 ≠ 0 → a.pix d.1 d.2 ≠ 0 →
      (((TwoPass.label a conn).lab c.1 c.2 = (TwoPass.label a conn).lab d.1 d.2)
          ↔ ((UnionFind.label a conn).lab c.1 c.2 =
              (UnionFind.label a conn).lab d.1 d.2)) ∧
      (((UnionFind.label a conn).lab c.1 c.2 =
          (UnionFind.label a conn).lab d.1 d.2)
          ↔ ((Kruskal.label a conn).lab c.1 c.2 =
              (Kruskal.label a conn).lab d.1 d.2)) ∧
      (((Kruskal.label a conn).lab c.1 c.2 =
          (Kruskal.label a conn).lab d.1 d.2)
          ↔ ((Prim.label a conn).lab c.1 c.2 =
              (Prim.label a conn).lab d.1 d.2))) ∧
    (TwoPass.label a conn).count_labels = (UnionFind.label a conn).count_labels ∧
    (UnionFind.label a conn).count_labels = (Kruskal.label a conn).count_labels ∧
    (Kruskal.label a conn).count_labels = (Prim.label a conn).count_labels := by
  have hK := Kruskal.label_eq_unionFind a conn
  constructor
  · intro c hc d hd hpc hpd
    refine ⟨?_, ?_, ?_⟩
    · rw [TwoPass.label_eq_iff_conn a conn hc hd hpc hpd,
        UnionFind.label_connected a conn hc hd hpc hpd]
    · rw [hK]
    · rw [hK, UnionFind.label_connected a conn hc hd hpc hpd,
        Prim.label_eq_iff_connected a conn hc hd hpc hpd]
  refine ⟨?_, by rw [hK], ?_⟩
  · exact count_eq_of_same_partition (TwoPass.label_hw a conn).1
      (TwoPass.label_hw a conn).2 (UnionFind.label_dims a conn).1
      (UnionFind.label_dims a conn).2
      (fun i j h => TwoPass.label_bg_zero a conn h)
      (fun i j h => UnionFind.label_bg a conn h)
      (fun c hc hp => TwoPass.label_fg_one_le a conn hc hp)
      (fun c hc hp => UnionFind.label_fg_pos a conn hc hp)
      (fun c hc d hd hpc hpd => by
        rw [TwoPass.label_eq_iff_conn a conn hc hd hpc hpd,
          UnionFind.label_connected a conn hc hd hpc hpd])
  · rw [hK]
    exact count_eq_of_same_partition (UnionFind.label_dims a conn).1
      (UnionFind.label_dims a conn).2 (Prim.label_size a conn).1
      (Prim.label_size a conn).2
      (fun i j h => UnionFind.label_bg a conn h)
      (fun i j h => Prim.label_background a conn h)
      (fun c hc hp => UnionFind.label_fg_pos a conn hc hp)
      (fun c hc hp => Prim.label_fg_positive a conn hc hp)
      (fun c hc d hd hpc hpd => by
        rw [UnionFind.label_connected a conn hc hd hpc hpd,
          Prim.label_eq_iff_connected a conn hc hd hpc hpd])

theorem C1_four_algorithms_same_partition_witness :
    Binary samplePlus ∧ ((4 : Int) = 4 ∨ (4 : Int) = 8) ∧
    (TwoPass.label samplePlus 4).count_labels =
      (UnionFind.label samplePlus 4).count_labels ∧
    (UnionFind.label samplePlus 4).count_labels =
      (Kruskal.label samplePlus 4).count_labels ∧
    (Kruskal.label samplePlus 4).count_labels =
      (Prim.label samplePlus 4).count_labels :=
  ⟨by unfold Binary; decide, Or.inl rfl,
    (C1_four_algorithms_same_partition samplePlus 4
      (by unfold Binary; decide) (Or.inl rfl)).2⟩

/-! ### C2: density of the non-zero label values -/

/-- C2 is refuted for `TwoPass.label`: on the binary raster `sampleGap`
with connectivity 4, the returned grid contains the non-zero value `3`
while `count_labels` is `2`, so the set of non-zero values is not
`{1, 2}` — the second pass maps each pixel to the root of its class and
roots that absorbed another provisional label leave gaps. -/
theorem C2_cex_twoPass_gapped_labels :
    Binary sampleGap ∧
    (TwoPass.label sampleGap 4).lab 3 0 = 3 ∧
    (TwoPass.label sampleGap 4).count_labels = 2 ∧
    ¬ DenseLabels (TwoPass.label sampleGap 4) := by
  refine ⟨by unfold Binary; decide, by decide, by decide, fun hd => ?_⟩
  have h3 := (hd 3).mp ⟨(3, 0), by decide, by decide, by decide⟩
  have hc : (TwoPass.label sampleGap 4).count_labels = 2 := by decide
  rw [hc] at h3
  exact absurd h3.2 (by decide)

/-- C2 (amended): for every binary input raster and every connectivity in
`{4, 8}`, each of `UnionFind.label`, `Kruskal.label` and `Prim.label`
returns a grid whose set of non-zero values is exactly
`{1, ..., count_labels}`; the claim fails for `TwoPass.label`. -/
theorem C2_dense_labels_union_find_kruskal_prim (a : Image) (conn : Int)
    (hbin : Binary a) (hcn : conn = 4 ∨ conn = 8) :
    DenseLabels (UnionFind.label a conn) ∧
    DenseLabels (Kruskal.label a conn) ∧
    DenseLabels (Prim.label a conn) := by
  have hu : DenseLabels (UnionFind.label a conn) :=
    denseLabels_of_range (UnionFind.label_dims a conn).1
      (UnionFind.label_dims a conn).2 (UnionFind.label_range a conn)
  refine ⟨hu, ?_, denseLabels_of_range (Prim.label_size a conn).1
    (Prim.label_size a conn).2 (Prim.label_value_range a conn)⟩
  rw [Kruskal.label_eq_unionFind]
  exact hu

theorem C2_dense_labels_union_find_kruskal_prim_witness :
    Binary sampleDiag ∧ ((8 : Int) = 4 ∨ (8 : Int) = 8) ∧
    (DenseLabels (UnionFind.label sampleDiag 8) ∧
     DenseLabels (Kruskal.label sampleDiag 8) ∧
     DenseLabels (Prim.label sampleDiag 8)) :=
  ⟨by unfold Binary; decide, Or.inr rfl,
    C2_dense_labels_union_find_kruskal_prim sampleDiag 8
      (by unfold Binary; decide) (Or.inr rfl)⟩

/-! ### C3: label zero exactly at background pixels -/

/-- C3: for every binary input raster and every connectivity in `{4, 8}`,
each of the four algorithms returns a grid in which, at every in-bounds
coordinate, the input pixel is `0` iff the output label is `0`. -/
theorem C3_zero_iff_background (a : Image) (conn : Int)
    (hbin : Binary a) (hcn : conn = 4 ∨ conn = 8) :
    ∀ c ∈ coords a.height a.width,
      (a.pix c.1 c.2 = 0 ↔ (TwoPass.label a conn).lab c.1 c.2 = 0) ∧
      (a.pix c.1 c.2 = 0 ↔ (UnionFind.label a conn).lab c.1 c.2 = 0) ∧
      (a.pix c.1 c.2 = 0 ↔ (Kruskal.label a conn).lab c.1 c.2 = 0) ∧
      (a.pix c.1 c.2 = 0 ↔ (Prim.label a conn).lab c.1 c.2 = 0) := by
  intro c hc
  have hK := Kruskal.label_eq_unionFind a conn
  have hfg : ∀ (v : Int), (a.pix c.1 c.2 ≠ 0 → 1 ≤ v) → v = 0 →
      a.pix c.1 c.2 = 0 := by
    intro v h hv
    by_contra hp
    have := h hp
    omega
  refine ⟨⟨fun h => TwoPass.label_bg_zero a conn h,
      hfg _ (fun hp => TwoPass.label_fg_one_le a conn hc hp)⟩,
    ⟨fun h => UnionFind.label_bg a conn h,
      hfg _ (fun hp => UnionFind.label_fg_pos a conn hc hp)⟩,
    ⟨fun h => by rw [hK]; exact UnionFind.label_bg a conn h,
      hfg _ (fun hp => by rw [hK]; exact UnionFind.label_fg_pos a conn hc hp)⟩,
    ⟨fun h => Prim.label_background a conn h,
      hfg _ (fun hp => Prim.label_fg_positive a conn hc hp)⟩⟩

theorem C3_zero_iff_background_witness :
    Binary sampleDiag ∧ ((4 : Int) = 4 ∨ (4 : Int) = 8) ∧
    ((0, 1) ∈ coords sampleDiag.height sampleDiag.width ∧
      (sampleDiag.pix 0 1 = 0 ↔ (TwoPass.label sampleDiag 4).lab 0 1 = 0) ∧
      (sampleDiag.pix 0 1 = 0 ↔ (UnionFind.label sampleDiag 4).lab 0 1 = 0) ∧
      (sampleDiag.pix 0 1 = 0 ↔ (Kruskal.label sampleDiag 4).lab 0 1 = 0) ∧
      (sampleDiag.pix 0 1 = 0 ↔ (Prim.label sampleDiag 4).lab 0 1 = 0)) :=
  ⟨by unfold Binary; decide, Or.inl rfl, by decide,
    C3_zero_iff_background sampleDiag 4 (by unfold Binary; decide)
      (Or.inl rfl) (0, 1) (by decide)⟩

/-! ### C8: 8-connectivity yields at most as many components as 4 -/

/-- C8: for every fixed binary input raster and each of the four
algorithms, `count_labels` of the grid produced at connectivity 8 is at
most `count_labels` of the grid produced at connectivity 4, because the
4-neighbor set is a subset of the 8-neighbor set. -/
theorem C8_count_conn8_le_conn4 (a : Image) (hbin : Binary a) :
    (TwoPass.label a 8).count_labels ≤ (TwoPass.label a 4).count_labels ∧
    (UnionFind.label a 8).count_labels ≤ (UnionFind.label a 4).count_labels ∧
    (Kruskal.label a 8).count_labels ≤ (Kruskal.label a 4).count_labels ∧
    (Prim.label a 8).count_labels ≤ (Prim.label a 4).count_labels := by
  have hK4 := Kruskal.label_eq_unionFind a 4
  have hK8 := Kruskal.label_eq_unionFind a 8
  refine ⟨?_, ?_, ?_, ?_⟩
  · exact count_le_of_refines (TwoPass.label_hw a 4).1
      (TwoPass.label_hw a 4).2 (TwoPass.label_hw a 8).1
      (TwoPass.label_hw a 8).2 (fun i j h => TwoPass.label_bg_zero a 8 h)
      (fun c hc hp => TwoPass.label_fg_one_le a 4 hc hp)
      (fun c hc d hd hpc hpd h => by
        rw [TwoPass.label_eq_iff_conn a 8 hc hd hpc hpd]
        exact connected_4_to_8 ((TwoPass.label_eq_iff_conn a 4 hc hd hpc hpd).mp h))
  · exact count_le_of_refines (UnionFind.label_dims a 4).1
      (UnionFind.label_dims a 4).2 (UnionFind.label_dims a 8).1
      (UnionFind.label_dims a 8).2 (fun i j h => UnionFind.label_bg a 8 h)
      (fun c hc hp => UnionFind.label_fg_pos a 4 hc hp)
      (fun c hc d hd hpc hpd h => by
        rw [UnionFind.label_connected a 8 hc hd hpc hpd]
        exact connected_4_to_8
          ((UnionFind.label_connected a 4 hc hd hpc hpd).mp h))
  · rw [hK4, hK8]
    exact count_le_of_refines (UnionFind.label_dims a 4).1
      (UnionFind.label_dims a 4).2 (UnionFind.label_dims a 8).1
      (UnionFind.label_dims a 8).2 (fun i j h => UnionFind.label_bg a 8 h)
      (fun c hc hp => UnionFind.label_fg_pos a 4 hc hp)
      (fun c hc d hd hpc hpd h => by
        rw [UnionFind.label_connected a 8 hc hd hpc hpd]
        exact connected_4_to_8
          ((UnionFind.label_connected a 4 hc hd hpc hpd).mp h))
  · exact count_le_of_refines (Prim.label_size a 4).1
      (Prim.label_size a 4).2 (Prim.label_size a 8).1
      (Prim.label_size a 8).2 (fun i j h => Prim.label_background a 8 h)
      (fun c hc hp => Prim.label_fg_positive a 4 hc hp)
      (fun c hc d hd hpc hpd h => by
        rw [Prim.label_eq_iff_connected a 8 hc hd hpc hpd]
        exact connected_4_to_8 ((Prim.label_eq_iff_connected a 4 hc hd hpc hpd).mp h))

theorem C8_count_conn8_le_conn4_witness :
    Binary sampleDiag ∧
    ((TwoPass.label sampleDiag 8).count_labels ≤
      (TwoPass.label sampleDiag 4).count_labels ∧
     (UnionFind.label sampleDiag 8).count_labels ≤
      (UnionFind.label sampleDiag 4).count_labels ∧
     (Kruskal.label sampleDiag 8).count_labels ≤
      (Kruskal.label sampleDiag 4).count_labels ∧
     (Prim.label sampleDiag 8).count_labels ≤
      (Prim.label sampleDiag 4).count_labels) :=
  ⟨by unfold Binary; decide,
    C8_count_conn8_le_conn4 sampleDiag (by unfold Binary; decide)⟩

/-! ### C9: connectivity values outside {4, 8} degenerate to singletons -/

/-- C9: for every connectivity outside `{4, 8}`, the neighbor-enumeration
helpers return the empty list, so each of the four algorithms returns a
grid in which two foreground pixels share a label iff they are the same
pixel (every foreground pixel is its own singleton component) and
`count_labels` equals the number of non-zero input pixels; in particular
all four algorithms induce the same degenerate partition. -/
theorem C9_degenerate_connectivity (a : Image) (conn : Int)
    (h4 : conn ≠ 4) (h8 : conn ≠ 8) :
    (∀ x y w h : Nat, get_neighbors x y w h conn = []) ∧
    (∀ x y w h : Nat, TwoPass.get_previous_neighbors x y w h conn = []) ∧
    (∀ c ∈ coords a.height a.width, ∀ d ∈ coords a.height a.width,
      a.pix c.1 c.2 ≠ 0 → a.pix d.1 d.2 ≠ 0 →
      (((TwoPass.label a conn).lab c.1 c.2 =
          (TwoPass.label a conn).lab d.1 d.2) ↔ c = d) ∧
      (((UnionFind.label a conn).lab c.1 c.2 =
          (UnionFind.label a conn).lab d.1 d.2) ↔ c = d) ∧
      (((Kruskal.label a conn).lab c.1 c.2 =
          (Kruskal.label a conn).lab d.1 d.2) ↔ c = d) ∧
      (((Prim.label a conn).lab c.1 c.2 =
          (Prim.label a conn).lab d.1 d.2) ↔ c = d)) ∧
    (TwoPass.label a conn).count_labels = countFg a ∧
    (UnionFind.label a conn).count_labels = countFg a ∧
    (Kruskal.label a conn).count_labels = countFg a ∧
    (Prim.label a conn).count_labels = countFg a := by
  have hK := Kruskal.label_eq_unionFind a conn
  have hco : ∀ {c d : Nat × Nat}, Connected a conn c d ↔ c = d :=
    fun {c d} => connected_other h4 h8
  refine ⟨fun x y w h => get_neighbors_other h4 h8,
    fun x y w h => prev_other h4 h8, ?_, ?_, ?_, ?_, ?_⟩
  · intro c hc d hd hpc hpd
    refine ⟨(TwoPass.label_eq_iff_conn a conn hc hd hpc hpd).trans hco,
      (UnionFind.label_connected a conn hc hd hpc hpd).trans hco, ?_,
      (Prim.label_eq_iff_connected a conn hc hd hpc hpd).trans hco⟩
    rw [hK]
    exact (UnionFind.label_connected a conn hc hd hpc hpd).trans hco
  · exact count_labels_eq_countFg (TwoPass.label_hw a conn).1
      (TwoPass.label_hw a conn).2 (fun i j h => TwoPass.label_bg_zero a conn h)
      (fun c hc hp => TwoPass.label_fg_one_le a conn hc hp)
      (fun c hc d hd hpc hpd h =>
        hco.mp ((TwoPass.label_eq_iff_conn a conn hc hd hpc hpd).mp h))
  · exact count_labels_eq_countFg (UnionFind.label_dims a conn).1
      (UnionFind.label_dims a conn).2 (fun i j h => UnionFind.label_bg a conn h)
      (fun c hc hp => UnionFind.label_fg_pos a conn hc hp)
      (fun c hc d hd hpc hpd h =>
        hco.mp ((UnionFind.label_connected a conn hc hd hpc hpd).mp h))
  · rw [hK]
    exact count_labels_eq_countFg (UnionFind.label_dims a conn).1
      (UnionFind.label_dims a conn).2 (fun i j h => UnionFind.label_bg a conn h)
      (fun c hc hp => UnionFind.label_fg_pos a conn hc hp)
      (fun c hc d hd hpc hpd h =>
        hco.mp ((UnionFind.label_connected a conn hc hd hpc hpd).mp h))
  · exact count_labels_eq_countFg (Prim.label_size a conn).1
      (Prim.label_size a conn).2 (fun i j h => Prim.label_background a conn h)
      (fun c hc hp => Prim.label_fg_positive a conn hc hp)
      (fun c hc d hd hpc hpd h =>
        hco.mp ((Prim.label_eq_iff_connected a conn hc hd hpc hpd).mp h))

theorem C9_degenerate_connectivity_witness :
    ((6 : Int) ≠ 4 ∧ (6 : Int) ≠ 8) ∧
    ((TwoPass.label sampleGap 6).count_labels = countFg sampleGap ∧
     (UnionFind.label sampleGap 6).count_labels = countFg sampleGap ∧
     (Kruskal.label sampleGap 6).count_labels = countFg sampleGap ∧
     (Prim.label sampleGap 6).count_labels = countFg sampleGap) :=
  ⟨⟨by decide, by decide⟩,
    (C9_degenerate_connectivity sampleGap 6 (by decide) (by decide)).2.2.2⟩

end Labelling
